import Mathlib

/-!
Verification development for the Orin map-point index and governance manager.

The definitions below are a shallow embedding of the C++ sources:
`src/util/mappoint.cpp`, `src/index/mappointindex.cpp` and
`src/governance/governance.cpp`.  Machine integers are modelled as `Nat`/`Int`
(all values of interest stay far below the 2^32 / 2^63 bounds, and no
arithmetic in the modelled code can overflow), doubles as exact rationals,
`uint256` hashes as naturals, and the external key-value store as explicit
association lists with per-batch atomic updates.
-/

namespace OrinSpec

/-! ## Coordinate encoding (`src/util/mappoint.cpp`) -/

/-- `COORD_SCALE` from `util/mappoint.h`. -/
def coordScale : ℚ := 1000000

/-- `MAX_LATITUDE` from `util/mappoint.h`. -/
def maxLatitude : ℚ := 90

/-- `MAX_LONGITUDE` from `util/mappoint.h`. -/
def maxLongitude : ℚ := 180

/-- Model of the C library `llround`: round to the nearest integer, halves
away from zero.  Doubles are modelled as exact rationals. -/
def llround (q : ℚ) : ℤ := if 0 ≤ q then ⌊q + 1/2⌋ else ⌈q - 1/2⌉

/-- `EncodeCoordinate` from `util/mappoint.cpp`: range check, then scale and
round.  The `isfinite` guard always passes in the rational model. -/
def encodeCoordinate (value maxAbs : ℚ) : Option ℤ :=
  if value < -maxAbs ∨ maxAbs < value then none
  else some (llround (value * coordScale))

/-- `EncodeCoordinates` from `util/mappoint.cpp`. -/
def encodeCoordinates (lat lon : ℚ) : Option (ℤ × ℤ) :=
  match encodeCoordinate lat maxLatitude with
  | none => none
  | some la =>
    match encodeCoordinate lon maxLongitude with
    | none => none
    | some lo => some (la, lo)

/-! ## Payload parsing (`src/util/mappoint.cpp`) -/

/-- Value of a list of decimal digit characters, `none` if empty or not all
digits. -/
def digitsVal (cs : List Char) : Option ℕ :=
  if cs = [] then none
  else if cs.all Char.isDigit then
    some (cs.foldl (fun a c => a * 10 + (c.toNat - 48)) 0)
  else none

def int64Max : ℤ := 9223372036854775807

def int64Min : ℤ := -9223372036854775808

/-- Modelled from the spec: `ParseInt64` of `util/strencodings` (not under
`src/`): an optional sign followed by decimal digits, the whole string
consumed, value within the int64 range. -/
def parseInt64 (s : String) : Option ℤ :=
  let core : List Char → Bool → Option ℤ := fun cs neg =>
    match digitsVal cs with
    | none => none
    | some n =>
      let v : ℤ := if neg then -(n : ℤ) else (n : ℤ)
      if int64Min ≤ v ∧ v ≤ int64Max then some v else none
  match s.data with
  | [] => none
  | '-' :: rest => core rest true
  | '+' :: rest => core rest false
  | l => core l false

/-- Value of a hex digit character. -/
def hexVal (c : Char) : Option ℕ :=
  if '0' ≤ c ∧ c ≤ '9' then some (c.toNat - 48)
  else if 'a' ≤ c ∧ c ≤ 'f' then some (c.toNat - 87)
  else if 'A' ≤ c ∧ c ≤ 'F' then some (c.toNat - 55)
  else none

/-- Modelled from the spec: `IsHex` of `util/strencodings` (not under
`src/`). -/
def isHex (s : String) : Bool :=
  decide (s.data ≠ []) && s.data.all (fun c => (hexVal c).isSome)

/-- Big-endian hex-string value, the model of `uint256::SetHex`. -/
def hexToNat (s : String) : ℕ :=
  s.data.foldl (fun a c => a * 16 + ((hexVal c).getD 0)) 0

/-- Split a character list at every occurrence of the separator, keeping
empty tokens. -/
def splitOnChar (c : Char) : List Char → List (List Char)
  | [] => [[]]
  | x :: rest =>
    let r := splitOnChar c rest
    if x = c then [] :: r else (x :: r.headD []) :: r.tail

/-- Modelled from the spec: `SplitString` of `util/string` (not under
`src/`): split a string at every separator occurrence, keeping empty
tokens. -/
def splitString (s : String) (c : Char) : List String :=
  (splitOnChar c s.data).map String.mk

/-- The creation marker `"ORINMAP1"` (`MAP_POINT_` marker constant in
`util/mappoint.h`). -/
def mapPointMarker : String := "ORINMAP1"

/-- The transfer marker `"ORINMAPX"`. -/
def mapPointTransferMarker : String := "ORINMAPX"

/-- `ParsePayload` from `util/mappoint.cpp`.  `sizeof(MAP_POINT_PREFIX)` is 9
(eight characters plus the terminating NUL), so the guard requires length at
least 9. -/
def parsePayload (payload : String) : Option (ℤ × ℤ) :=
  if payload.length < 9 then none
  else
    match splitString payload ':' with
    | [p0, p1, p2] =>
      if p0 ≠ mapPointMarker then none
      else
        match parseInt64 p1, parseInt64 p2 with
        | some la, some lo =>
          if 90000000 < la.natAbs then none
          else if 180000000 < lo.natAbs then none
          else some (la, lo)
        | _, _ => none
    | _ => none

/-- `ParseTransferPayload` from `util/mappoint.cpp`: the guard is a strict
`<=` on the size, then a 2-way split, the transfer marker, and a 64-character
hex transaction id. -/
def parseTransferPayload (payload : String) : Option ℕ :=
  if payload.length ≤ 9 then none
  else
    match splitString payload ':' with
    | [p0, p1] =>
      if p0 ≠ mapPointTransferMarker then none
      else if p1.length = 64 ∧ isHex p1 then some (hexToNat p1) else none
    | _ => none

/-! ## Transactions and scripts (`src/index/mappointindex.cpp`) -/

/-- One parsed script operation (opcode plus, for pushes, the pushed data):
the result of `CScript::GetOp`, whose byte-level internals are external to
`src/`. -/
structure ScriptOp where
  opcode : ℕ
  data : String
deriving DecidableEq

def OP_RETURN : ℕ := 106

def OP_PUSHDATA4 : ℕ := 78

/-- `ExtractOpReturnData` from `index/mappointindex.cpp`: the first operation
must be `OP_RETURN`, the second a direct push (opcode at most `OP_PUSHDATA4`)
of non-empty data. -/
def extractOpReturnData (ops : List ScriptOp) : Option String :=
  match ops with
  | [] => none
  | op1 :: rest =>
    if op1.opcode ≠ OP_RETURN then none
    else
      match rest with
      | [] => none
      | op2 :: _ =>
        if OP_PUSHDATA4 < op2.opcode ∨ op2.data = "" then none else some op2.data

/-- A transaction output.  `unspendable` models `CScript::IsUnspendable` and
`dest` the standard destination extraction (`ExtractDestination` followed by
`EncodeDestination`); both routines are external to `src/` and are modelled
as fields. -/
structure TxOut where
  unspendable : Bool
  ops : List ScriptOp
  dest : Option String
deriving DecidableEq

/-- A transaction together with the scripts of the outputs it spends.
`vinPrevouts` carries `Coin.out.scriptPubKey` for each input, the data
`WriteBlock` reads from the block-undo store (external to `src/`). -/
structure Tx where
  txid : ℕ
  isCoinbase : Bool
  vout : List TxOut
  vinPrevouts : List TxOut
deriving DecidableEq

/-- `ExtractOwnerAddress` from `index/mappointindex.cpp`: the first spendable
output with an extractable destination. -/
def extractOwnerAddress (tx : Tx) : Option String :=
  tx.vout.findSome? (fun o => if o.unspendable then none else o.dest)

/-- The payload scan shared by `ExtractRecord` and the transfer branch of
`WriteBlock`: the first unspendable output whose script yields an OP_RETURN
payload. -/
def firstOpReturnPayload (outs : List TxOut) : Option String :=
  outs.findSome? (fun o => if o.unspendable then extractOpReturnData o.ops else none)

/-- `MapPointIndex::Record` from `index/mappointindex.h`. -/
structure Record where
  height : ℕ
  origin_owner : String
  current_owner : String
  encoded_lat : ℤ
  encoded_lon : ℤ
deriving DecidableEq

/-- `MapPointIndex::ExtractRecord` from `index/mappointindex.cpp` (the height
field is filled in later by `WriteBlock`). -/
def extractRecord (tx : Tx) : Option Record :=
  if tx.isCoinbase then none
  else
    match firstOpReturnPayload tx.vout with
    | none => none
    | some payload =>
      match parsePayload payload with
      | none => none
      | some (la, lo) =>
        match extractOwnerAddress tx with
        | none => none
        | some owner => some ⟨0, owner, owner, la, lo⟩

/-! ## Association-list model of the key-value store

The map-point database (`dbwrapper`, external to `src/`) is modelled as
association lists, one per one-byte key space.  A `WriteBatch` commit is one
atomic update of the state; reads issued while a batch is being built see the
state from before the batch, as they do in the C++ code. -/

/-- First-match lookup, the model of `CDBWrapper::Read`. -/
def kvRead {α β : Type} [DecidableEq α] : List (α × β) → α → Option β
  | [], _ => none
  | e :: rest, k => if e.1 = k then some e.2 else kvRead rest k

/-- Remove every binding of a key, the model of a batched `Erase`. -/
def kvErase {α β : Type} [DecidableEq α] : List (α × β) → α → List (α × β)
  | [], _ => []
  | e :: rest, k => if e.1 = k then kvErase rest k else e :: kvErase rest k

/-- Overwrite a key, the model of a batched `Write`. -/
def kvWrite {α β : Type} [DecidableEq α] (m : List (α × β)) (k : α) (v : β) :
    List (α × β) :=
  (k, v) :: kvErase m k

/-- `std::map`/`std::multimap` style `emplace`: keep an existing binding. -/
def mapEmplace {β : Type} (m : List (ℕ × β)) (k : ℕ) (v : β) : List (ℕ × β) :=
  if (kvRead m k).isSome then m else m ++ [(k, v)]

/-- Insert a key into a key-only keyspace (value byte `0` in the store). -/
def setInsert {α : Type} [DecidableEq α] (s : List α) (k : α) : List α :=
  if k ∈ s then s else k :: s

/-- Erase a key from a key-only keyspace. -/
def setErase {α : Type} [DecidableEq α] : List α → α → List α
  | [], _ => []
  | e :: rest, k => if e = k then setErase rest k else e :: setErase rest k

/-! ## The map-point index store (`src/index/mappointindex.cpp`) -/

/-- `MapPointIndex::TransferRecord` from `index/mappointindex.h`. -/
structure TransferRecord where
  height : ℕ
  new_owner : String
  previous_owner : String
deriving DecidableEq

/-- The five key spaces of the map-point database: `p` point records,
`h` (height, txid), `o` (owner, txid), `t` (origin, transfer) records and
`y` (height, origin, transfer). -/
structure DBState where
  points : List (ℕ × Record)
  heightIdx : List (ℕ × ℕ)
  ownerIdx : List (String × ℕ)
  transfers : List ((ℕ × ℕ) × TransferRecord)
  transferHeightIdx : List (ℕ × ℕ × ℕ)
deriving DecidableEq

/-- The empty store. -/
def DBState.empty : DBState := ⟨[], [], [], [], []⟩

/-- `DB::WritePoints`: one batch writing each record together with its
height-index entry and, when the owner is non-empty, its owner-index
entry. -/
def wpStep (st : DBState) (e : ℕ × Record) : DBState :=
  { st with
    points := kvWrite st.points e.1 e.2
    heightIdx := setInsert st.heightIdx (e.2.height, e.1)
    ownerIdx :=
      if e.2.current_owner ≠ "" then setInsert st.ownerIdx (e.2.current_owner, e.1)
      else st.ownerIdx }

def writePoints (recs : List (ℕ × Record)) (s : DBState) : DBState :=
  recs.foldl wpStep s

/-- `DB::WriteRecord`: overwrite one point record. -/
def writeRecord (txid : ℕ) (r : Record) (s : DBState) : DBState :=
  { s with points := kvWrite s.points txid r }

/-- `DB::UpdateOwnerIndex`: one batch erasing the old owner entry (when
non-empty) and writing the new one (when non-empty). -/
def updateOwnerIndex (oldOwner newOwner : String) (origin : ℕ) (s : DBState) : DBState :=
  let o1 := if oldOwner ≠ "" then setErase s.ownerIdx (oldOwner, origin) else s.ownerIdx
  let o2 := if newOwner ≠ "" then setInsert o1 (newOwner, origin) else o1
  { s with ownerIdx := o2 }

/-- `DB::WriteTransfer`: one batch writing the transfer record and its
height-keyed reverse entry. -/
def writeTransfer (key : ℕ × ℕ) (r : TransferRecord) (s : DBState) : DBState :=
  { s with
    transfers := kvWrite s.transfers key r
    transferHeightIdx := setInsert s.transferHeightIdx (r.height, key.1, key.2) }

/-- Ascending order on (height, txid) keys. -/
def hkLe (a b : ℕ × ℕ) : Prop := a.1 < b.1 ∨ (a.1 = b.1 ∧ a.2 ≤ b.2)

instance : DecidableRel hkLe := fun a b => by unfold hkLe; infer_instance

instance : IsTotal (ℕ × ℕ) hkLe := ⟨by intro a b; unfold hkLe; omega⟩

instance : IsTrans (ℕ × ℕ) hkLe := ⟨by intro a b c; unfold hkLe; omega⟩

/-- Ascending order on (height, origin, transfer) keys. -/
def thKeyLe (a b : ℕ × ℕ × ℕ) : Prop :=
  a.1 < b.1 ∨ (a.1 = b.1 ∧ (a.2.1 < b.2.1 ∨ (a.2.1 = b.2.1 ∧ a.2.2 ≤ b.2.2)))

instance : DecidableRel thKeyLe := fun a b => by unfold thKeyLe; infer_instance

instance : IsTotal (ℕ × ℕ × ℕ) thKeyLe := ⟨by intro a b; unfold thKeyLe; omega⟩

instance : IsTrans (ℕ × ℕ × ℕ) thKeyLe := ⟨by intro a b c; unfold thKeyLe; omega⟩

/-- The ascending list of (height, txid) keys `ErasePointsAboveHeight`
visits (all height-index entries strictly above the cutoff).
Modelled from the spec: the keyspace is iterated in ascending (height, txid)
order — the byte-level key encoding of the external database wrapper is not
under `src/`. -/
def removedPointKeys (s : DBState) (h : ℕ) : List (ℕ × ℕ) :=
  List.insertionSort hkLe (s.heightIdx.filter (fun e => decide (h < e.1)))

/-- One cursor step of `ErasePointsAboveHeight` (point reads against the
pre-batch state `s`). -/
def epahStep (s : DBState) (acc : List ℕ × DBState) (k : ℕ × ℕ) : List ℕ × DBState :=
  match kvRead s.points k.2 with
  | some r =>
    (acc.1 ++ [k.2],
     { acc.2 with
       points := kvErase acc.2.points k.2
       ownerIdx :=
         if r.current_owner ≠ "" then setErase acc.2.ownerIdx (r.current_owner, k.2)
         else acc.2.ownerIdx
       heightIdx := setErase acc.2.heightIdx k })
  | none => (acc.1, { acc.2 with heightIdx := setErase acc.2.heightIdx k })

/-- `DB::ErasePointsAboveHeight`: visit every height-index entry strictly
above the cutoff, erase the point it names together with its owner-index
entry, and the height-index entry itself; return the erased txids.  Reads go
against the pre-batch state `s` as in the C++ loop (the batch commits once,
after the cursor pass); the batched erases are applied immediately here,
which commutes because every step only erases. -/
def erasePointsAboveHeight (s : DBState) (h : ℕ) : List ℕ × DBState :=
  (removedPointKeys s h).foldl (epahStep s) ([], s)

/-- The ascending list of (height, origin, transfer) keys the rewind pass
visits (all reverse-lookup entries strictly above the cutoff). -/
def removedTransferKeys (s : DBState) (h : ℕ) : List (ℕ × ℕ × ℕ) :=
  List.insertionSort thKeyLe (s.transferHeightIdx.filter (fun e => decide (h < e.1)))

/-- The owner rollback updates collected by `DB::RemoveTransfersAboveHeight`
in collection (ascending-key) order, before the final reversal.  Transfer
reads go against the pre-batch state, as in the C++ batch. -/
def collectedOwnerUpdates (s : DBState) (h : ℕ) : List (ℕ × String) :=
  (removedTransferKeys s h).filterMap
    (fun k => (kvRead s.transfers (k.2.1, k.2.2)).map (fun r => (k.2.1, r.previous_owner)))

/-- One cursor step of `RemoveTransfersAboveHeight` (transfer reads against
the pre-batch state `s`). -/
def rtahStep (s : DBState) (st : DBState) (k : ℕ × ℕ × ℕ) : DBState :=
  { st with
    transfers :=
      if (kvRead s.transfers (k.2.1, k.2.2)).isSome then
        kvErase st.transfers (k.2.1, k.2.2)
      else st.transfers
    transferHeightIdx := setErase st.transferHeightIdx k }

/-- `DB::RemoveTransfersAboveHeight`: erase every transfer recorded strictly
above the cutoff together with its reverse-lookup entry, returning the
reversed owner-update list. -/
def removeTransfersAboveHeight (s : DBState) (h : ℕ) : List (ℕ × String) × DBState :=
  ((collectedOwnerUpdates s h).reverse,
   (removedTransferKeys s h).foldl (rtahStep s) s)

/-- `DB::RemoveAllTransfersForOrigin`: erase every transfer of one origin and
its reverse-lookup entry. -/
def removeAllTransfersForOrigin (s : DBState) (origin : ℕ) : DBState :=
  { s with
    transfers := s.transfers.filter (fun e => decide (e.1.1 ≠ origin))
    transferHeightIdx :=
      (s.transfers.filter (fun e => decide (e.1.1 = origin))).foldl
        (fun th e => setErase th (e.2.height, e.1.1, e.1.2)) s.transferHeightIdx }

/-- One owner rollback step of `MapPointIndex::Rewind`: restore the point's
current owner to the recorded previous owner and fix the owner index. -/
def applyOwnerUpdate (st : DBState) (u : ℕ × String) : DBState :=
  match kvRead st.points u.1 with
  | none => st
  | some r =>
    updateOwnerIndex r.current_owner u.2 u.1
      (writeRecord u.1 { r with current_owner := u.2 } st)

/-- `MapPointIndex::Rewind` (to a tip of height `h`): roll back the transfers
recorded above `h` in reverse block order, then erase the points created
above `h` together with all their remaining transfers.  Rewind failure
injection is not modelled here; the failure path of the writer is covered by
`writeBlock`. -/
def rewind (s : DBState) (h : ℕ) : DBState :=
  let p1 := removeTransfersAboveHeight s h
  let s2 := p1.1.foldl applyOwnerUpdate p1.2
  let p3 := erasePointsAboveHeight s2 h
  p3.1.foldl removeAllTransfersForOrigin p3.2

/-- The store after the transfer-removal and owner-rollback passes of
`Rewind`, before point erasure. -/
def rewindMid (s : DBState) (h : ℕ) : DBState :=
  (removeTransfersAboveHeight s h).1.foldl applyOwnerUpdate
    (removeTransfersAboveHeight s h).2

/-! ## `MapPointIndex::WriteBlock` -/

/-- A pending transfer collected during the scan phase of `WriteBlock`. -/
structure PendingTransfer where
  origin : ℕ
  transfer_txid : ℕ
  height : ℕ
  new_owner : String
  prev_owner : String
deriving DecidableEq

/-- Update the record stored under a key of the pending map, leaving the map
unchanged when the key is absent. -/
def pendingSet (m : List (ℕ × Record)) (k : ℕ) (f : Record → Record) :
    List (ℕ × Record) :=
  m.map (fun e => if e.1 = k then (e.1, f e.2) else e)

/-- Does some input of `tx` spend an output owned by `owner`?  This is the
`owns_input` loop of `WriteBlock`, reading the spent scripts from the block
undo data. -/
def ownsInput (tx : Tx) (owner : String) : Bool :=
  tx.vinPrevouts.any
    (fun o => !o.unspendable && decide (o.dest = some owner))

/-- Phase one of `MapPointIndex::WriteBlock`: one pass over the block's
transactions building the pending creation map (a `std::map` keyed by txid,
populated with `emplace`) and the pending transfer list.  Reads of
pre-existing points go to the database state `db`.  The undo data is carried
on the transactions (`Tx.vinPrevouts`); the `tx_index == 0` skip coincides
with the coinbase test already modelled. -/
def scanBlock (db : DBState) (height : ℕ) :
    List Tx → List (ℕ × Record) → List PendingTransfer →
    List (ℕ × Record) × List PendingTransfer
  | [], pp, pt => (pp, pt)
  | tx :: rest, pp, pt =>
    match extractRecord tx with
    | some r => scanBlock db height rest (mapEmplace pp tx.txid { r with height := height }) pt
    | none =>
      match if tx.isCoinbase then none else firstOpReturnPayload tx.vout with
      | none => scanBlock db height rest pp pt
      | some payload =>
        match parseTransferPayload payload with
        | none => scanBlock db height rest pp pt
        | some origin =>
          match
            (match kvRead pp origin with
             | some pr => some pr.current_owner
             | none => (kvRead db.points origin).map (fun r => r.current_owner) :
              Option String)
          with
          | none => scanBlock db height rest pp pt
          | some prev =>
            if prev = "" then scanBlock db height rest pp pt
            else if ¬ ownsInput tx prev then scanBlock db height rest pp pt
            else
              match extractOwnerAddress tx with
              | none => scanBlock db height rest pp pt
              | some newOwner =>
                if newOwner = "" ∨ newOwner = prev then scanBlock db height rest pp pt
                else
                  scanBlock db height rest
                    (pendingSet pp origin (fun r => { r with current_owner := newOwner }))
                    (pt ++ [⟨origin, tx.txid, height, newOwner, prev⟩])

/-- The creation map in `std::map` iteration order (ascending txid). -/
def pendingList (pp : List (ℕ × Record)) : List (ℕ × Record) :=
  List.insertionSort (fun a b => a.1 ≤ b.1) pp

/-- The per-transfer write loop of `WriteBlock`.  `sched i` tells whether the
`i`-th batch commit attempted by this `WriteBlock` call succeeds (failure
injection for the external store); a failed commit aborts the call with
`false`, leaving previously committed batches in place. -/
def applyTransferOps (sched : ℕ → Bool) :
    ℕ → DBState → List PendingTransfer → Bool × DBState
  | _, st, [] => (true, st)
  | i, st, t :: rest =>
    match kvRead st.points t.origin with
    | none => applyTransferOps sched i st rest
    | some r =>
      if ¬ sched i then (false, st)
      else
        let st1 := writeRecord t.origin { r with current_owner := t.new_owner } st
        if ¬ sched (i + 1) then (false, st1)
        else
          let st2 := updateOwnerIndex r.current_owner t.new_owner t.origin st1
          if ¬ sched (i + 2) then (false, st2)
          else
            let st3 :=
              writeTransfer (t.origin, t.transfer_txid) ⟨t.height, t.new_owner, t.prev_owner⟩ st2
            applyTransferOps sched (i + 3) st3 rest

/-- `MapPointIndex::WriteBlock` for a block of height `height`: scan, then
commit the creations in one batch, then the per-transfer batches. -/
def writeBlock (sched : ℕ → Bool) (db : DBState) (height : ℕ) (txs : List Tx) :
    Bool × DBState :=
  let scanned := scanBlock db height txs [] []
  let creations := pendingList scanned.1
  if creations.isEmpty then applyTransferOps sched 0 db scanned.2
  else if ¬ sched 0 then (false, db)
  else applyTransferOps sched 1 (writePoints creations db) scanned.2

/-- `DB::ReadTransfers` result rows (`MapPointTransferInfo` from
`index/mappointindex.h`). -/
structure MapPointTransferInfo where
  transfer_txid : ℕ
  height : ℕ
  new_owner : String
deriving DecidableEq

/-- The sort order of `DB::ReadTransfers`: by height, ties by transfer
txid. -/
def transferInfoLe (a b : MapPointTransferInfo) : Prop :=
  a.height < b.height ∨ (a.height = b.height ∧ a.transfer_txid ≤ b.transfer_txid)

instance : DecidableRel transferInfoLe := fun a b => by unfold transferInfoLe; infer_instance

instance : IsTotal MapPointTransferInfo transferInfoLe := ⟨by
  intro a b; unfold transferInfoLe; omega⟩

instance : IsTrans MapPointTransferInfo transferInfoLe := ⟨by
  intro a b c; unfold transferInfoLe; omega⟩

/-- `DB::ReadTransfers` followed by `MapPointIndex::GetTransfers`: collect
every transfer of the origin and sort by (height, transfer txid).  The C++
collects in cursor order and then sorts with `std::sort`; any sorted
permutation is the same list, so an insertion sort models it. -/
def getTransfers (s : DBState) (origin : ℕ) : List MapPointTransferInfo :=
  List.insertionSort transferInfoLe
    ((s.transfers.filter (fun e => decide (e.1.1 = origin))).map
      (fun e => ⟨e.1.2, e.2.height, e.2.new_owner⟩))

/-! ## Governance manager (`src/governance/governance.cpp`) -/

/-- Governance object kinds. -/
inductive GovType
  | proposal
  | trigger
  | other
deriving DecidableEq

/-- The fields of `CGovernanceObject` (external to `src/`) that the modelled
routines consult.  `absYesFunding` is the value of
`GetAbsoluteYesCount(tip_mn_list, VOTE_SIGNAL_FUNDING)` against the fixed tip
masternode list; `validatorOK` is the verdict of `CProposalValidator` on the
object's plain-text payload. -/
structure GovObject where
  objType : GovType
  absYesFunding : ℕ
  cachedFunding : Bool
  cachedDelete : Bool
  cachedExpired : Bool
  deletionTime : ℤ
  creationTime : ℤ
  validatorOK : Bool
deriving DecidableEq

/-- The two fields of `CSuperblock` consulted by the selection routines. -/
structure Superblock where
  govObjHash : ℕ
  blockHeight : ℤ
deriving DecidableEq

/-- The object and trigger maps used by superblock selection.  `uint256` keys
are modelled as naturals, the numeric order standing for the byte order the
store's `std::map` iterates in. -/
structure TriggerState where
  mapObjects : List (ℕ × GovObject)
  mapTrigger : List (ℕ × Superblock)
deriving DecidableEq

/-- `std::map` iteration: ascending key order. -/
def mapIter {β : Type} (m : List (ℕ × β)) : List (ℕ × β) :=
  List.insertionSort (fun a b => a.1 ≤ b.1) m

/-- `CGovernanceManager::GetActiveTriggersInternal`: the trigger views whose
backing object still exists, in trigger-map iteration order. -/
def getActiveTriggersInternal (st : TriggerState) : List Superblock :=
  (mapIter st.mapTrigger).filterMap
    (fun e => if (kvRead st.mapObjects e.1).isSome then some e.2 else none)

/-- The candidate fold step of `GetBestSuperblockInternal`: skip triggers at
other heights and triggers without an object; keep a candidate only when its
YES count strictly exceeds the best so far. -/
def bestTriggerStep (st : TriggerState) (height : ℤ)
    (acc : Option Superblock × ℕ) (sb : Superblock) : Option Superblock × ℕ :=
  if sb.blockHeight ≠ height then acc
  else
    match kvRead st.mapObjects sb.govObjHash with
    | none => acc
    | some obj => if acc.2 < obj.absYesFunding then (some sb, obj.absYesFunding) else acc

/-- `CGovernanceManager::GetBestSuperblockInternal`.  `validHeight` models
`CSuperblock::IsValidBlockHeight` (external to `src/`); the function returns
a superblock only when the final YES count is positive. -/
def getBestSuperblockInternal (validHeight : Bool) (st : TriggerState) (height : ℤ) :
    Option Superblock :=
  if ¬ validHeight then none
  else
    let r := (getActiveTriggersInternal st).foldl (bestTriggerStep st height) (none, 0)
    if 0 < r.2 then r.1 else none

/-- The candidates `GetBestSuperblockInternal` actually folds over: active
triggers at the requested height whose object exists, paired with their YES
counts, in iteration order. -/
def superblockCandidates (st : TriggerState) (height : ℤ) : List (Superblock × ℕ) :=
  (getActiveTriggersInternal st).filterMap
    (fun sb =>
      if sb.blockHeight = height then
        (kvRead st.mapObjects sb.govObjHash).map (fun o => (sb, o.absYesFunding))
      else none)

/-- The selection rule the code implements: the first candidate (in trigger
map iteration order) attaining the maximal YES count, provided that maximum
is positive. -/
def firstMaxCandidate (cands : List (Superblock × ℕ)) : Option Superblock :=
  let m := (cands.map (fun c => c.2)).foldl max 0
  if m = 0 then none else (cands.find? (fun c => decide (c.2 = m))).map (fun c => c.1)

/-- The fold step of `GetBestSuperblockInternal` restricted to the candidate
list (trigger skipping already applied). -/
def candStep (acc : Option Superblock × ℕ) (c : Superblock × ℕ) : Option Superblock × ℕ :=
  if acc.2 < c.2 then (some c.1, c.2) else acc

/-- Running maximum of the candidates' YES counts, seeded with `y`. -/
def maxOf (l : List (Superblock × ℕ)) (y : ℕ) : ℕ :=
  (l.map (fun c => c.2)).foldl max y

/-! ### Masternode rate limiting -/

/-- Modelled from the spec: the capacity of the rate-limit buffer
(`CRateCheckBuffer` lives in `governance.h`, which is not under `src/`); the
spec gives "order 10". -/
def rateBufferCap : ℕ := 10

/-- Modelled from the spec: a ring of recent timestamps; adding evicts the
oldest when full. -/
structure RateBuffer where
  timestamps : List ℤ
deriving DecidableEq

/-- Add a timestamp, evicting the oldest when the buffer is full. -/
def addTimestamp (b : RateBuffer) (t : ℤ) : RateBuffer :=
  if b.timestamps.length < rateBufferCap then ⟨b.timestamps ++ [t]⟩
  else ⟨b.timestamps.tail ++ [t]⟩

/-- Largest element of a non-empty list (0 for the empty list, never used
with fewer than two samples). -/
def listMax : List ℤ → ℤ
  | [] => 0
  | x :: xs => xs.foldl max x

/-- Smallest element of a non-empty list. -/
def listMin : List ℤ → ℤ
  | [] => 0
  | x :: xs => xs.foldl min x

/-- Modelled from the spec: `rate() < dMaxRate` where `rate()` is 0 with
fewer than two samples and `(len − 1)/(max − min)` otherwise, and
`dMaxRate = 2·1.1/cycle = 11/(5·cycle)`.  The comparison is expressed by
cross-multiplication; a zero span with at least two samples is an infinite
rate and never below the maximum. -/
def rateLtMax (l : List ℤ) (cycle : ℤ) : Prop :=
  if l.length < 2 then 0 < cycle
  else 5 * cycle * ((l.length : ℤ) - 1) < 11 * (listMax l - listMin l)

instance (l : List ℤ) (cycle : ℤ) : Decidable (rateLtMax l cycle) := by
  unfold rateLtMax; infer_instance

/-- `last_object_rec`: the per-masternode rate buffer and status flag. -/
structure LastObjectRec where
  triggerBuffer : RateBuffer
  statusOK : Bool
deriving DecidableEq

/-- The result of `MasternodeRateCheck`: verdict, bypass flag, and the
(possibly updated) per-masternode map. -/
structure RateCheckResult where
  ok : Bool
  bypassed : Bool
  state : List (ℕ × LastObjectRec)
deriving DecidableEq

def MAX_TIME_FUTURE_DEVIATION : ℤ := 3600

def RELIABLE_PROPAGATION_TIME : ℤ := 60

def GOVERNANCE_DELETION_DELAY : ℤ := 600

/-- `CGovernanceManager::MasternodeRateCheck` (the four-argument overload)
from `governance.cpp`.  Masternode collateral outpoints are modelled as
naturals. -/
def masternodeRateCheck (synced rateChecksEnabled : Bool) (objType : GovType)
    (outpoint : ℕ) (timestamp now cycle : ℤ) (fUpdateFailStatus fForce : Bool)
    (st : List (ℕ × LastObjectRec)) : RateCheckResult :=
  if ¬ synced ∨ ¬ rateChecksEnabled then ⟨true, false, st⟩
  else if objType ≠ GovType.trigger then ⟨true, false, st⟩
  else if timestamp < now - 2 * cycle then ⟨false, false, st⟩
  else if now + MAX_TIME_FUTURE_DEVIATION < timestamp then ⟨false, false, st⟩
  else
    match kvRead st outpoint with
    | none => ⟨true, false, st⟩
    | some r =>
      if r.statusOK ∧ ¬ fForce then ⟨true, true, st⟩
      else
        let buffer := addTimestamp r.triggerBuffer timestamp
        if rateLtMax buffer.timestamps cycle then ⟨true, false, st⟩
        else
          ⟨false, false,
            if fUpdateFailStatus then kvWrite st outpoint { r with statusOK := false } else st⟩

/-- `CGovernanceManager::MasternodeRateUpdate` from `governance.cpp` (the
additional-relay bookkeeping touches unrelated state and is omitted): insert
a fresh record when absent, add the timestamp to the real buffer and set the
status flag. -/
def masternodeRateUpdate (objType : GovType) (outpoint : ℕ) (timestamp : ℤ)
    (st : List (ℕ × LastObjectRec)) : List (ℕ × LastObjectRec) :=
  if objType ≠ GovType.trigger then st
  else
    let r0 := (kvRead st outpoint).getD ⟨⟨[]⟩, true⟩
    kvWrite st outpoint ⟨addTimestamp r0.triggerBuffer timestamp, true⟩

/-- The admission loop for a stream of trigger timestamps from one
masternode: each trigger is rate-checked with `fForce` (the `ProcessMessage`
path re-runs the check with `fForce = true` whenever it was bypassed) and, on
admission, the buffer is updated as `AddGovernanceObject` does via
`MasternodeRateUpdate`.  Returns the admitted timestamps. -/
def runRateChecks (now cycle : ℤ) : List ℤ → List (ℕ × LastObjectRec) → List ℤ
  | [], _ => []
  | t :: rest, st =>
    let r := masternodeRateCheck true true GovType.trigger 0 t now cycle true true st
    if r.ok then t :: runRateChecks now cycle rest (masternodeRateUpdate GovType.trigger 0 t r.state)
    else runRateChecks now cycle rest r.state

/-- How many further triggers the admission loop can still admit from one
window, given the masternode's current buffer. -/
def rateCap (st : List (ℕ × LastObjectRec)) : ℕ :=
  match kvRead st 0 with
  | none => 3
  | some r => 3 - min 3 r.triggerBuffer.timestamps.length

/-! ### Inventory requests, erasure and the already-seen guard -/

/-- Inventory types relevant to `ConfirmInventoryRequest`. -/
inductive InvType
  | govObject
  | govVote
  | otherInv
deriving DecidableEq

/-- The governance-manager maps consulted by the modelled message paths. -/
structure GovManagerState where
  mapObjects : List (ℕ × GovObject)
  mapPostponedObjects : List (ℕ × GovObject)
  mapErasedGovernanceObjects : List (ℕ × ℤ)
  voteToObjectKeys : List ℕ
  requestedHashTime : List (ℕ × ℤ)
deriving DecidableEq

/-- The `emplace` into `m_requested_hash_time` at the end of
`ConfirmInventoryRequest`: an existing binding is kept. -/
def emplaceRequested (st : GovManagerState) (hash : ℕ) (now : ℤ) : GovManagerState :=
  { st with requestedHashTime := mapEmplace st.requestedHashTime hash (now + RELIABLE_PROPAGATION_TIME) }

/-- `CGovernanceManager::ConfirmInventoryRequest` from `governance.cpp`. -/
def confirmInventoryRequest (synced : Bool) (invType : InvType) (hash : ℕ) (now : ℤ)
    (st : GovManagerState) : Bool × GovManagerState :=
  if ¬ synced then (false, st)
  else
    match invType with
    | InvType.govObject =>
      if (kvRead st.mapObjects hash).isSome ∨ (kvRead st.mapPostponedObjects hash).isSome then
        (false, st)
      else (true, emplaceRequested st hash now)
    | InvType.govVote =>
      if hash ∈ st.voteToObjectKeys then (false, st)
      else (true, emplaceRequested st hash now)
    | InvType.otherInv => (false, st)

/-- `CGovernanceManager::AcceptMessage` from `governance.cpp`: accept once,
consuming the request slot. -/
def acceptMessage (st : GovManagerState) (hash : ℕ) : Bool × GovManagerState :=
  if (kvRead st.requestedHashTime hash).isSome then
    (true, { st with requestedHashTime := kvErase st.requestedHashTime hash })
  else (false, st)

/-- One entry of the object sweep of
`CGovernanceManager::UpdateCachesAndClean`: a deleted/expired object past the
deletion delay moves to the erased map — proposals with the maximal int64
sentinel, others with a cycle-based expiry; a kept proposal failing the
plain-text validator is marked for deletion (`PrepareDeletion`, external to
`src/`, sets the delete flag and stamps the deletion time if unset). -/
def updateObjStep (now cycle : ℤ) (acc : List (ℕ × GovObject) × List (ℕ × ℤ))
    (e : ℕ × GovObject) : List (ℕ × GovObject) × List (ℕ × ℤ) :=
  if (e.2.cachedDelete ∨ e.2.cachedExpired) ∧
      GOVERNANCE_DELETION_DELAY ≤ now - e.2.deletionTime then
    (acc.1,
     mapEmplace acc.2 e.1
       (if e.2.objType = GovType.proposal then int64Max
        else e.2.creationTime + 2 * cycle + GOVERNANCE_DELETION_DELAY))
  else
    (acc.1 ++
      [(e.1,
        if e.2.objType = GovType.proposal ∧ ¬ e.2.validatorOK then
          { e.2 with
            cachedDelete := true
            deletionTime := if e.2.deletionTime = 0 then now else e.2.deletionTime }
        else e.2)],
     acc.2)

/-- The deletion/erasure portion of
`CGovernanceManager::UpdateCachesAndClean` (`CheckAndRemove`): sweep the
object map into kept objects and newly erased entries, then forget erased
entries and requests whose expiry passed.  The vote-reference cleanup and
trigger maintenance touch other state and do not modify the erased map. -/
def updateCachesAndClean (now cycle : ℤ) (st : GovManagerState) : GovManagerState :=
  let r := st.mapObjects.foldl (updateObjStep now cycle) ([], st.mapErasedGovernanceObjects)
  { st with
    mapObjects := r.1
    mapErasedGovernanceObjects := r.2.filter (fun e => decide (¬ e.2 < now))
    requestedHashTime := st.requestedHashTime.filter (fun e => decide (¬ e.2 < now)) }

/-- The already-seen guard of the `MNGOVERNANCEOBJECT` branch of
`CGovernanceManager::ProcessMessage`: an object whose hash is in the object,
postponed or erased map is dropped before any further processing.
`handleNew` abstracts the remainder of the branch (rate check, local
validation, `AddGovernanceObject`). -/
def processGovObjectMsg (handleNew : GovManagerState → GovManagerState)
    (st : GovManagerState) (hash : ℕ) : GovManagerState :=
  if (kvRead st.mapObjects hash).isSome ∨ (kvRead st.mapPostponedObjects hash).isSome ∨
      (kvRead st.mapErasedGovernanceObjects hash).isSome then st
  else handleNew st

/-- A sequence of maintenance sweeps at the given (time, cycle) points. -/
def maintainMany (params : List (ℤ × ℤ)) (st : GovManagerState) : GovManagerState :=
  params.foldl (fun s p => updateCachesAndClean p.1 p.2 s) st

/-! ## Store well-formedness -/

/-- Every height-index entry names a stored point of that height. -/
def heightIdxSound (s : DBState) : Prop :=
  ∀ k ∈ s.heightIdx, (kvRead s.points k.2).map Record.height = some k.1

/-- Every stored point has its height-index entry (first clause of the
claimed secondary-index invariant). -/
def heightIdxComplete (s : DBState) : Prop :=
  ∀ e ∈ s.points, (e.2.height, e.1) ∈ s.heightIdx

/-- Every reverse-lookup entry names a stored transfer of that height. -/
def thIdxSound (s : DBState) : Prop :=
  ∀ k ∈ s.transferHeightIdx,
    (kvRead s.transfers (k.2.1, k.2.2)).map TransferRecord.height = some k.1

/-- Every stored transfer has its reverse-lookup entry. -/
def thIdxComplete (s : DBState) : Prop :=
  ∀ e ∈ s.transfers, (e.2.height, e.1.1, e.1.2) ∈ s.transferHeightIdx

/-- The owner index never stores an empty owner key. -/
def ownerKeysNonempty (s : DBState) : Prop := ∀ e ∈ s.ownerIdx, e.1 ≠ ""

/-- The owner-index clause of the claimed secondary-index invariant: a stored
point has its owner-index entry exactly when its current owner is
non-empty. -/
def ownerIdxInv (s : DBState) : Prop :=
  ∀ e ∈ s.points, ((e.2.current_owner, e.1) ∈ s.ownerIdx ↔ e.2.current_owner ≠ "")

/-- No keyspace stores a key twice. -/
def keysNodup (s : DBState) : Prop :=
  (s.points.map Prod.fst).Nodup ∧ (s.transfers.map Prod.fst).Nodup ∧
  s.heightIdx.Nodup ∧ s.ownerIdx.Nodup ∧ s.transferHeightIdx.Nodup

/-- The secondary-index invariant exactly as claimed. -/
def pointSecondaryInv (s : DBState) : Prop := heightIdxComplete s ∧ ownerIdxInv s

/-- Well-formedness of the store: the claimed invariant together with the
auxiliary consistency clauses that make it inductive. -/
def storeInv (s : DBState) : Prop :=
  keysNodup s ∧ heightIdxSound s ∧ heightIdxComplete s ∧ thIdxSound s ∧
  thIdxComplete s ∧ ownerKeysNonempty s ∧ ownerIdxInv s

instance (s : DBState) : Decidable (heightIdxSound s) := by
  unfold heightIdxSound; infer_instance

instance (s : DBState) : Decidable (heightIdxComplete s) := by
  unfold heightIdxComplete; infer_instance

instance (s : DBState) : Decidable (thIdxSound s) := by
  unfold thIdxSound; infer_instance

instance (s : DBState) : Decidable (thIdxComplete s) := by
  unfold thIdxComplete; infer_instance

instance (s : DBState) : Decidable (ownerKeysNonempty s) := by
  unfold ownerKeysNonempty; infer_instance

instance (s : DBState) : Decidable (ownerIdxInv s) := by
  unfold ownerIdxInv; infer_instance

instance (s : DBState) : Decidable (keysNodup s) := by
  unfold keysNodup; infer_instance

instance (s : DBState) : Decidable (pointSecondaryInv s) := by
  unfold pointSecondaryInv; infer_instance

instance (s : DBState) : Decidable (storeInv s) := by
  unfold storeInv; infer_instance

/-- The txids of a block's transactions are new to the store and mutually
distinct (no transaction-id reuse across or within blocks). -/
def freshBlock (s : DBState) (txs : List Tx) : Prop :=
  (txs.map Tx.txid).Nodup ∧
  ∀ tx ∈ txs,
    kvRead s.points tx.txid = none ∧
    (∀ k ∈ s.heightIdx, k.2 ≠ tx.txid) ∧
    (∀ k ∈ s.transfers, k.1.2 ≠ tx.txid) ∧
    (∀ k ∈ s.transferHeightIdx, k.2.2 ≠ tx.txid)

instance (s : DBState) (txs : List Tx) : Decidable (freshBlock s txs) := by
  unfold freshBlock; infer_instance

/-- The owner updates the rewind pass collects for one origin, in ascending
collection order. -/
def ownerUpdatesFor (s : DBState) (h : ℕ) (o : ℕ) : List (ℕ × String) :=
  (collectedOwnerUpdates s h).filter (fun u => decide (u.1 = o))

/-- The owner left on point `o` after folding a list of owner updates
left-to-right (a later matching update overrides an earlier one); `d` is the
owner when no update matches. -/
def lastOwner : List (ℕ × String) → ℕ → String → String
  | [], _, d => d
  | u :: rest, o, d => lastOwner rest o (if u.1 = o then u.2 else d)

/-- The owner carried by the first matching update of a list (`d` when none
matches). -/
def firstOwner : List (ℕ × String) → ℕ → String → String
  | [], _, d => d
  | u :: rest, o, d => if u.1 = o then u.2 else firstOwner rest o d

/-! ## Concrete example inputs used by counterexamples and witnesses -/

/-- A 64-character hex encoding of txid 5. -/
def hex5 : String :=
  "0000000000000000000000000000000000000000000000000000000000000005"

/-- A well-formed transfer transaction moving point 5 from owner `A` to
owner `B`. -/
def exTransferTx : Tx :=
  ⟨9, false,
   [⟨true, [⟨106, ""⟩, ⟨20, "ORINMAPX:" ++ hex5⟩], none⟩, ⟨false, [], some "B"⟩],
   [⟨false, [], some "A"⟩]⟩

/-- A store holding point 5 at height 1, owned by `A`. -/
def exDb : DBState := ⟨[(5, ⟨1, "A", "A", 0, 0⟩)], [(1, 5)], [("A", 5)], [], []⟩

/-- A creation transaction for point 5 with owner `A`. -/
def exCreationTx : Tx :=
  ⟨5, false,
   [⟨true, [⟨106, ""⟩, ⟨26, "ORINMAP1:55751244:37618423"⟩], none⟩, ⟨false, [], some "A"⟩],
   []⟩

/-- A transaction whose first payload-bearing unspendable output is not a
creation payload, while a later unspendable output is. -/
def exTwoPayloadTx : Tx :=
  ⟨42, false,
   [⟨true, [⟨106, ""⟩, ⟨5, "HELLO"⟩], none⟩,
    ⟨true, [⟨106, ""⟩, ⟨26, "ORINMAP1:55751244:37618423"⟩], none⟩,
    ⟨false, [], some "A"⟩],
   []⟩

/-- A two-point store: point 5 (height 1, origin owner `A`) transferred
`A → B` at height 2 and `B → C` at height 3, and point 6 (height 2, origin
owner `D`) transferred `D → E` at height 3. -/
def exRewDb : DBState :=
  ⟨[(5, ⟨1, "A", "C", 0, 0⟩), (6, ⟨2, "D", "E", 0, 0⟩)],
   [(1, 5), (2, 6)],
   [("C", 5), ("E", 6)],
   [((5, 9), ⟨2, "B", "A"⟩), ((5, 11), ⟨3, "C", "B"⟩), ((6, 7), ⟨3, "E", "D"⟩)],
   [(2, 5, 9), (3, 5, 11), (3, 6, 7)]⟩

/-- A funded trigger object with ten YES votes. -/
def exTrigObj : GovObject := ⟨GovType.trigger, 10, true, false, false, 0, 0, true⟩

/-- Two funded triggers for superblock height 100 with tied YES counts and
hashes 1 and 2. -/
def exTrigSt : TriggerState :=
  ⟨[(1, exTrigObj), (2, exTrigObj)], [(1, ⟨1, 100⟩), (2, ⟨2, 100⟩)]⟩

/-- A governance-manager state whose request list already holds hash 7. -/
def exGovSt : GovManagerState := ⟨[], [], [], [], [(7, 100)]⟩

/-- A mature deleted proposal. -/
def exDelProposal : GovObject := ⟨GovType.proposal, 0, false, true, false, 100, 50, true⟩

/-- A governance-manager state holding one mature deleted proposal under
hash 3. -/
def exGovSt3 : GovManagerState := ⟨[(3, exDelProposal)], [], [], [], []⟩

/-! ## Generic lemmas about the association-list store -/

theorem kvRead_kvErase_self {α β : Type} [DecidableEq α] (m : List (α × β)) (k : α) :
    kvRead (kvErase m k) k = none := by
  induction m with
  | nil => rfl
  | cons e rest ih =>
    by_cases he : e.1 = k
    · simpa [kvErase, he] using ih
    · simp [kvErase, he, kvRead, ih]

theorem kvRead_kvErase_ne {α β : Type} [DecidableEq α] (m : List (α × β)) (k k' : α)
    (h : k' ≠ k) : kvRead (kvErase m k) k' = kvRead m k' := by
  induction m with
  | nil => rfl
  | cons e rest ih =>
    simp only [kvErase]
    by_cases he : e.1 = k
    · rw [if_pos he, ih]
      have hne : e.1 ≠ k' := fun hk => h (hk ▸ he)
      simp only [kvRead, if_neg hne]
    · rw [if_neg he]
      simp only [kvRead]
      by_cases he' : e.1 = k'
      · rw [if_pos he', if_pos he']
      · rw [if_neg he', if_neg he', ih]

theorem kvRead_kvWrite_self {α β : Type} [DecidableEq α] (m : List (α × β)) (k : α) (v : β) :
    kvRead (kvWrite m k v) k = some v := by
  simp [kvWrite, kvRead]

theorem kvRead_kvWrite_ne {α β : Type} [DecidableEq α] (m : List (α × β)) (k k' : α) (v : β)
    (h : k' ≠ k) : kvRead (kvWrite m k v) k' = kvRead m k' := by
  unfold kvWrite
  have hne : (k, v).1 ≠ k' := fun hk => h hk.symm
  simp only [kvRead, if_neg hne]
  exact kvRead_kvErase_ne m k k' h

theorem mem_of_kvRead_eq_some {α β : Type} [DecidableEq α] {m : List (α × β)} {k : α} {v : β}
    (h : kvRead m k = some v) : (k, v) ∈ m := by
  induction m with
  | nil => simp [kvRead] at h
  | cons e rest ih =>
    by_cases he : e.1 = k
    · simp only [kvRead, if_pos he] at h
      obtain ⟨a, b⟩ := e
      obtain rfl : a = k := he
      obtain rfl : b = v := Option.some_inj.mp h
      exact List.mem_cons_self _ _
    · simp only [kvRead, if_neg he] at h
      exact List.mem_cons_of_mem _ (ih h)

theorem kvRead_eq_some_of_mem {α β : Type} [DecidableEq α] {m : List (α × β)} {k : α} {v : β}
    (hnd : (m.map Prod.fst).Nodup) (h : (k, v) ∈ m) : kvRead m k = some v := by
  induction m with
  | nil => simp at h
  | cons e rest ih =>
    simp only [List.map_cons, List.nodup_cons] at hnd
    rcases List.mem_cons.mp h with h1 | h1
    · rw [← h1]
      simp [kvRead]
    · have hne : e.1 ≠ k := by
        intro hk
        refine hnd.1 ?_
        rw [hk]
        exact List.mem_map_of_mem Prod.fst h1
      simp [kvRead, hne, ih hnd.2 h1]

theorem kvRead_eq_none_of_not_mem_keys {α β : Type} [DecidableEq α] {m : List (α × β)} {k : α}
    (h : k ∉ m.map Prod.fst) : kvRead m k = none := by
  induction m with
  | nil => rfl
  | cons e rest ih =>
    simp only [List.map_cons, List.mem_cons] at h
    push_neg at h
    have hne : e.1 ≠ k := fun hk => h.1 hk.symm
    simp [kvRead, hne, ih h.2]

theorem kvRead_isSome_iff_mem_keys {α β : Type} [DecidableEq α] (m : List (α × β)) (k : α) :
    (kvRead m k).isSome ↔ k ∈ m.map Prod.fst := by
  induction m with
  | nil => simp [kvRead]
  | cons e rest ih =>
    by_cases he : e.1 = k
    · simp [kvRead, he]
    · have hne : k ≠ e.1 := fun hk => he hk.symm
      simp [kvRead, he, ih, hne]

theorem mem_kvErase_iff {α β : Type} [DecidableEq α] (m : List (α × β)) (k : α) (e : α × β) :
    e ∈ kvErase m k ↔ e ∈ m ∧ e.1 ≠ k := by
  induction m with
  | nil => simp [kvErase]
  | cons a rest ih =>
    simp only [kvErase]
    by_cases ha : a.1 = k
    · rw [if_pos ha, ih]
      constructor
      · rintro ⟨h1, h2⟩
        exact ⟨List.mem_cons_of_mem _ h1, h2⟩
      · rintro ⟨h1, h2⟩
        rcases List.mem_cons.mp h1 with rfl | h1
        · exact absurd ha h2
        · exact ⟨h1, h2⟩
    · rw [if_neg ha]
      constructor
      · intro h
        rcases List.mem_cons.mp h with rfl | h1
        · exact ⟨List.mem_cons_self _ _, ha⟩
        · obtain ⟨h1, h2⟩ := ih.mp h1
          exact ⟨List.mem_cons_of_mem _ h1, h2⟩
      · rintro ⟨h1, h2⟩
        rcases List.mem_cons.mp h1 with rfl | h1
        · exact List.mem_cons_self _ _
        · exact List.mem_cons_of_mem _ (ih.mpr ⟨h1, h2⟩)

theorem mem_setErase_iff {α : Type} [DecidableEq α] (s : List α) (k x : α) :
    x ∈ setErase s k ↔ x ∈ s ∧ x ≠ k := by
  induction s with
  | nil => simp [setErase]
  | cons a rest ih =>
    simp only [setErase]
    by_cases ha : a = k
    · rw [if_pos ha, ih]
      constructor
      · rintro ⟨h1, h2⟩
        exact ⟨List.mem_cons_of_mem _ h1, h2⟩
      · rintro ⟨h1, h2⟩
        rcases List.mem_cons.mp h1 with rfl | h1
        · exact absurd ha h2
        · exact ⟨h1, h2⟩
    · rw [if_neg ha]
      constructor
      · intro h
        rcases List.mem_cons.mp h with rfl | h1
        · exact ⟨List.mem_cons_self _ _, ha⟩
        · obtain ⟨h1, h2⟩ := ih.mp h1
          exact ⟨List.mem_cons_of_mem _ h1, h2⟩
      · rintro ⟨h1, h2⟩
        rcases List.mem_cons.mp h1 with rfl | h1
        · exact List.mem_cons_self _ _
        · exact List.mem_cons_of_mem _ (ih.mpr ⟨h1, h2⟩)

theorem mem_setInsert_iff {α : Type} [DecidableEq α] (s : List α) (k x : α) :
    x ∈ setInsert s k ↔ x ∈ s ∨ x = k := by
  unfold setInsert
  split
  next h => simp; exact fun hx => hx ▸ h
  next h => simp [List.mem_cons]; tauto

theorem setErase_nodup {α : Type} [DecidableEq α] (s : List α) (k : α) (h : s.Nodup) :
    (setErase s k).Nodup := by
  induction s with
  | nil => simp [setErase]
  | cons a rest ih =>
    simp only [List.nodup_cons] at h
    by_cases ha : a = k
    · simpa [setErase, ha] using ih h.2
    · simp only [setErase, if_neg ha, List.nodup_cons]
      exact ⟨fun hm => h.1 ((mem_setErase_iff rest k a).mp hm).1, ih h.2⟩

theorem setInsert_nodup {α : Type} [DecidableEq α] (s : List α) (k : α) (h : s.Nodup) :
    (setInsert s k).Nodup := by
  unfold setInsert
  split
  · exact h
  next hk => exact List.nodup_cons.mpr ⟨hk, h⟩

theorem kvErase_keys_nodup {α β : Type} [DecidableEq α] (m : List (α × β)) (k : α)
    (h : (m.map Prod.fst).Nodup) : ((kvErase m k).map Prod.fst).Nodup := by
  induction m with
  | nil => simp [kvErase]
  | cons e rest ih =>
    simp only [List.map_cons, List.nodup_cons] at h
    by_cases he : e.1 = k
    · simpa [kvErase, he] using ih h.2
    · simp only [kvErase, if_neg he, List.map_cons, List.nodup_cons]
      refine ⟨fun hm => h.1 ?_, ih h.2⟩
      rcases List.mem_map.mp hm with ⟨x, hx, hx2⟩
      exact hx2 ▸ List.mem_map_of_mem Prod.fst ((mem_kvErase_iff rest k x).mp hx).1

theorem kvWrite_keys_nodup {α β : Type} [DecidableEq α] (m : List (α × β)) (k : α) (v : β)
    (h : (m.map Prod.fst).Nodup) : ((kvWrite m k v).map Prod.fst).Nodup := by
  simp only [kvWrite, List.map_cons, List.nodup_cons]
  refine ⟨fun hm => ?_, kvErase_keys_nodup m k h⟩
  rcases List.mem_map.mp hm with ⟨x, hx, hx2⟩
  exact ((mem_kvErase_iff m k x).mp hx).2 hx2

theorem kvRead_append_of_some {α β : Type} [DecidableEq α] {m : List (α × β)}
    (m' : List (α × β)) {k : α} {v : β} (h : kvRead m k = some v) :
    kvRead (m ++ m') k = some v := by
  induction m with
  | nil => simp [kvRead] at h
  | cons e rest ih =>
    by_cases he : e.1 = k
    · simp_all [kvRead]
    · simp_all [kvRead]

theorem kvRead_append_of_none {α β : Type} [DecidableEq α] {m : List (α × β)}
    (m' : List (α × β)) {k : α} (h : kvRead m k = none) :
    kvRead (m ++ m') k = kvRead m' k := by
  induction m with
  | nil => simp
  | cons e rest ih =>
    by_cases he : e.1 = k
    · simp [kvRead, he] at h
    · simp_all [kvRead]

theorem kvRead_mapEmplace_self {β : Type} (m : List (ℕ × β)) (k : ℕ) (v : β) :
    kvRead (mapEmplace m k v) k = some ((kvRead m k).getD v) := by
  unfold mapEmplace
  cases h : kvRead m k with
  | some w => simp [h]
  | none => simp [h, kvRead_append_of_none _ h, kvRead]

theorem kvRead_mapEmplace_of_some {β : Type} {m : List (ℕ × β)} {k : ℕ} (v : β) {w : β}
    (h : kvRead m k = some w) : kvRead (mapEmplace m k v) k = some w := by
  rw [kvRead_mapEmplace_self, h]; rfl

theorem kvRead_mapEmplace_ne {β : Type} (m : List (ℕ × β)) (k k' : ℕ) (v : β) (h : k' ≠ k) :
    kvRead (mapEmplace m k v) k' = kvRead m k' := by
  unfold mapEmplace
  split
  · rfl
  · cases h2 : kvRead m k' with
    | some w => exact kvRead_append_of_some _ h2
    | none =>
      rw [kvRead_append_of_none _ h2]
      have hne : ¬ k = k' := fun hk => h hk.symm
      simp [kvRead, hne]

theorem kvRead_filter_of_some {α β : Type} [DecidableEq α] {m : List (α × β)}
    {p : α × β → Bool} {k : α} {v : β} (h : kvRead m k = some v) (hp : p (k, v) = true) :
    kvRead (m.filter p) k = some v := by
  induction m with
  | nil => simp [kvRead] at h
  | cons e rest ih =>
    by_cases he : e.1 = k
    · simp only [kvRead, if_pos he] at h
      obtain rfl : e = (k, v) := by cases e; simp_all
      simp [List.filter_cons, hp, kvRead]
    · simp only [kvRead, if_neg he] at h
      by_cases hpe : p e = true
      · simp [List.filter_cons, hpe, kvRead, he, ih h]
      · simp only [List.filter_cons, if_neg hpe]
        exact ih h

/-! ## C10: transfer listing order -/

/-- **C10.** `get_transfers(origin)` returns exactly the transfer records of
that origin, sorted in ascending (height, transfer txid) order: lower heights
first, ties broken by ascending transfer transaction id. -/
theorem claimC10_getTransfers_sorted (s : DBState) (origin : ℕ) :
    List.Pairwise
      (fun a b : MapPointTransferInfo =>
        a.height < b.height ∨ (a.height = b.height ∧ a.transfer_txid ≤ b.transfer_txid))
      (getTransfers s origin) ∧
    ∀ x : MapPointTransferInfo,
      x ∈ getTransfers s origin ↔
        ∃ e ∈ s.transfers, e.1.1 = origin ∧ x = ⟨e.1.2, e.2.height, e.2.new_owner⟩ := by
  constructor
  · exact List.sorted_insertionSort transferInfoLe _
  · intro x
    unfold getTransfers
    rw [(List.perm_insertionSort transferInfoLe _).mem_iff]
    simp only [List.mem_map, List.mem_filter, decide_eq_true_eq]
    constructor
    · rintro ⟨e, ⟨he, horig⟩, rfl⟩
      exact ⟨e, he, horig, rfl⟩
    · rintro ⟨e, he, horig, rfl⟩
      exact ⟨e, ⟨he, horig⟩, rfl⟩

/-! ## C8: coordinate encoding -/

theorem llround_bound (q : ℚ) (n : ℤ) (hn : 0 ≤ n) (h1 : -(n : ℚ) ≤ q) (h2 : q ≤ (n : ℚ)) :
    -n ≤ llround q ∧ llround q ≤ n := by
  unfold llround
  split
  next hq =>
    constructor
    · have h0 : (0 : ℤ) ≤ ⌊q + 1/2⌋ := Int.floor_nonneg.mpr (by linarith)
      omega
    · have hmono : ⌊q + 1/2⌋ ≤ ⌊(n : ℚ) + 1/2⌋ := Int.floor_le_floor (by linarith)
      have heq : ⌊(n : ℚ) + 1/2⌋ = n := by
        rw [Int.floor_eq_iff]
        constructor
        · linarith
        · have : ((n + 1 : ℤ) : ℚ) = (n : ℚ) + 1 := by push_cast; ring
          linarith [this]
      omega
  next hq =>
    push_neg at hq
    constructor
    · have heq : ⌈-(n : ℚ) - 1/2⌉ = -n := by
        rw [Int.ceil_eq_iff]
        constructor
        · push_cast; linarith
        · push_cast; linarith
      have hmono : ⌈-(n : ℚ) - 1/2⌉ ≤ ⌈q - 1/2⌉ := Int.ceil_le_ceil (by linarith)
      omega
    · have h0 : ⌈q - 1/2⌉ ≤ 0 := Int.ceil_le.mpr (by linarith)
      omega

/-- **C8** (counterexample).  `EncodeCoordinate` uses `llround`, which rounds
halves away from zero: the latitude 1/128 = 0.0078125 (exactly representable
even as a double) encodes to 7813, while `floor(lat × 10⁶) = 7812`, so the
claimed floor semantics is falsified. -/
theorem claimC8_counterexample :
    encodeCoordinates (1/128) 0 = some (7813, 0) ∧
    ⌊(1/128 : ℚ) * 1000000⌋ ≠ (7813 : ℤ) := by
  have hl : llround ((1/128 : ℚ) * 1000000) = 7813 := by
    unfold llround
    rw [if_pos (by norm_num), Int.floor_eq_iff]
    norm_num
  have hz : llround ((0 : ℚ) * 1000000) = 0 := by
    unfold llround
    rw [if_pos (by norm_num), Int.floor_eq_iff]
    norm_num
  have e1 : encodeCoordinate (1/128) maxLatitude = some 7813 := by
    unfold encodeCoordinate coordScale maxLatitude
    rw [if_neg (by norm_num), hl]
  have e2 : encodeCoordinate 0 maxLongitude = some 0 := by
    unfold encodeCoordinate coordScale maxLongitude
    rw [if_neg (by norm_num), hz]
  constructor
  · unfold encodeCoordinates
    rw [e1, e2]
  · have hf2 : ⌊(1/128 : ℚ) * 1000000⌋ = (7812 : ℤ) := by
      rw [Int.floor_eq_iff]
      norm_num
    rw [hf2]
    decide

/-- **C8** (amended).  For in-range coordinates, `EncodeCoordinates` returns
`llround(lat·10⁶)` and `llround(lon·10⁶)` (nearest integer, halves away from
zero — not floor); the encoded values are bounded by ±90·10⁶ and ±180·10⁶,
and encoding (55.751244, 37.618423) yields (55751244, 37618423). -/
theorem claimC8_amended :
    (∀ lat lon : ℚ, -90 ≤ lat → lat ≤ 90 → -180 ≤ lon → lon ≤ 180 →
      encodeCoordinates lat lon =
        some (llround (lat * 1000000), llround (lon * 1000000)) ∧
      -90000000 ≤ llround (lat * 1000000) ∧ llround (lat * 1000000) ≤ 90000000 ∧
      -180000000 ≤ llround (lon * 1000000) ∧ llround (lon * 1000000) ≤ 180000000) ∧
    encodeCoordinates (55751244 / 1000000) (37618423 / 1000000) =
      some (55751244, 37618423) := by
  constructor
  · intro lat lon hlat1 hlat2 hlon1 hlon2
    have hlatB : -((90000000 : ℤ) : ℚ) ≤ lat * 1000000 ∧ lat * 1000000 ≤ ((90000000 : ℤ) : ℚ) := by
      constructor <;> · push_cast; nlinarith
    have hlonB : -((180000000 : ℤ) : ℚ) ≤ lon * 1000000 ∧ lon * 1000000 ≤ ((180000000 : ℤ) : ℚ) := by
      constructor <;> · push_cast; nlinarith
    have hb1 := llround_bound (lat * 1000000) 90000000 (by norm_num) hlatB.1 hlatB.2
    have hb2 := llround_bound (lon * 1000000) 180000000 (by norm_num) hlonB.1 hlonB.2
    refine ⟨?_, hb1.1, hb1.2, hb2.1, hb2.2⟩
    have e1 : encodeCoordinate lat maxLatitude = some (llround (lat * 1000000)) := by
      unfold encodeCoordinate coordScale maxLatitude
      rw [if_neg (by push_neg; constructor <;> linarith)]
    have e2 : encodeCoordinate lon maxLongitude = some (llround (lon * 1000000)) := by
      unfold encodeCoordinate coordScale maxLongitude
      rw [if_neg (by push_neg; constructor <;> linarith)]
    unfold encodeCoordinates
    rw [e1, e2]
  · have hl : llround ((55751244 / 1000000 : ℚ) * 1000000) = 55751244 := by
      unfold llround
      rw [if_pos (by norm_num), Int.floor_eq_iff]
      norm_num
    have hm : llround ((37618423 / 1000000 : ℚ) * 1000000) = 37618423 := by
      unfold llround
      rw [if_pos (by norm_num), Int.floor_eq_iff]
      norm_num
    have e1 : encodeCoordinate (55751244 / 1000000) maxLatitude = some 55751244 := by
      unfold encodeCoordinate coordScale maxLatitude
      rw [if_neg (by norm_num), hl]
    have e2 : encodeCoordinate (37618423 / 1000000) maxLongitude = some 37618423 := by
      unfold encodeCoordinate coordScale maxLongitude
      rw [if_neg (by norm_num), hm]
    unfold encodeCoordinates
    rw [e1, e2]

/-- **C8** witness: the amended theorem applied at the concrete in-range
coordinates (1/2, -3/2). -/
theorem claimC8_amended_witness :
    encodeCoordinates (1/2) (-3/2) =
      some (llround ((1/2 : ℚ) * 1000000), llround ((-3/2 : ℚ) * 1000000)) ∧
    -90000000 ≤ llround ((1/2 : ℚ) * 1000000) ∧
    llround ((1/2 : ℚ) * 1000000) ≤ 90000000 ∧
    -180000000 ≤ llround ((-3/2 : ℚ) * 1000000) ∧
    llround ((-3/2 : ℚ) * 1000000) ≤ 180000000 :=
  claimC8_amended.1 (1/2) (-3/2) (by norm_num) (by norm_num) (by norm_num) (by norm_num)

/-! ## C5: ConfirmInventoryRequest -/

/-- **C5** (counterexample).  In a state whose request list already holds
hash 7 (with recorded time 100), `ConfirmInventoryRequest` for a
governance-object inv with hash 7 still returns `true` and leaves the state
unchanged: the claim that `true` requires the hash to be absent from
`requested_hash_time`, and that a `true` result records `now +
RELIABLE_PROPAGATION_TIME`, both fail. -/
theorem claimC5_counterexample :
    (confirmInventoryRequest true InvType.govObject 7 5000 exGovSt).1 = true ∧
    kvRead exGovSt.requestedHashTime 7 = some 100 ∧
    (confirmInventoryRequest true InvType.govObject 7 5000 exGovSt).2 = exGovSt ∧
    kvRead (confirmInventoryRequest true InvType.govObject 7 5000 exGovSt).2.requestedHashTime 7 ≠
      some (5000 + RELIABLE_PROPAGATION_TIME) := by
  refine ⟨rfl, rfl, rfl, ?_⟩
  intro hcontra
  have : (100 : ℤ) = 5060 := Option.some_inj.mp hcontra
  simp at this

/-- **C5** (amended).  `ConfirmInventoryRequest` returns `true` exactly when
the node is blockchain-synced, the inv is a governance object or vote, and
the hash is not already held (objects/postponed for objects, vote-to-object
for votes) — presence in `requested_hash_time` is *not* checked; on `false`
the state is unchanged; on `true` the hash's entry is `now +
RELIABLE_PROPAGATION_TIME` when it was absent, while an existing entry is
kept untouched. -/
theorem claimC5_amended :
    ∀ (synced : Bool) (ty : InvType) (h : ℕ) (now : ℤ) (st : GovManagerState),
      ((confirmInventoryRequest synced ty h now st).1 = true ↔
        (synced = true ∧
          ((ty = InvType.govObject ∧ kvRead st.mapObjects h = none ∧
              kvRead st.mapPostponedObjects h = none) ∨
            (ty = InvType.govVote ∧ h ∉ st.voteToObjectKeys)))) ∧
      ((confirmInventoryRequest synced ty h now st).1 = false →
        (confirmInventoryRequest synced ty h now st).2 = st) ∧
      ((confirmInventoryRequest synced ty h now st).1 = true →
        (kvRead st.requestedHashTime h = none →
          kvRead (confirmInventoryRequest synced ty h now st).2.requestedHashTime h =
            some (now + RELIABLE_PROPAGATION_TIME)) ∧
        ∀ t : ℤ, kvRead st.requestedHashTime h = some t →
          kvRead (confirmInventoryRequest synced ty h now st).2.requestedHashTime h = some t) := by
  intro synced ty h now st
  cases synced with
  | false => simp [confirmInventoryRequest]
  | true =>
    have hemp1 : kvRead st.requestedHashTime h = none →
        kvRead (emplaceRequested st h now).requestedHashTime h =
          some (now + RELIABLE_PROPAGATION_TIME) := by
      intro hn
      unfold emplaceRequested
      rw [kvRead_mapEmplace_self, hn]
      rfl
    have hemp2 : ∀ t : ℤ, kvRead st.requestedHashTime h = some t →
        kvRead (emplaceRequested st h now).requestedHashTime h = some t := by
      intro t ht
      unfold emplaceRequested
      exact kvRead_mapEmplace_of_some _ ht
    cases ty with
    | otherInv =>
      have hres : confirmInventoryRequest true InvType.otherInv h now st = (false, st) := rfl
      rw [hres]
      refine ⟨?_, fun _ => rfl, fun hcontra => absurd hcontra (by simp)⟩
      simp only [Bool.false_eq_true, false_iff]
      rintro ⟨-, (⟨hty, -⟩ | ⟨hty, -⟩)⟩ <;> exact InvType.noConfusion hty
    | govObject =>
      have hres : confirmInventoryRequest true InvType.govObject h now st =
          if (kvRead st.mapObjects h).isSome = true ∨
              (kvRead st.mapPostponedObjects h).isSome = true then (false, st)
          else (true, emplaceRequested st h now) := rfl
      by_cases h1 : (kvRead st.mapObjects h).isSome = true ∨
          (kvRead st.mapPostponedObjects h).isSome = true
      · rw [hres, if_pos h1]
        have hne : ¬ (kvRead st.mapObjects h = none ∧
            kvRead st.mapPostponedObjects h = none) := by
          rintro ⟨ha, hb⟩
          rcases h1 with h1 | h1
          · rw [ha] at h1
            simp at h1
          · rw [hb] at h1
            simp at h1
        refine ⟨?_, fun _ => rfl, fun hcontra => absurd hcontra (by simp)⟩
        simp only [Bool.false_eq_true, false_iff]
        rintro ⟨-, (⟨-, ha, hb⟩ | ⟨hty, -⟩)⟩
        · exact hne ⟨ha, hb⟩
        · exact InvType.noConfusion hty
      · push_neg at h1
        have ha : kvRead st.mapObjects h = none := by
          rcases hv : kvRead st.mapObjects h with _ | v
          · rfl
          · exact absurd (by rw [hv]; rfl) h1.1
        have hb : kvRead st.mapPostponedObjects h = none := by
          rcases hv : kvRead st.mapPostponedObjects h with _ | v
          · rfl
          · exact absurd (by rw [hv]; rfl) h1.2
        rw [hres, if_neg (by rw [ha, hb]; simp)]
        exact ⟨by simp [ha, hb], fun hcontra => absurd hcontra (by simp),
          fun _ => ⟨hemp1, hemp2⟩⟩
    | govVote =>
      have hres : confirmInventoryRequest true InvType.govVote h now st =
          if h ∈ st.voteToObjectKeys then (false, st)
          else (true, emplaceRequested st h now) := rfl
      by_cases h1 : h ∈ st.voteToObjectKeys
      · rw [hres, if_pos h1]
        refine ⟨?_, fun _ => rfl, fun hcontra => absurd hcontra (by simp)⟩
        simp only [Bool.false_eq_true, false_iff]
        rintro ⟨-, (⟨hty, -⟩ | ⟨-, hmem⟩)⟩
        · exact InvType.noConfusion hty
        · exact hmem h1
      · rw [hres, if_neg h1]
        exact ⟨by simp [h1], fun hcontra => absurd hcontra (by simp),
          fun _ => ⟨hemp1, hemp2⟩⟩

/-- **C5** witness: the amended theorem applied to an empty state. -/
theorem claimC5_amended_witness :
    kvRead (confirmInventoryRequest true InvType.govObject 3 0
        (⟨[], [], [], [], []⟩ : GovManagerState)).2.requestedHashTime 3 =
      some (0 + RELIABLE_PROPAGATION_TIME) :=
  ((claimC5_amended true InvType.govObject 3 0 ⟨[], [], [], [], []⟩).2.2 rfl).1 rfl

/-! ## C1: superblock selection -/

theorem le_maxOf (l : List (Superblock × ℕ)) (y : ℕ) : y ≤ maxOf l y := by
  induction l generalizing y with
  | nil => exact le_refl y
  | cons c rest ih =>
    have h1 : y ≤ max y c.2 := le_max_left _ _
    exact le_trans h1 (ih (max y c.2))

theorem maxOf_cons (c : Superblock × ℕ) (l : List (Superblock × ℕ)) (y : ℕ) :
    maxOf (c :: l) y = maxOf l (max y c.2) := rfl

theorem bestFold_eq (st : TriggerState) (height : ℤ) :
    ∀ (l : List Superblock) (acc : Option Superblock × ℕ),
      l.foldl (bestTriggerStep st height) acc =
        (l.filterMap (fun sb =>
          if sb.blockHeight = height then
            (kvRead st.mapObjects sb.govObjHash).map (fun o => (sb, o.absYesFunding))
          else none)).foldl candStep acc := by
  intro l
  induction l with
  | nil => intro acc; rfl
  | cons sb rest ih =>
    intro acc
    by_cases hh : sb.blockHeight = height
    · cases hobj : kvRead st.mapObjects sb.govObjHash with
      | none =>
        have hstep : bestTriggerStep st height acc sb = acc := by
          unfold bestTriggerStep
          rw [if_neg (not_not_intro hh), hobj]
        simp only [List.foldl_cons, List.filterMap_cons, if_pos hh, hobj, hstep]
        exact ih acc
      | some obj =>
        have hstep : bestTriggerStep st height acc sb = candStep acc (sb, obj.absYesFunding) := by
          unfold bestTriggerStep candStep
          rw [if_neg (not_not_intro hh), hobj]
        simp only [List.foldl_cons, List.filterMap_cons, if_pos hh, hobj, Option.map_some',
          hstep]
        exact ih _
    · have hstep : bestTriggerStep st height acc sb = acc := by
        unfold bestTriggerStep
        rw [if_pos hh]
      simp only [List.foldl_cons, List.filterMap_cons, if_neg hh, hstep]
      exact ih acc

theorem candFold_snd :
    ∀ (l : List (Superblock × ℕ)) (b : Option Superblock) (y : ℕ),
      (l.foldl candStep (b, y)).2 = maxOf l y := by
  intro l
  induction l with
  | nil => intro b y; rfl
  | cons c rest ih =>
    intro b y
    rw [maxOf_cons]
    by_cases hc : y < c.2
    · have : candStep (b, y) c = (some c.1, c.2) := by unfold candStep; rw [if_pos hc]
      rw [List.foldl_cons, this, ih, Nat.max_eq_right (le_of_lt hc)]
    · have : candStep (b, y) c = (b, y) := by unfold candStep; rw [if_neg hc]
      rw [List.foldl_cons, this, ih, Nat.max_eq_left (Nat.le_of_not_lt hc)]

theorem candFold_fst :
    ∀ (l : List (Superblock × ℕ)) (b : Option Superblock) (y : ℕ),
      (l.foldl candStep (b, y)).1 =
        if y < maxOf l y then
          (l.find? (fun c => decide (c.2 = maxOf l y))).map (fun c => c.1)
        else b := by
  intro l
  induction l with
  | nil =>
    intro b y
    simp [maxOf]
  | cons c rest ih =>
    intro b y
    rw [maxOf_cons]
    by_cases hc : y < c.2
    · have hstep : candStep (b, y) c = (some c.1, c.2) := by unfold candStep; rw [if_pos hc]
      have hmax : max y c.2 = c.2 := Nat.max_eq_right (le_of_lt hc)
      rw [List.foldl_cons, hstep, ih, hmax]
      have hyM : y < maxOf rest c.2 := lt_of_lt_of_le hc (le_maxOf rest c.2)
      rw [if_pos hyM]
      by_cases heq : c.2 = maxOf rest c.2
      · rw [if_neg (by rw [← heq]; exact lt_irrefl c.2)]
        have hfind : List.find? (fun c1 => decide (c1.2 = maxOf rest c.2)) (c :: rest) = some c :=
          List.find?_cons_of_pos _ (decide_eq_true heq)
        rw [hfind]
        rfl
      · have hlt : c.2 < maxOf rest c.2 := lt_of_le_of_ne (le_maxOf rest c.2) heq
        rw [if_pos hlt, List.find?_cons_of_neg _ (by simp [heq])]
    · have hstep : candStep (b, y) c = (b, y) := by unfold candStep; rw [if_neg hc]
      have hmax : max y c.2 = y := Nat.max_eq_left (Nat.le_of_not_lt hc)
      rw [List.foldl_cons, hstep, ih, hmax]
      by_cases hy : y < maxOf rest y
      · have hne : ¬ c.2 = maxOf rest y := by
          intro hcm
          exact hc (lt_of_lt_of_le (hcm ▸ hy) (le_refl _))
        rw [if_pos hy, if_pos hy, List.find?_cons_of_neg _ (by simp [hne])]
      · rw [if_neg hy, if_neg hy]

/-- **C1** (amended).  `GetBestSuperblockInternal` selects, among the active
triggers at the requested height whose object exists (the funding flag is
*not* consulted), the first candidate in trigger-map iteration order
attaining the maximal YES count — on ties the earlier (lower-ordered) hash
wins, not the higher one; with no positive YES count there is no winner.
Selection is a pure function of the store, hence deterministic. -/
theorem claimC1_amended (validHeight : Bool) (st : TriggerState) (height : ℤ) :
    getBestSuperblockInternal validHeight st height =
      if validHeight then firstMaxCandidate (superblockCandidates st height) else none := by
  cases validHeight with
  | false => rfl
  | true =>
    have hgb : getBestSuperblockInternal true st height =
        (if 0 < ((getActiveTriggersInternal st).foldl (bestTriggerStep st height) (none, 0)).2
         then ((getActiveTriggersInternal st).foldl (bestTriggerStep st height) (none, 0)).1
         else none) := rfl
    have hfm : firstMaxCandidate (superblockCandidates st height) =
        (if maxOf (superblockCandidates st height) 0 = 0 then none
         else ((superblockCandidates st height).find?
            (fun c => decide (c.2 = maxOf (superblockCandidates st height) 0))).map
            (fun c => c.1)) := rfl
    rw [if_pos rfl, hgb, hfm]
    have hcand : (getActiveTriggersInternal st).foldl (bestTriggerStep st height) (none, 0) =
        (superblockCandidates st height).foldl candStep (none, 0) :=
      bestFold_eq st height _ (none, 0)
    rw [hcand, candFold_fst _ none 0, candFold_snd _ none 0]
    by_cases hm : maxOf (superblockCandidates st height) 0 = 0
    · rw [if_pos hm, if_neg (by rw [hm]; exact lt_irrefl 0)]
    · have hpos : 0 < maxOf (superblockCandidates st height) 0 := Nat.pos_of_ne_zero hm
      rw [if_pos hpos, if_pos hpos, if_neg hm]

/-- **C1** (counterexample).  Two funded triggers for superblock height 100,
tied at ten YES votes, with hashes 1 and 2: the code selects the trigger with
hash 1 (the first in map iteration order), not the higher hash 2 as
claimed. -/
theorem claimC1_counterexample :
    kvRead exTrigSt.mapObjects 1 = some exTrigObj ∧
    kvRead exTrigSt.mapObjects 2 = some exTrigObj ∧
    exTrigObj.cachedFunding = true ∧
    exTrigObj.absYesFunding = 10 ∧
    superblockCandidates exTrigSt 100 = [(⟨1, 100⟩, 10), (⟨2, 100⟩, 10)] ∧
    getBestSuperblockInternal true exTrigSt 100 = some ⟨1, 100⟩ ∧
    getBestSuperblockInternal true exTrigSt 100 ≠ some ⟨2, 100⟩ := by
  refine ⟨rfl, rfl, rfl, rfl, by decide, by decide, ?_⟩
  intro hcontra
  rw [show getBestSuperblockInternal true exTrigSt 100 = some ⟨1, 100⟩ from by decide]
    at hcontra
  have : (1 : ℕ) = 2 := congrArg Superblock.govObjHash (Option.some_inj.mp hcontra)
  simp at this

/-! ## C6: erased proposals stay erased -/

theorem kvRead_mapEmplace_preserve {β : Type} {m : List (ℕ × β)} {h : ℕ} {v : β}
    (k : ℕ) (w : β) (hm : kvRead m h = some v) :
    kvRead (mapEmplace m k w) h = some v := by
  by_cases hk : k = h
  · subst hk
    exact kvRead_mapEmplace_of_some _ hm
  · rw [kvRead_mapEmplace_ne _ _ _ _ (fun hh => hk hh.symm)]
    exact hm

theorem updateObjStep_erased_preserve (now cycle : ℤ) (e : ℕ × GovObject)
    (acc : List (ℕ × GovObject) × List (ℕ × ℤ)) (h : ℕ) (v : ℤ)
    (hm : kvRead acc.2 h = some v) :
    kvRead (updateObjStep now cycle acc e).2 h = some v := by
  unfold updateObjStep
  split
  · exact kvRead_mapEmplace_preserve _ _ hm
  · exact hm

theorem foldObj_erased_preserve (now cycle : ℤ) (h : ℕ) (v : ℤ) :
    ∀ (l : List (ℕ × GovObject)) (acc : List (ℕ × GovObject) × List (ℕ × ℤ)),
      kvRead acc.2 h = some v →
      kvRead (l.foldl (updateObjStep now cycle) acc).2 h = some v := by
  intro l
  induction l with
  | nil => intro acc hm; exact hm
  | cons e rest ih =>
    intro acc hm
    exact ih _ (updateObjStep_erased_preserve now cycle e acc h v hm)

theorem updateCachesAndClean_erased_retained (now cycle : ℤ) (st : GovManagerState) (h : ℕ)
    (hnow : now ≤ int64Max)
    (hm : kvRead st.mapErasedGovernanceObjects h = some int64Max) :
    kvRead (updateCachesAndClean now cycle st).mapErasedGovernanceObjects h = some int64Max := by
  unfold updateCachesAndClean
  refine kvRead_filter_of_some (foldObj_erased_preserve now cycle h int64Max _ _ hm) ?_
  simp only [decide_eq_true_eq]
  omega

theorem foldObj_h_free_preserve (now cycle : ℤ) (h : ℕ) (v : ℤ) :
    ∀ (l : List (ℕ × GovObject)) (acc : List (ℕ × GovObject) × List (ℕ × ℤ)),
      (∀ e ∈ l, e.1 ≠ h) →
      kvRead acc.2 h = some v → kvRead acc.1 h = none →
      kvRead (l.foldl (updateObjStep now cycle) acc).2 h = some v ∧
      kvRead (l.foldl (updateObjStep now cycle) acc).1 h = none := by
  intro l
  induction l with
  | nil => intro acc _ hm hn; exact ⟨hm, hn⟩
  | cons e rest ih =>
    intro acc hfree hm hn
    have he : e.1 ≠ h := hfree e (List.mem_cons_self _ _)
    have hstep2 : kvRead (updateObjStep now cycle acc e).2 h = some v :=
      updateObjStep_erased_preserve now cycle e acc h v hm
    have hstep1 : kvRead (updateObjStep now cycle acc e).1 h = none := by
      unfold updateObjStep
      split
      · exact hn
      · rw [kvRead_append_of_none _ hn]
        simp [kvRead, he]
    exact ih _ (fun x hx => hfree x (List.mem_cons_of_mem _ hx)) hstep2 hstep1

theorem foldObj_erases_proposal (now cycle : ℤ) (h : ℕ) (obj : GovObject)
    (hprop : obj.objType = GovType.proposal)
    (hdel : obj.cachedDelete = true ∨ obj.cachedExpired = true)
    (hmature : GOVERNANCE_DELETION_DELAY ≤ now - obj.deletionTime) :
    ∀ (l : List (ℕ × GovObject)) (acc : List (ℕ × GovObject) × List (ℕ × ℤ)),
      (h, obj) ∈ l → (l.map Prod.fst).Nodup →
      kvRead acc.2 h = none → kvRead acc.1 h = none →
      kvRead (l.foldl (updateObjStep now cycle) acc).2 h = some int64Max ∧
      kvRead (l.foldl (updateObjStep now cycle) acc).1 h = none := by
  intro l
  induction l with
  | nil => intro acc hmem; simp at hmem
  | cons e rest ih =>
    intro acc hmem hnd hm hn
    simp only [List.map_cons, List.nodup_cons] at hnd
    by_cases hkey : e.1 = h
    · have heobj : e = (h, obj) := by
        rcases List.mem_cons.mp hmem with heq | hmem'
        · exact heq.symm
        · exact absurd (by rw [hkey]; exact List.mem_map_of_mem Prod.fst hmem') hnd.1
      have hcond : ((e.2.cachedDelete ∨ e.2.cachedExpired) ∧
          GOVERNANCE_DELETION_DELAY ≤ now - e.2.deletionTime) := by
        rw [heobj]
        constructor
        · rcases hdel with hd | hd
          · exact Or.inl (by simp [hd])
          · exact Or.inr (by simp [hd])
        · exact hmature
      have hstep : updateObjStep now cycle acc e =
          (acc.1, mapEmplace acc.2 e.1 int64Max) := by
        unfold updateObjStep
        rw [if_pos hcond, heobj]
        simp [hprop]
      rw [List.foldl_cons, hstep]
      refine foldObj_h_free_preserve now cycle h int64Max rest _ ?_ ?_ hn
      · intro x hx hxh
        exact hnd.1 (by rw [hkey, ← hxh]; exact List.mem_map_of_mem Prod.fst hx)
      · rw [hkey, kvRead_mapEmplace_self, hm]
        rfl
    · have hmem' : (h, obj) ∈ rest := by
        rcases List.mem_cons.mp hmem with heq | hmem'
        · exact absurd (by rw [← heq]) hkey
        · exact hmem'
      have hstep2 : kvRead (updateObjStep now cycle acc e).2 h = none := by
        unfold updateObjStep
        split
        · rw [kvRead_mapEmplace_ne _ _ _ _ (fun hh => hkey hh.symm)]
          exact hm
        · exact hm
      have hstep1 : kvRead (updateObjStep now cycle acc e).1 h = none := by
        unfold updateObjStep
        split
        · exact hn
        · rw [kvRead_append_of_none _ hn]
          simp [kvRead, hkey]
      exact ih _ hmem' hnd.2 hstep2 hstep1

/-- **C6.**  Conjunction of the three claimed behaviours.
(1) An erased-proposal entry carrying the maximal int64 sentinel survives any
sequence of maintenance sweeps at times representable as int64 — it is never
swept.  (2) When maintenance erases a mature deleted/expired proposal, the
entry it records in `mapErasedGovernanceObjects` is exactly the maximal int64
sentinel, and the hash leaves `mapObjects`.  (3) A `MNGOVERNANCEOBJECT`
message whose hash is in the erased map is dropped before any processing:
the state (in particular `mapObjects`) is unchanged, whatever the remainder
of the handler would do. -/
theorem claimC6_erased_forever :
    (∀ (params : List (ℤ × ℤ)) (st : GovManagerState) (h : ℕ),
      (∀ q ∈ params, q.1 ≤ int64Max) →
      kvRead st.mapErasedGovernanceObjects h = some int64Max →
      kvRead (maintainMany params st).mapErasedGovernanceObjects h = some int64Max) ∧
    (∀ (now cycle : ℤ) (st : GovManagerState) (h : ℕ) (obj : GovObject),
      (st.mapObjects.map Prod.fst).Nodup →
      kvRead st.mapObjects h = some obj →
      obj.objType = GovType.proposal →
      (obj.cachedDelete = true ∨ obj.cachedExpired = true) →
      GOVERNANCE_DELETION_DELAY ≤ now - obj.deletionTime →
      kvRead st.mapErasedGovernanceObjects h = none →
      now ≤ int64Max →
      kvRead (updateCachesAndClean now cycle st).mapErasedGovernanceObjects h =
        some int64Max ∧
      kvRead (updateCachesAndClean now cycle st).mapObjects h = none) ∧
    (∀ (f : GovManagerState → GovManagerState) (st : GovManagerState) (h : ℕ),
      (kvRead st.mapErasedGovernanceObjects h).isSome →
      processGovObjectMsg f st h = st) := by
  refine ⟨?_, ?_, ?_⟩
  · intro params
    induction params with
    | nil => intro st h _ hm; exact hm
    | cons q rest ih =>
      intro st h hq hm
      exact ih _ _ (fun x hx => hq x (List.mem_cons_of_mem _ hx))
        (updateCachesAndClean_erased_retained q.1 q.2 st h
          (hq q (List.mem_cons_self _ _)) hm)
  · intro now cycle st h obj hnd hobj hprop hdel hmature herased hnow
    have hmem : (h, obj) ∈ st.mapObjects := mem_of_kvRead_eq_some hobj
    have hfold := foldObj_erases_proposal now cycle h obj hprop hdel hmature
      st.mapObjects ([], st.mapErasedGovernanceObjects) hmem hnd herased rfl
    constructor
    · unfold updateCachesAndClean
      refine kvRead_filter_of_some hfold.1 ?_
      simp only [decide_eq_true_eq]
      omega
    · exact hfold.2
  · intro f st h hsome
    unfold processGovObjectMsg
    rw [if_pos (Or.inr (Or.inr hsome))]

/-- **C6** witness: the second part applied to a store holding one mature
deleted proposal under hash 3, and the third part at the resulting state. -/
theorem claimC6_erased_forever_witness :
    kvRead (updateCachesAndClean 1000 100 exGovSt3).mapErasedGovernanceObjects 3 =
      some int64Max ∧
    kvRead (updateCachesAndClean 1000 100 exGovSt3).mapObjects 3 = none ∧
    processGovObjectMsg id (updateCachesAndClean 1000 100 exGovSt3) 3 =
      updateCachesAndClean 1000 100 exGovSt3 := by
  have h2 := claimC6_erased_forever.2.1 1000 100 exGovSt3 3 exDelProposal
    (by decide) rfl rfl (Or.inl rfl) (by decide) rfl (by decide)
  refine ⟨h2.1, h2.2, ?_⟩
  exact claimC6_erased_forever.2.2 id (updateCachesAndClean 1000 100 exGovSt3) 3
    (by rw [h2.1]; rfl)

/-! ## C2: WriteBlock failure atomicity -/

theorem applyTransferOps_stuck (sched : ℕ → Bool) (i : ℕ) (hstop : sched i = false) :
    ∀ (pt : List PendingTransfer) (st : DBState),
      applyTransferOps sched i st pt = (true, st) ∨
      applyTransferOps sched i st pt = (false, st) := by
  intro pt
  induction pt with
  | nil => intro st; exact Or.inl rfl
  | cons t rest ih =>
    intro st
    cases hr : kvRead st.points t.origin with
    | none =>
      have hred : applyTransferOps sched i st (t :: rest) = applyTransferOps sched i st rest := by
        conv_lhs => simp only [applyTransferOps]
        rw [hr]
      rw [hred]
      exact ih st
    | some r =>
      have hred : applyTransferOps sched i st (t :: rest) = (false, st) := by
        conv_lhs => simp only [applyTransferOps]
        rw [hr]
        dsimp only
        rw [if_pos (by rw [hstop]; exact Bool.false_ne_true)]
      rw [hred]
      exact Or.inr rfl

/-- **C2** (counterexample).  A store holding point 5 owned by `A` processes
a block with one valid transfer of point 5 to `B`.  The first batch (the
transfer's record update) commits and the second fails: `WriteBlock` returns
`false`, yet the store now differs from its pre-call state — the point
record already carries owner `B` while the owner index still maps `A`.
There is no rollback, so the all-or-nothing claim fails. -/
theorem claimC2_counterexample :
    (writeBlock (fun i => i == 0) exDb 2 [exTransferTx]).1 = false ∧
    (writeBlock (fun i => i == 0) exDb 2 [exTransferTx]).2 ≠ exDb ∧
    kvRead (writeBlock (fun i => i == 0) exDb 2 [exTransferTx]).2.points 5 =
      some ⟨1, "A", "B", 0, 0⟩ ∧
    (writeBlock (fun i => i == 0) exDb 2 [exTransferTx]).2.ownerIdx = [("A", 5)] := by
  refine ⟨by decide, by decide, by decide, by decide⟩

/-- **C2** (amended).  `WriteBlock` does not roll back: a failed call leaves
every batch committed before the failing one in place (only each individual
batch is atomic).  The pre-call state is guaranteed only when the *first*
attempted batch fails: if the schedule fails batch 0 and the call returns
`false`, the store is unchanged. -/
theorem claimC2_amended (sched : ℕ → Bool) (db : DBState) (height : ℕ) (txs : List Tx)
    (h0 : sched 0 = false) (hfail : (writeBlock sched db height txs).1 = false) :
    (writeBlock sched db height txs).2 = db := by
  unfold writeBlock at hfail ⊢
  by_cases hc : (pendingList (scanBlock db height txs [] []).1).isEmpty = true
  · rw [if_pos hc] at hfail ⊢
    rcases applyTransferOps_stuck sched 0 h0 (scanBlock db height txs [] []).2 db with h | h
    · rw [h] at hfail
      exact absurd hfail (by simp)
    · rw [h]
  · rw [if_neg hc, if_pos (by rw [h0]; exact Bool.false_ne_true)] at hfail ⊢

/-- **C2** witness: the amended theorem applied to the all-fail schedule on
the concrete transfer block. -/
theorem claimC2_amended_witness :
    (writeBlock (fun _ => false) exDb 2 [exTransferTx]).2 = exDb :=
  claimC2_amended (fun _ => false) exDb 2 [exTransferTx] rfl (by decide)

/-! ## C7: creation extraction -/

theorem findSome?_eq_some_iff {α β : Type} (f : α → Option β) (l : List α) (b : β) :
    l.findSome? f = some b ↔
      ∃ (l1 : List α) (x : α) (l2 : List α),
        l = l1 ++ x :: l2 ∧ f x = some b ∧ ∀ y ∈ l1, f y = none := by
  induction l with
  | nil =>
    constructor
    · intro h
      simp [List.findSome?] at h
    · rintro ⟨l1, x, l2, hdec, -, -⟩
      exact absurd hdec (by simp)
  | cons a l ih =>
    cases hfa : f a with
    | some v =>
      have hred : (a :: l).findSome? f = some v := by rw [List.findSome?_cons, hfa]
      rw [hred]
      constructor
      · intro hv
        exact ⟨[], a, l, rfl, by rw [hfa, hv], by simp⟩
      · rintro ⟨l1, x, l2, hdec, hfx, hnone⟩
        cases l1 with
        | nil =>
          simp only [List.nil_append, List.cons.injEq] at hdec
          rw [← hdec.1] at hfx
          rw [hfa] at hfx
          exact hfx
        | cons c l1' =>
          simp only [List.cons_append, List.cons.injEq] at hdec
          have hc := hnone c (List.mem_cons_self _ _)
          rw [← hdec.1, hfa] at hc
          exact absurd hc (by simp)
    | none =>
      have hred : (a :: l).findSome? f = l.findSome? f := by rw [List.findSome?_cons, hfa]
      rw [hred, ih]
      constructor
      · rintro ⟨l1, x, l2, hdec, hfx, hnone⟩
        refine ⟨a :: l1, x, l2, by rw [hdec, List.cons_append], hfx, ?_⟩
        intro y hy
        rcases List.mem_cons.mp hy with rfl | hy
        · exact hfa
        · exact hnone y hy
      · rintro ⟨l1, x, l2, hdec, hfx, hnone⟩
        cases l1 with
        | nil =>
          simp only [List.nil_append, List.cons.injEq] at hdec
          rw [← hdec.1, hfa] at hfx
          exact absurd hfx (by simp)
        | cons c l1' =>
          simp only [List.cons_append, List.cons.injEq] at hdec
          exact ⟨l1', x, l2, hdec.2, hfx,
            fun y hy => hnone y (List.mem_cons_of_mem _ hy)⟩

theorem payloadScanF_eq_some (o : TxOut) (p : String) :
    (if o.unspendable then extractOpReturnData o.ops else none) = some p ↔
      o.unspendable = true ∧ extractOpReturnData o.ops = some p := by
  cases h : o.unspendable <;> simp [h]

theorem payloadScanF_eq_none (o : TxOut) :
    (if o.unspendable then extractOpReturnData o.ops else none) = none ↔
      (o.unspendable = true → extractOpReturnData o.ops = none) := by
  cases h : o.unspendable <;> simp [h]

theorem ownerScanF_eq_some (o : TxOut) (w : String) :
    (if o.unspendable then none else o.dest) = some w ↔
      o.unspendable = false ∧ o.dest = some w := by
  cases h : o.unspendable <;> simp [h]

theorem ownerScanF_eq_none (o : TxOut) :
    (if o.unspendable then none else o.dest) = none ↔
      (o.unspendable = false → o.dest = none) := by
  cases h : o.unspendable <;> simp [h]

/-- **C7** (counterexample).  A non-coinbase transaction whose first
payload-bearing unspendable output carries `"HELLO"` and whose second
unspendable output carries a valid `ORINMAP1` creation payload, with a
spendable owner output: an unspendable output decoding as a creation payload
exists and the first spendable output yields an owner, yet `ExtractRecord`
rejects the transaction — the scan stops at the *first* extractable
OP_RETURN payload, which must itself be the creation payload. -/
theorem claimC7_counterexample :
    exTwoPayloadTx.isCoinbase = false ∧
    (∃ o ∈ exTwoPayloadTx.vout, o.unspendable = true ∧
      ((extractOpReturnData o.ops).bind parsePayload).isSome) ∧
    exTwoPayloadTx.vout.find? (fun o => !o.unspendable) = some ⟨false, [], some "A"⟩ ∧
    extractRecord exTwoPayloadTx = none := by
  refine ⟨rfl, ?_, by decide, by decide⟩
  refine ⟨⟨true, [⟨106, ""⟩, ⟨26, "ORINMAP1:55751244:37618423"⟩], none⟩, ?_, rfl, ?_⟩
  · decide
  · decide

/-- **C7** (amended).  `ExtractRecord` records a transaction as a map-point
creation exactly when: the transaction is not coinbase; the *first*
unspendable output with an extractable OP_RETURN payload exists and that
payload itself parses as an `ORINMAP1` creation payload (later unspendable
outputs are never consulted); and the *first* spendable output with an
extractable destination exists (spendable outputs without a destination are
skipped), which provides the owner.  The coordinates come from that first
payload and `origin_owner = current_owner = owner`. -/
theorem claimC7_amended (tx : Tx) (r : Record) :
    extractRecord tx = some r ↔
      (tx.isCoinbase = false ∧
       ∃ (pre : List TxOut) (o : TxOut) (post : List TxOut) (p : String) (la lo : ℤ),
         tx.vout = pre ++ o :: post ∧
         o.unspendable = true ∧ extractOpReturnData o.ops = some p ∧
         (∀ o' ∈ pre, o'.unspendable = true → extractOpReturnData o'.ops = none) ∧
         parsePayload p = some (la, lo) ∧
         ∃ (pre2 : List TxOut) (w : TxOut) (post2 : List TxOut) (owner : String),
           tx.vout = pre2 ++ w :: post2 ∧
           w.unspendable = false ∧ w.dest = some owner ∧
           (∀ o' ∈ pre2, o'.unspendable = false → o'.dest = none) ∧
           r = ⟨0, owner, owner, la, lo⟩) := by
  cases hcb : tx.isCoinbase with
  | true =>
    have hval : extractRecord tx = none := by simp [extractRecord, hcb]
    rw [hval]
    constructor
    · intro hc
      exact absurd hc (by simp)
    · rintro ⟨hfalse, -⟩
      exact absurd hfalse (by simp)
  | false =>
    cases hp : firstOpReturnPayload tx.vout with
    | none =>
      have hval : extractRecord tx = none := by simp [extractRecord, hcb, hp]
      rw [hval]
      constructor
      · intro hc
        exact absurd hc (by simp)
      · rintro ⟨-, pre, o, post, p, la, lo, hdec, hunsp, hops, hpre, -, -⟩
        have hfp : firstOpReturnPayload tx.vout = some p := by
          unfold firstOpReturnPayload
          rw [hdec]
          refine (findSome?_eq_some_iff _ _ _).mpr ⟨pre, o, post, rfl, ?_, ?_⟩
          · exact (payloadScanF_eq_some o p).mpr ⟨hunsp, hops⟩
          · intro y hy
            exact (payloadScanF_eq_none y).mpr (fun hu => hpre y hy hu)
        rw [hp] at hfp
        exact absurd hfp (by simp)
    | some p =>
      have hp2 : tx.vout.findSome?
          (fun o => if o.unspendable then extractOpReturnData o.ops else none) = some p := hp
      have hfirst := (findSome?_eq_some_iff
        (fun o => if o.unspendable then extractOpReturnData o.ops else none) tx.vout p).mp hp2
      cases hpp : parsePayload p with
      | none =>
        have hval : extractRecord tx = none := by simp [extractRecord, hcb, hp, hpp]
        rw [hval]
        constructor
        · intro hc
          exact absurd hc (by simp)
        · rintro ⟨-, pre, o, post, p', la, lo, hdec, hunsp, hops, hpre, hpp', -⟩
          have hfp : firstOpReturnPayload tx.vout = some p' := by
            unfold firstOpReturnPayload
            rw [hdec]
            refine (findSome?_eq_some_iff _ _ _).mpr ⟨pre, o, post, rfl, ?_, ?_⟩
            · exact (payloadScanF_eq_some o p').mpr ⟨hunsp, hops⟩
            · intro y hy
              exact (payloadScanF_eq_none y).mpr (fun hu => hpre y hy hu)
          rw [hp] at hfp
          obtain rfl : p' = p := (Option.some_inj.mp hfp).symm
          rw [hpp] at hpp'
          exact absurd hpp' (by simp)
      | some lalo =>
        obtain ⟨la, lo⟩ := lalo
        cases hw : extractOwnerAddress tx with
        | none =>
          have hval : extractRecord tx = none := by simp [extractRecord, hcb, hp, hpp, hw]
          rw [hval]
          constructor
          · intro hc
            exact absurd hc (by simp)
          · rintro ⟨-, pre, o, post, p', la', lo', hdec, hunsp, hops, hpre, hpp',
              pre2, w, post2, owner, hdec2, hsp, hdest, hpre2, -⟩
            have hfw : extractOwnerAddress tx = some owner := by
              unfold extractOwnerAddress
              rw [hdec2]
              refine (findSome?_eq_some_iff _ _ _).mpr ⟨pre2, w, post2, rfl, ?_, ?_⟩
              · exact (ownerScanF_eq_some w owner).mpr ⟨hsp, hdest⟩
              · intro y hy
                exact (ownerScanF_eq_none y).mpr (fun hu => hpre2 y hy hu)
            rw [hw] at hfw
            exact absurd hfw (by simp)
        | some owner =>
          have hval : extractRecord tx = some ⟨0, owner, owner, la, lo⟩ := by
            simp [extractRecord, hcb, hp, hpp, hw]
          rw [hval]
          constructor
          · intro hc
            obtain rfl : (⟨0, owner, owner, la, lo⟩ : Record) = r := Option.some_inj.mp hc
            refine ⟨rfl, ?_⟩
            obtain ⟨pre, o, post, hdec, hfo, hnone⟩ := hfirst
            obtain ⟨hunsp, hops⟩ := (payloadScanF_eq_some o p).mp hfo
            have hw2 : tx.vout.findSome?
                (fun o => if o.unspendable then none else o.dest) = some owner := hw
            obtain ⟨pre2, w, post2, hdec2, hfw, hnone2⟩ := (findSome?_eq_some_iff
              (fun o => if o.unspendable then none else o.dest) tx.vout owner).mp hw2
            obtain ⟨hsp, hdest⟩ := (ownerScanF_eq_some w owner).mp hfw
            exact ⟨pre, o, post, p, la, lo, hdec, hunsp, hops,
              fun y hy hu => (payloadScanF_eq_none y).mp (hnone y hy) hu, hpp,
              pre2, w, post2, owner, hdec2, hsp, hdest,
              fun y hy hu => (ownerScanF_eq_none y).mp (hnone2 y hy) hu, rfl⟩
          · rintro ⟨-, pre, o, post, p', la', lo', hdec, hunsp, hops, hpre, hpp',
              pre2, w, post2, owner', hdec2, hsp, hdest, hpre2, hr⟩
            have hfp : firstOpReturnPayload tx.vout = some p' := by
              unfold firstOpReturnPayload
              rw [hdec]
              refine (findSome?_eq_some_iff _ _ _).mpr ⟨pre, o, post, rfl, ?_, ?_⟩
              · exact (payloadScanF_eq_some o p').mpr ⟨hunsp, hops⟩
              · intro y hy
                exact (payloadScanF_eq_none y).mpr (fun hu => hpre y hy hu)
            rw [hp] at hfp
            obtain rfl : p' = p := (Option.some_inj.mp hfp).symm
            rw [hpp] at hpp'
            obtain ⟨rfl, rfl⟩ : la' = la ∧ lo' = lo := by
              have := Option.some_inj.mp hpp'
              exact ⟨congrArg Prod.fst this.symm, congrArg Prod.snd this.symm⟩
            have hfw : extractOwnerAddress tx = some owner' := by
              unfold extractOwnerAddress
              rw [hdec2]
              refine (findSome?_eq_some_iff _ _ _).mpr ⟨pre2, w, post2, rfl, ?_, ?_⟩
              · exact (ownerScanF_eq_some w owner').mpr ⟨hsp, hdest⟩
              · intro y hy
                exact (ownerScanF_eq_none y).mpr (fun hu => hpre2 y hy hu)
            rw [hw] at hfw
            obtain rfl : owner' = owner := (Option.some_inj.mp hfw).symm
            rw [hr]

/-- **C7** witness: the amended characterization applied to the concrete
creation transaction `exCreationTx`. -/
theorem claimC7_amended_witness :
    exCreationTx.isCoinbase = false ∧
    ∃ (pre : List TxOut) (o : TxOut) (post : List TxOut) (p : String) (la lo : ℤ),
      exCreationTx.vout = pre ++ o :: post ∧
      o.unspendable = true ∧ extractOpReturnData o.ops = some p ∧
      (∀ o' ∈ pre, o'.unspendable = true → extractOpReturnData o'.ops = none) ∧
      parsePayload p = some (la, lo) ∧
      ∃ (pre2 : List TxOut) (w : TxOut) (post2 : List TxOut) (owner : String),
        exCreationTx.vout = pre2 ++ w :: post2 ∧
        w.unspendable = false ∧ w.dest = some owner ∧
        (∀ o' ∈ pre2, o'.unspendable = false → o'.dest = none) ∧
        (⟨0, "A", "A", 55751244, 37618423⟩ : Record) = ⟨0, owner, owner, la, lo⟩ :=
  (claimC7_amended exCreationTx ⟨0, "A", "A", 55751244, 37618423⟩).mp (by decide)

/-! ## C4: masternode rate limiting -/

theorem foldl_max_le (hi : ℤ) :
    ∀ (l : List ℤ) (a : ℤ), a ≤ hi → (∀ t ∈ l, t ≤ hi) → l.foldl max a ≤ hi := by
  intro l
  induction l with
  | nil => intro a ha _; exact ha
  | cons x xs ih =>
    intro a ha hl
    exact ih (max a x) (max_le ha (hl x (List.mem_cons_self _ _)))
      (fun t ht => hl t (List.mem_cons_of_mem _ ht))

theorem foldl_min_ge (lo : ℤ) :
    ∀ (l : List ℤ) (a : ℤ), lo ≤ a → (∀ t ∈ l, lo ≤ t) → lo ≤ l.foldl min a := by
  intro l
  induction l with
  | nil => intro a ha _; exact ha
  | cons x xs ih =>
    intro a ha hl
    exact ih (min a x) (le_min ha (hl x (List.mem_cons_self _ _)))
      (fun t ht => hl t (List.mem_cons_of_mem _ ht))

theorem listMax_le (l : List ℤ) (hi : ℤ) (hne : l ≠ []) (h : ∀ t ∈ l, t ≤ hi) :
    listMax l ≤ hi := by
  cases l with
  | nil => exact absurd rfl hne
  | cons x xs =>
    exact foldl_max_le hi xs x (h x (List.mem_cons_self _ _))
      (fun t ht => h t (List.mem_cons_of_mem _ ht))

theorem listMin_ge (l : List ℤ) (lo : ℤ) (hne : l ≠ []) (h : ∀ t ∈ l, lo ≤ t) :
    lo ≤ listMin l := by
  cases l with
  | nil => exact absurd rfl hne
  | cons x xs =>
    exact foldl_min_ge lo xs x (h x (List.mem_cons_self _ _))
      (fun t ht => h t (List.mem_cons_of_mem _ ht))

theorem mem_addTimestamp (b : RateBuffer) (t u : ℤ)
    (h : u ∈ (addTimestamp b t).timestamps) : u ∈ b.timestamps ∨ u = t := by
  unfold addTimestamp at h
  split at h
  · rcases List.mem_append.mp h with h1 | h1
    · exact Or.inl h1
    · exact Or.inr (List.mem_singleton.mp h1)
  · rcases List.mem_append.mp h with h1 | h1
    · exact Or.inl (List.mem_of_mem_tail h1)
    · exact Or.inr (List.mem_singleton.mp h1)

theorem addTimestamp_eq_append (b : RateBuffer) (t : ℤ)
    (h : b.timestamps.length < rateBufferCap) :
    (addTimestamp b t).timestamps = b.timestamps ++ [t] := by
  unfold addTimestamp
  rw [if_pos h]

theorem addTimestamp_length_ge (b : RateBuffer) (t : ℤ)
    (h : 3 ≤ b.timestamps.length) : 4 ≤ (addTimestamp b t).timestamps.length := by
  unfold addTimestamp
  split
  · simp
    omega
  next hcap =>
    unfold rateBufferCap at hcap
    simp [List.length_tail]
    omega

theorem rateReject_of_window (lo cycle : ℤ) (hc : 0 < cycle) (b : RateBuffer) (t : ℤ)
    (hall : ∀ u ∈ b.timestamps, lo ≤ u ∧ u ≤ lo + cycle)
    (ht : lo ≤ t ∧ t ≤ lo + cycle)
    (hlen : 3 ≤ b.timestamps.length) :
    ¬ rateLtMax (addTimestamp b t).timestamps cycle := by
  have hlen4 : 4 ≤ (addTimestamp b t).timestamps.length := addTimestamp_length_ge b t hlen
  have hwin : ∀ u ∈ (addTimestamp b t).timestamps, lo ≤ u ∧ u ≤ lo + cycle := by
    intro u hu
    rcases mem_addTimestamp b t u hu with h1 | rfl
    · exact hall u h1
    · exact ht
  have hne : (addTimestamp b t).timestamps ≠ [] := by
    intro hnil
    rw [hnil] at hlen4
    simp at hlen4
  have hmax : listMax (addTimestamp b t).timestamps ≤ lo + cycle :=
    listMax_le _ _ hne (fun u hu => (hwin u hu).2)
  have hmin : lo ≤ listMin (addTimestamp b t).timestamps :=
    listMin_ge _ _ hne (fun u hu => (hwin u hu).1)
  unfold rateLtMax
  rw [if_neg (by omega)]
  push_neg
  have hspan : listMax (addTimestamp b t).timestamps -
      listMin (addTimestamp b t).timestamps ≤ cycle := by omega
  have h11 : 11 * (listMax (addTimestamp b t).timestamps -
      listMin (addTimestamp b t).timestamps) ≤ 11 * cycle := by nlinarith
  have hlen' : (3 : ℤ) ≤ ((addTimestamp b t).timestamps.length : ℤ) - 1 := by
    have : (4 : ℤ) ≤ ((addTimestamp b t).timestamps.length : ℤ) := by exact_mod_cast hlen4
    omega
  nlinarith

theorem rateCheck_eval (t now cycle : ℤ) (st : List (ℕ × LastObjectRec)) :
    masternodeRateCheck true true GovType.trigger 0 t now cycle true true st =
      (if t < now - 2 * cycle then ⟨false, false, st⟩
       else if now + MAX_TIME_FUTURE_DEVIATION < t then ⟨false, false, st⟩
       else
         match kvRead st 0 with
         | none => ⟨true, false, st⟩
         | some r =>
           if rateLtMax (addTimestamp r.triggerBuffer t).timestamps cycle then
             ⟨true, false, st⟩
           else ⟨false, false, kvWrite st 0 { r with statusOK := false }⟩ :
        RateCheckResult) := by
  unfold masternodeRateCheck
  rw [if_neg (by simp), if_neg (by simp)]
  by_cases h1 : t < now - 2 * cycle
  · rw [if_pos h1, if_pos h1]
  · rw [if_neg h1, if_neg h1]
    by_cases h2 : now + MAX_TIME_FUTURE_DEVIATION < t
    · rw [if_pos h2, if_pos h2]
    · rw [if_neg h2, if_neg h2]
      cases hk : kvRead st 0 with
      | none => rfl
      | some r =>
        dsimp only
        rw [if_neg (by simp)]
        by_cases h3 : rateLtMax (addTimestamp r.triggerBuffer t).timestamps cycle
        · rw [if_pos h3, if_pos h3]
        · rw [if_neg h3, if_neg h3]
          simp

theorem rateUpdate_eval (t : ℤ) (st : List (ℕ × LastObjectRec)) :
    masternodeRateUpdate GovType.trigger 0 t st =
      kvWrite st 0 ⟨addTimestamp ((kvRead st 0).getD ⟨⟨[]⟩, true⟩).triggerBuffer t, true⟩ := by
  unfold masternodeRateUpdate
  rw [if_neg (by simp)]

theorem runRateChecks_cons (now cycle t : ℤ) (rest : List ℤ)
    (st : List (ℕ × LastObjectRec)) :
    runRateChecks now cycle (t :: rest) st =
      (if (masternodeRateCheck true true GovType.trigger 0 t now cycle true true st).ok then
        t :: runRateChecks now cycle rest
          (masternodeRateUpdate GovType.trigger 0 t
            (masternodeRateCheck true true GovType.trigger 0 t now cycle true true st).state)
      else
        runRateChecks now cycle rest
          (masternodeRateCheck true true GovType.trigger 0 t now cycle true true st).state) := by
  rfl

theorem runRateChecks_bound (now cycle lo : ℤ) (hc : 0 < cycle) :
    ∀ (ts : List ℤ) (st : List (ℕ × LastObjectRec)),
      (∀ t ∈ ts, lo ≤ t ∧ t ≤ lo + cycle) →
      (∀ r : LastObjectRec, kvRead st 0 = some r →
        ∀ u ∈ r.triggerBuffer.timestamps, lo ≤ u ∧ u ≤ lo + cycle) →
      (runRateChecks now cycle ts st).length ≤ rateCap st := by
  intro ts
  induction ts with
  | nil =>
    intro st _ _
    unfold runRateChecks
    simp
  | cons t rest ih =>
    intro st hts hst
    have htw := hts t (List.mem_cons_self _ _)
    have hrest : ∀ x ∈ rest, lo ≤ x ∧ x ≤ lo + cycle :=
      fun x hx => hts x (List.mem_cons_of_mem _ hx)
    by_cases h1 : t < now - 2 * cycle
    · have hcheck : masternodeRateCheck true true GovType.trigger 0 t now cycle true true st =
          ⟨false, false, st⟩ := by
        rw [rateCheck_eval, if_pos h1]
      have hrun : runRateChecks now cycle (t :: rest) st = runRateChecks now cycle rest st := by
        rw [runRateChecks_cons, hcheck]
        rfl
      rw [hrun]
      exact ih st hrest hst
    · by_cases h2 : now + MAX_TIME_FUTURE_DEVIATION < t
      · have hcheck : masternodeRateCheck true true GovType.trigger 0 t now cycle true true st =
            ⟨false, false, st⟩ := by
          rw [rateCheck_eval, if_neg h1, if_pos h2]
        have hrun : runRateChecks now cycle (t :: rest) st =
            runRateChecks now cycle rest st := by
          rw [runRateChecks_cons, hcheck]
          rfl
        rw [hrun]
        exact ih st hrest hst
      · cases hk : kvRead st 0 with
        | none =>
          have hcheck : masternodeRateCheck true true GovType.trigger 0 t now cycle true true
              st = ⟨true, false, st⟩ := by
            rw [rateCheck_eval, if_neg h1, if_neg h2, hk]
          have hupd : masternodeRateUpdate GovType.trigger 0 t st =
              kvWrite st 0 ⟨⟨[t]⟩, true⟩ := by
            rw [rateUpdate_eval, hk]
            rfl
          have hrun : runRateChecks now cycle (t :: rest) st =
              t :: runRateChecks now cycle rest (kvWrite st 0 ⟨⟨[t]⟩, true⟩) := by
            rw [runRateChecks_cons, hcheck]
            dsimp only
            rw [if_pos rfl, hupd]
          have hcap : rateCap st = 3 := by
            unfold rateCap
            rw [hk]
          have hread : kvRead (kvWrite st 0 (⟨⟨[t]⟩, true⟩ : LastObjectRec)) 0 =
              some ⟨⟨[t]⟩, true⟩ := kvRead_kvWrite_self _ _ _
          have hcap' : rateCap (kvWrite st 0 (⟨⟨[t]⟩, true⟩ : LastObjectRec)) = 2 := by
            unfold rateCap
            rw [hread]
            rfl
          have hinv' : ∀ r : LastObjectRec,
              kvRead (kvWrite st 0 (⟨⟨[t]⟩, true⟩ : LastObjectRec)) 0 = some r →
              ∀ u ∈ r.triggerBuffer.timestamps, lo ≤ u ∧ u ≤ lo + cycle := by
            intro r hr u hu
            rw [hread] at hr
            obtain rfl := Option.some_inj.mp hr.symm
            rcases List.mem_singleton.mp hu with rfl
            exact htw
          have hrec := ih _ hrest hinv'
          rw [hcap', ] at hrec
          rw [hrun, hcap]
          simp only [List.length_cons]
          omega
        | some r =>
          by_cases h3 : rateLtMax (addTimestamp r.triggerBuffer t).timestamps cycle
          · have hcheck : masternodeRateCheck true true GovType.trigger 0 t now cycle true true
                st = ⟨true, false, st⟩ := by
              rw [rateCheck_eval, if_neg h1, if_neg h2, hk]
              dsimp only
              rw [if_pos h3]
            have hupd : masternodeRateUpdate GovType.trigger 0 t st =
                kvWrite st 0 ⟨addTimestamp r.triggerBuffer t, true⟩ := by
              rw [rateUpdate_eval, hk]
              rfl
            have hrun : runRateChecks now cycle (t :: rest) st =
                t :: runRateChecks now cycle rest
                  (kvWrite st 0 ⟨addTimestamp r.triggerBuffer t, true⟩) := by
              rw [runRateChecks_cons, hcheck]
              dsimp only
              rw [if_pos rfl, hupd]
            have hlen : r.triggerBuffer.timestamps.length ≤ 2 := by
              by_contra hlen
              push_neg at hlen
              exact rateReject_of_window lo cycle hc r.triggerBuffer t
                (hst r hk) htw (by omega) h3
            have hbuf : (addTimestamp r.triggerBuffer t).timestamps =
                r.triggerBuffer.timestamps ++ [t] :=
              addTimestamp_eq_append _ _ (by unfold rateBufferCap; omega)
            have hread : kvRead (kvWrite st 0
                (⟨addTimestamp r.triggerBuffer t, true⟩ : LastObjectRec)) 0 =
                some ⟨addTimestamp r.triggerBuffer t, true⟩ := kvRead_kvWrite_self _ _ _
            have hcap : rateCap st = 3 - r.triggerBuffer.timestamps.length := by
              unfold rateCap
              rw [hk]
              show 3 - min 3 r.triggerBuffer.timestamps.length =
                3 - r.triggerBuffer.timestamps.length
              omega
            have hcap' : rateCap (kvWrite st 0
                (⟨addTimestamp r.triggerBuffer t, true⟩ : LastObjectRec)) =
                3 - (r.triggerBuffer.timestamps.length + 1) := by
              unfold rateCap
              rw [hread]
              show 3 - min 3 (addTimestamp r.triggerBuffer t).timestamps.length =
                3 - (r.triggerBuffer.timestamps.length + 1)
              rw [hbuf]
              simp only [List.length_append, List.length_singleton]
              omega
            have hinv' : ∀ r' : LastObjectRec,
                kvRead (kvWrite st 0
                  (⟨addTimestamp r.triggerBuffer t, true⟩ : LastObjectRec)) 0 = some r' →
                ∀ u ∈ r'.triggerBuffer.timestamps, lo ≤ u ∧ u ≤ lo + cycle := by
              intro r' hr' u hu
              rw [hread] at hr'
              obtain rfl := Option.some_inj.mp hr'.symm
              rcases mem_addTimestamp r.triggerBuffer t u hu with h4 | rfl
              · exact hst r hk u h4
              · exact htw
            have hrec := ih _ hrest hinv'
            rw [hcap'] at hrec
            rw [hrun, hcap]
            simp only [List.length_cons]
            omega
          · have hcheck : masternodeRateCheck true true GovType.trigger 0 t now cycle true true
                st = ⟨false, false, kvWrite st 0 { r with statusOK := false }⟩ := by
              rw [rateCheck_eval, if_neg h1, if_neg h2, hk]
              dsimp only
              rw [if_neg h3]
            have hrun : runRateChecks now cycle (t :: rest) st =
                runRateChecks now cycle rest (kvWrite st 0 { r with statusOK := false }) := by
              rw [runRateChecks_cons, hcheck]
              rfl
            rw [hrun]
            have hread : kvRead (kvWrite st 0
                ({ r with statusOK := false } : LastObjectRec)) 0 =
                some { r with statusOK := false } := kvRead_kvWrite_self _ _ _
            have hcap' : rateCap (kvWrite st 0 ({ r with statusOK := false } : LastObjectRec)) =
                rateCap st := by
              unfold rateCap
              rw [hread, hk]
            have hinv' : ∀ r' : LastObjectRec,
                kvRead (kvWrite st 0 ({ r with statusOK := false } : LastObjectRec)) 0 =
                  some r' →
                ∀ u ∈ r'.triggerBuffer.timestamps, lo ≤ u ∧ u ≤ lo + cycle := by
              intro r' hr' u hu
              rw [hread] at hr'
              obtain rfl := Option.some_inj.mp hr'.symm
              exact hst r hk u hu
            have hrec := ih _ hrest hinv'
            rw [hcap'] at hrec
            exact hrec

theorem rateCheck_state_cases (synced en : Bool) (ot : GovType) (op : ℕ)
    (ts now cycle : ℤ) (u f : Bool) (st : List (ℕ × LastObjectRec)) :
    (masternodeRateCheck synced en ot op ts now cycle u f st).state = st ∨
    ∃ r : LastObjectRec, kvRead st op = some r ∧
      (masternodeRateCheck synced en ot op ts now cycle u f st).state =
        kvWrite st op { r with statusOK := false } := by
  unfold masternodeRateCheck
  split
  · exact Or.inl rfl
  split
  · exact Or.inl rfl
  split
  · exact Or.inl rfl
  split
  · exact Or.inl rfl
  split
  · exact Or.inl rfl
  rename_i r hr
  split
  · exact Or.inl rfl
  dsimp only
  by_cases hR : rateLtMax (addTimestamp r.triggerBuffer ts).timestamps cycle
  · rw [if_pos hR]
    exact Or.inl rfl
  · rw [if_neg hR]
    by_cases hu : u = true
    · rw [if_pos hu]
      exact Or.inr ⟨r, hr, rfl⟩
    · rw [if_neg hu]
      exact Or.inl rfl

/-- **C4** (counterexample).  With cycle = 1000 and `now` = 2000, the
admission loop (forced rate check then buffer update, starting from an empty
buffer) admits the timestamps 0, 500, 910, 2000 and 1000 — all of them.
Four of the admitted timestamps (0, 500, 910, 1000) lie within the single
cycle-length window [0, 1000], exceeding the claimed ceiling of
ceil(2·1.1) = 3 admissions per masternode per cycle window. -/
theorem claimC4_counterexample :
    runRateChecks 2000 1000 [0, 500, 910, 2000, 1000] [] = [0, 500, 910, 2000, 1000] ∧
    3 < (List.filter (fun t => decide (0 ≤ t ∧ t ≤ 0 + 1000))
      (runRateChecks 2000 1000 [0, 500, 910, 2000, 1000] [])).length := by
  constructor
  · decide
  · decide

/-- **C4** (amended).  The rate check (i) rejects triggers whose timestamp is
older than `now − 2·cycle` or newer than `now + 1h`; (ii) never mutates any
masternode's real buffer (only the status flag can change); (iii) when an
entry exists and the check is not bypassed and the timestamp is inside the
time window, it accepts exactly when the rate of the speculative copy
(buffer plus the new timestamp) is below `2·1.1/cycle`; and (iv) starting
from an empty state, if every submitted timestamp lies within one
cycle-length window, at most `ceil(2·1.1) = 3` triggers are admitted — this
bound does not hold for arbitrary submission sequences (see the
counterexample). -/
theorem claimC4_amended :
    (∀ (op : ℕ) (ts now cycle : ℤ) (u f : Bool) (st : List (ℕ × LastObjectRec)),
      (ts < now - 2 * cycle ∨ now + MAX_TIME_FUTURE_DEVIATION < ts) →
      (masternodeRateCheck true true GovType.trigger op ts now cycle u f st).ok = false) ∧
    (∀ (synced en : Bool) (ot : GovType) (op : ℕ) (ts now cycle : ℤ) (u f : Bool)
        (st : List (ℕ × LastObjectRec)) (k : ℕ),
      (kvRead (masternodeRateCheck synced en ot op ts now cycle u f st).state k).map
          (fun e => e.triggerBuffer) =
        (kvRead st k).map (fun e => e.triggerBuffer)) ∧
    (∀ (op : ℕ) (ts now cycle : ℤ) (u f : Bool) (st : List (ℕ × LastObjectRec))
        (r : LastObjectRec),
      kvRead st op = some r →
      ¬ (r.statusOK = true ∧ f = false) →
      now - 2 * cycle ≤ ts → ts ≤ now + MAX_TIME_FUTURE_DEVIATION →
      ((masternodeRateCheck true true GovType.trigger op ts now cycle u f st).ok = true ↔
        rateLtMax (addTimestamp r.triggerBuffer ts).timestamps cycle)) ∧
    (∀ (now cycle lo : ℤ) (ts : List ℤ),
      0 < cycle →
      (∀ t ∈ ts, lo ≤ t ∧ t ≤ lo + cycle) →
      (runRateChecks now cycle ts []).length ≤ 3) := by
  refine ⟨?_, ?_, ?_, ?_⟩
  · intro op ts now cycle u f st hwin
    unfold masternodeRateCheck
    rw [if_neg (by simp), if_neg (by simp)]
    by_cases hts : ts < now - 2 * cycle
    · rw [if_pos hts]
    · rcases hwin with h | h
      · exact absurd h hts
      · rw [if_neg hts, if_pos h]
  · intro synced en ot op ts now cycle u f st k
    rcases rateCheck_state_cases synced en ot op ts now cycle u f st with hs | ⟨r, hr, hs⟩
    · rw [hs]
    · rw [hs]
      by_cases hko : k = op
      · subst hko
        rw [kvRead_kvWrite_self, hr]
        rfl
      · rw [kvRead_kvWrite_ne _ _ _ _ hko]
  · intro op ts now cycle u f st r hk hnb h3 h4
    unfold masternodeRateCheck
    rw [if_neg (by simp), if_neg (by simp), if_neg (not_lt.mpr h3),
      if_neg (not_lt.mpr h4), hk]
    dsimp only
    rw [if_neg (by
      intro hcon
      refine hnb ⟨hcon.1, ?_⟩
      have := hcon.2
      revert this
      cases f <;> simp)]
    by_cases h5 : rateLtMax (addTimestamp r.triggerBuffer ts).timestamps cycle
    · rw [if_pos h5]
      simp [h5]
    · rw [if_neg h5]
      simp [h5]
  · intro now cycle lo ts hc hwin
    have := runRateChecks_bound now cycle lo hc ts [] hwin
      (by intro r hr; exact absurd hr (by simp [kvRead]))
    simpa [rateCap, kvRead] using this

/-- **C4** witness: the amended theorem applied at concrete inputs — a
too-old timestamp is rejected, the characterization holds on a one-element
buffer, and a four-submission single-window run admits at most three. -/
theorem claimC4_amended_witness :
    (masternodeRateCheck true true GovType.trigger 0 (-10000) 0 1000 true true []).ok =
      false ∧
    ((masternodeRateCheck true true GovType.trigger 0 5 5 1000 true true
        [(0, ⟨⟨[0]⟩, true⟩)]).ok = true ↔
      rateLtMax (addTimestamp (⟨[0]⟩ : RateBuffer) 5).timestamps 1000) ∧
    (runRateChecks 0 1000 [0, 1, 2, 3] []).length ≤ 3 := by
  refine ⟨?_, ?_, ?_⟩
  · exact claimC4_amended.1 0 (-10000) 0 1000 true true [] (Or.inl (by norm_num))
  · exact claimC4_amended.2.2.1 0 5 5 1000 true true [(0, ⟨⟨[0]⟩, true⟩)] ⟨⟨[0]⟩, true⟩
      rfl (by simp) (by norm_num) (by norm_num [MAX_TIME_FUTURE_DEVIATION])
  · exact claimC4_amended.2.2.2 0 1000 0 [0, 1, 2, 3] (by norm_num) (by decide)

/-! ## Rewind: lemmas about the transfer-removal pass -/

theorem kvRead_filter_of_key_true {α β : Type} [DecidableEq α] (p : α × β → Bool)
    (m : List (α × β)) (k : α) (hp : ∀ v, p (k, v) = true) :
    kvRead (m.filter p) k = kvRead m k := by
  induction m with
  | nil => rfl
  | cons e rest ih =>
    by_cases hek : e.1 = k
    · have hpe : p e = true := by
        have he : e = (k, e.2) := by rw [← hek]
        rw [he]
        exact hp e.2
      rw [List.filter_cons_of_pos hpe]
      simp only [kvRead]
      rw [if_pos hek, if_pos hek]
    · cases hpe : p e with
      | true =>
        rw [List.filter_cons_of_pos hpe]
        simp only [kvRead]
        rw [if_neg hek, if_neg hek]
        exact ih
      | false =>
        rw [List.filter_cons_of_neg (by simp [hpe]), ih]
        simp only [kvRead]
        rw [if_neg hek]

theorem kvRead_filter_none {α β : Type} [DecidableEq α] (p : α × β → Bool)
    (m : List (α × β)) (k : α) (h : kvRead m k = none) :
    kvRead (m.filter p) k = none := by
  induction m with
  | nil => rfl
  | cons e rest ih =>
    unfold kvRead at h
    by_cases hek : e.1 = k
    · rw [if_pos hek] at h
      exact absurd h (by simp)
    · rw [if_neg hek] at h
      cases hpe : p e with
      | true =>
        rw [List.filter_cons_of_pos hpe]
        simp only [kvRead]
        rw [if_neg hek]
        exact ih h
      | false =>
        rw [List.filter_cons_of_neg (by simp [hpe])]
        exact ih h

theorem mem_setEraseFold {α β : Type} [DecidableEq β] (f : α → β) (l : List α)
    (th : List β) (x : β) :
    x ∈ l.foldl (fun acc e => setErase acc (f e)) th ↔
      x ∈ th ∧ ∀ e ∈ l, f e ≠ x := by
  induction l generalizing th with
  | nil => simp
  | cons e rest ih =>
    rw [List.foldl_cons, ih, mem_setErase_iff]
    constructor
    · rintro ⟨⟨hx, hne⟩, hall⟩
      refine ⟨hx, ?_⟩
      intro e' he'
      rcases List.mem_cons.mp he' with rfl | hmem
      · exact fun hc => hne hc.symm
      · exact hall e' hmem
    · rintro ⟨hx, hall⟩
      refine ⟨⟨hx, fun hc => hall e (List.mem_cons_self e rest) hc.symm⟩, ?_⟩
      intro e' he'
      exact hall e' (List.mem_cons_of_mem e he')

theorem setEraseFold_nodup {α β : Type} [DecidableEq β] (f : α → β) (l : List α)
    (th : List β) (h : th.Nodup) :
    (l.foldl (fun acc e => setErase acc (f e)) th).Nodup := by
  induction l generalizing th with
  | nil => exact h
  | cons e rest ih =>
    rw [List.foldl_cons]
    exact ih _ (setErase_nodup _ _ h)

theorem filter_keys_nodup {α β : Type} (p : α × β → Bool) (m : List (α × β))
    (h : (m.map Prod.fst).Nodup) : ((m.filter p).map Prod.fst).Nodup :=
  ((List.filter_sublist m).map Prod.fst).nodup h

theorem mem_removedTransferKeys (s : DBState) (h : ℕ) (k : ℕ × ℕ × ℕ) :
    k ∈ removedTransferKeys s h ↔ k ∈ s.transferHeightIdx ∧ h < k.1 := by
  unfold removedTransferKeys
  rw [List.Perm.mem_iff (List.perm_insertionSort _ _)]
  simp [List.mem_filter]

theorem rtahFold_points (s : DBState) (keys : List (ℕ × ℕ × ℕ)) (st : DBState) :
    (keys.foldl (rtahStep s) st).points = st.points := by
  induction keys generalizing st with
  | nil => rfl
  | cons k rest ih => exact ih (rtahStep s st k)

theorem rtahFold_heightIdx (s : DBState) (keys : List (ℕ × ℕ × ℕ)) (st : DBState) :
    (keys.foldl (rtahStep s) st).heightIdx = st.heightIdx := by
  induction keys generalizing st with
  | nil => rfl
  | cons k rest ih => exact ih (rtahStep s st k)

theorem rtahFold_ownerIdx (s : DBState) (keys : List (ℕ × ℕ × ℕ)) (st : DBState) :
    (keys.foldl (rtahStep s) st).ownerIdx = st.ownerIdx := by
  induction keys generalizing st with
  | nil => rfl
  | cons k rest ih => exact ih (rtahStep s st k)

theorem rtahFold_transfers_none (s : DBState) (keys : List (ℕ × ℕ × ℕ)) (st : DBState)
    (key : ℕ × ℕ) (h : kvRead st.transfers key = none) :
    kvRead (keys.foldl (rtahStep s) st).transfers key = none := by
  induction keys generalizing st with
  | nil => exact h
  | cons k rest ih =>
    rw [List.foldl_cons]
    apply ih
    show kvRead (rtahStep s st k).transfers key = none
    unfold rtahStep
    dsimp only
    split
    · by_cases hk : key = (k.2.1, k.2.2)
      · rw [← hk, kvRead_kvErase_self]
      · rw [kvRead_kvErase_ne _ _ _ hk]
        exact h
    · exact h

theorem rtahFold_transfers_erased (s : DBState) (keys : List (ℕ × ℕ × ℕ)) (st : DBState)
    (k : ℕ × ℕ × ℕ) (hk : k ∈ keys)
    (hs : (kvRead s.transfers (k.2.1, k.2.2)).isSome = true) :
    kvRead (keys.foldl (rtahStep s) st).transfers (k.2.1, k.2.2) = none := by
  induction keys generalizing st with
  | nil => exact absurd hk (List.not_mem_nil k)
  | cons k0 rest ih =>
    rw [List.foldl_cons]
    rcases List.mem_cons.mp hk with rfl | hmem
    · apply rtahFold_transfers_none
      show kvRead (rtahStep s st k).transfers (k.2.1, k.2.2) = none
      unfold rtahStep
      dsimp only
      rw [if_pos hs, kvRead_kvErase_self]
    · exact ih (rtahStep s st k0) hmem

theorem rtahFold_transfers_pres (s : DBState) (keys : List (ℕ × ℕ × ℕ)) (st : DBState)
    (key : ℕ × ℕ) (h : ∀ k ∈ keys, (k.2.1, k.2.2) ≠ key) :
    kvRead (keys.foldl (rtahStep s) st).transfers key = kvRead st.transfers key := by
  induction keys generalizing st with
  | nil => rfl
  | cons k0 rest ih =>
    rw [List.foldl_cons, ih (rtahStep s st k0) (fun k hk => h k (List.mem_cons_of_mem k0 hk))]
    show kvRead (rtahStep s st k0).transfers key = kvRead st.transfers key
    unfold rtahStep
    dsimp only
    split
    · exact kvRead_kvErase_ne _ _ _
        (fun hc => h k0 (List.mem_cons_self k0 rest) hc.symm)
    · rfl

theorem rtahFold_thIdx_mem (s : DBState) (keys : List (ℕ × ℕ × ℕ)) (st : DBState)
    (x : ℕ × ℕ × ℕ) :
    x ∈ (keys.foldl (rtahStep s) st).transferHeightIdx ↔
      x ∈ st.transferHeightIdx ∧ x ∉ keys := by
  induction keys generalizing st with
  | nil => simp
  | cons k0 rest ih =>
    rw [List.foldl_cons, ih]
    show (x ∈ (rtahStep s st k0).transferHeightIdx ∧ _) ↔ _
    unfold rtahStep
    dsimp only
    rw [mem_setErase_iff]
    simp only [List.mem_cons, not_or, and_assoc]

theorem rtahFold_transfers_sub (s : DBState) (keys : List (ℕ × ℕ × ℕ)) (st : DBState)
    (e : (ℕ × ℕ) × TransferRecord)
    (h : e ∈ (keys.foldl (rtahStep s) st).transfers) : e ∈ st.transfers := by
  induction keys generalizing st with
  | nil => exact h
  | cons k0 rest ih =>
    rw [List.foldl_cons] at h
    have h2 := ih (rtahStep s st k0) h
    revert h2
    show e ∈ (rtahStep s st k0).transfers → e ∈ st.transfers
    unfold rtahStep
    dsimp only
    split
    · intro hmem
      exact ((mem_kvErase_iff _ _ _).mp hmem).1
    · exact id

theorem rtahFold_nodup (s : DBState) (keys : List (ℕ × ℕ × ℕ)) (st : DBState)
    (h1 : (st.transfers.map Prod.fst).Nodup) (h2 : st.transferHeightIdx.Nodup) :
    ((keys.foldl (rtahStep s) st).transfers.map Prod.fst).Nodup ∧
      (keys.foldl (rtahStep s) st).transferHeightIdx.Nodup := by
  induction keys generalizing st with
  | nil => exact ⟨h1, h2⟩
  | cons k0 rest ih =>
    rw [List.foldl_cons]
    apply ih
    · show ((rtahStep s st k0).transfers.map Prod.fst).Nodup
      unfold rtahStep
      dsimp only
      split
      · exact kvErase_keys_nodup _ _ h1
      · exact h1
    · show (rtahStep s st k0).transferHeightIdx.Nodup
      unfold rtahStep
      dsimp only
      exact setErase_nodup _ _ h2

theorem rtah_fields (s : DBState) (h : ℕ) :
    (removeTransfersAboveHeight s h).2.points = s.points ∧
    (removeTransfersAboveHeight s h).2.heightIdx = s.heightIdx ∧
    (removeTransfersAboveHeight s h).2.ownerIdx = s.ownerIdx :=
  ⟨rtahFold_points s _ s, rtahFold_heightIdx s _ s, rtahFold_ownerIdx s _ s⟩

/-- Transfers recorded strictly above the cutoff are all erased by the
transfer-removal pass (their reverse-lookup entry is visited). -/
theorem rtah_transfers_high (s : DBState) (h : ℕ) (key : ℕ × ℕ) (rec : TransferRecord)
    (hc : thIdxComplete s) (hr : kvRead s.transfers key = some rec)
    (hh : h < rec.height) :
    kvRead (removeTransfersAboveHeight s h).2.transfers key = none := by
  have hmem : (key, rec) ∈ s.transfers := mem_of_kvRead_eq_some hr
  have hth : (rec.height, key.1, key.2) ∈ s.transferHeightIdx := hc _ hmem
  have hk : (rec.height, key.1, key.2) ∈ removedTransferKeys s h :=
    (mem_removedTransferKeys s h _).mpr ⟨hth, hh⟩
  have := rtahFold_transfers_erased s (removedTransferKeys s h) s
    (rec.height, key.1, key.2) hk (by simp [hr])
  simpa using this

/-- Transfers recorded at or below the cutoff survive the transfer-removal
pass unchanged. -/
theorem rtah_transfers_low (s : DBState) (h : ℕ) (key : ℕ × ℕ) (rec : TransferRecord)
    (hs : thIdxSound s) (hr : kvRead s.transfers key = some rec)
    (hh : rec.height ≤ h) :
    kvRead (removeTransfersAboveHeight s h).2.transfers key = some rec := by
  have hpres :
      kvRead (removeTransfersAboveHeight s h).2.transfers key = kvRead s.transfers key := by
    apply rtahFold_transfers_pres
    intro k hk hkey
    have hk2 := (mem_removedTransferKeys s h k).mp hk
    have hsnd := hs k hk2.1
    rw [hkey, hr] at hsnd
    have : rec.height = k.1 := by simpa using hsnd
    omega
  rw [hpres, hr]

theorem rtah_storeInv (s : DBState) (h : ℕ) (hs : storeInv s) :
    storeInv (removeTransfersAboveHeight s h).2 := by
  obtain ⟨hnd, hhs, hhc, hts, htc, hok, hoi⟩ := hs
  obtain ⟨hp, hh, ho⟩ := rtah_fields s h
  have hnd2 := rtahFold_nodup s (removedTransferKeys s h) s hnd.2.1 hnd.2.2.2.2
  refine ⟨⟨?_, hnd2.1, ?_, ?_, hnd2.2⟩, ?_, ?_, ?_, ?_, ?_, ?_⟩
  · rw [hp]; exact hnd.1
  · rw [hh]; exact hnd.2.2.1
  · rw [ho]; exact hnd.2.2.2.1
  · intro k hk
    rw [hh] at hk
    rw [hp]
    exact hhs k hk
  · intro e he
    rw [hp] at he
    rw [hh]
    exact hhc e he
  · intro k hk
    have hk2 := (rtahFold_thIdx_mem s (removedTransferKeys s h) s k).mp hk
    have hklow : ¬ h < k.1 := fun hlt =>
      hk2.2 ((mem_removedTransferKeys s h k).mpr ⟨hk2.1, hlt⟩)
    have hsnd := hts k hk2.1
    cases hread : kvRead s.transfers (k.2.1, k.2.2) with
    | none => rw [hread] at hsnd; simp at hsnd
    | some rec =>
      rw [hread] at hsnd
      have hrh : rec.height = k.1 := by simpa using hsnd
      have := rtah_transfers_low s h (k.2.1, k.2.2) rec hts hread (by omega)
      rw [this]
      simp [hrh]
  · intro e he
    have hesub := rtahFold_transfers_sub s (removedTransferKeys s h) s e he
    have hent := htc e hesub
    refine (rtahFold_thIdx_mem s (removedTransferKeys s h) s _).mpr
      ⟨hent, fun hremoved => ?_⟩
    have hk2 := (mem_removedTransferKeys s h _).mp hremoved
    have hreads : kvRead s.transfers e.1 = some e.2 := kvRead_eq_some_of_mem hnd.2.1 hesub
    have hnone := rtah_transfers_high s h e.1 e.2 htc hreads hk2.2
    have hsome : kvRead (removeTransfersAboveHeight s h).2.transfers e.1 = some e.2 :=
      kvRead_eq_some_of_mem hnd2.1 he
    rw [hnone] at hsome
    exact Option.noConfusion hsome
  · intro e he
    rw [ho] at he
    exact hok e he
  · intro e he
    rw [hp] at he
    rw [ho]
    exact hoi e he

/-! ## Rewind: lemmas about the owner-rollback pass -/

theorem applyOwnerUpdate_fields (st : DBState) (u : ℕ × String) :
    (applyOwnerUpdate st u).transfers = st.transfers ∧
    (applyOwnerUpdate st u).transferHeightIdx = st.transferHeightIdx ∧
    (applyOwnerUpdate st u).heightIdx = st.heightIdx := by
  unfold applyOwnerUpdate
  cases kvRead st.points u.1 with
  | none => exact ⟨rfl, rfl, rfl⟩
  | some r => exact ⟨rfl, rfl, rfl⟩

theorem ownerFold_transfers (us : List (ℕ × String)) (st : DBState) :
    (us.foldl applyOwnerUpdate st).transfers = st.transfers ∧
    (us.foldl applyOwnerUpdate st).transferHeightIdx = st.transferHeightIdx ∧
    (us.foldl applyOwnerUpdate st).heightIdx = st.heightIdx := by
  induction us generalizing st with
  | nil => exact ⟨rfl, rfl, rfl⟩
  | cons u rest ih =>
    rw [List.foldl_cons]
    obtain ⟨h1, h2, h3⟩ := ih (applyOwnerUpdate st u)
    obtain ⟨g1, g2, g3⟩ := applyOwnerUpdate_fields st u
    exact ⟨h1.trans g1, h2.trans g2, h3.trans g3⟩

theorem ownerFold_points_none (us : List (ℕ × String)) (st : DBState) (o : ℕ)
    (h : kvRead st.points o = none) :
    kvRead (us.foldl applyOwnerUpdate st).points o = none := by
  induction us generalizing st with
  | nil => exact h
  | cons u rest ih =>
    rw [List.foldl_cons]
    apply ih
    unfold applyOwnerUpdate
    cases hr : kvRead st.points u.1 with
    | none => exact h
    | some r =>
      dsimp only [writeRecord, updateOwnerIndex]
      by_cases hu : u.1 = o
      · rw [hu] at hr
        rw [hr] at h
        exact Option.noConfusion h
      · rw [kvRead_kvWrite_ne _ _ _ _ (fun hc => hu hc.symm)]
        exact h

theorem lastOwner_cons (u : ℕ × String) (rest : List (ℕ × String)) (o : ℕ) (d : String) :
    lastOwner (u :: rest) o d = lastOwner rest o (if u.1 = o then u.2 else d) := rfl

theorem ownerFold_points_some (us : List (ℕ × String)) (st : DBState) (o : ℕ) (r : Record)
    (h : kvRead st.points o = some r) :
    kvRead (us.foldl applyOwnerUpdate st).points o =
      some { r with current_owner := lastOwner us o r.current_owner } := by
  induction us generalizing st r with
  | nil => simpa [lastOwner] using h
  | cons u rest ih =>
    rw [List.foldl_cons]
    by_cases hu : u.1 = o
    · have happ :
          (applyOwnerUpdate st u).points =
            kvWrite st.points u.1 { r with current_owner := u.2 } := by
        unfold applyOwnerUpdate
        rw [hu, h]
        rfl
      have hread :
          kvRead (applyOwnerUpdate st u).points o =
            some { r with current_owner := u.2 } := by
        rw [happ, hu, kvRead_kvWrite_self]
      have := ih (applyOwnerUpdate st u) { r with current_owner := u.2 } hread
      rw [this, lastOwner_cons, if_pos hu]
    · have hread : kvRead (applyOwnerUpdate st u).points o = some r := by
        unfold applyOwnerUpdate
        cases hr : kvRead st.points u.1 with
        | none => exact h
        | some r' =>
          dsimp only [writeRecord, updateOwnerIndex]
          rw [kvRead_kvWrite_ne _ _ _ _ (fun hc => hu hc.symm)]
          exact h
      have := ih (applyOwnerUpdate st u) r hread
      rw [this, lastOwner_cons, if_neg hu]

theorem lastOwner_append (a b : List (ℕ × String)) (o : ℕ) (d : String) :
    lastOwner (a ++ b) o d = lastOwner b o (lastOwner a o d) := by
  induction a generalizing d with
  | nil => rfl
  | cons u rest ih =>
    show lastOwner (rest ++ b) o _ = _
    rw [ih]
    rfl

theorem firstOwner_cons (u : ℕ × String) (rest : List (ℕ × String)) (o : ℕ) (d : String) :
    firstOwner (u :: rest) o d = if u.1 = o then u.2 else firstOwner rest o d := rfl

theorem lastOwner_reverse (l : List (ℕ × String)) (o : ℕ) (d : String) :
    lastOwner l.reverse o d = firstOwner l o d := by
  induction l generalizing d with
  | nil => rfl
  | cons u rest ih =>
    rw [List.reverse_cons, lastOwner_append, firstOwner_cons]
    rw [ih]
    rfl

theorem firstOwner_filter (l : List (ℕ × String)) (o : ℕ) (d : String) :
    firstOwner l o d =
      (((l.filter (fun u => decide (u.1 = o))).head?.map Prod.snd).getD d) := by
  induction l with
  | nil => rfl
  | cons u rest ih =>
    unfold firstOwner
    by_cases hu : u.1 = o
    · rw [if_pos hu, List.filter_cons_of_pos (by simp [hu])]
      rfl
    · rw [if_neg hu, List.filter_cons_of_neg (by simp [hu]), ih]

theorem uoi_mem_other (st : DBState) (oldO newO : String) (g : ℕ) (x : String × ℕ)
    (hx2 : x.2 ≠ g) :
    x ∈ (updateOwnerIndex oldO newO g st).ownerIdx ↔ x ∈ st.ownerIdx := by
  unfold updateOwnerIndex
  dsimp only
  have hxo : x ≠ (oldO, g) := fun hc => hx2 (by rw [hc])
  have hxn : x ≠ (newO, g) := fun hc => hx2 (by rw [hc])
  split
  · rw [mem_setInsert_iff]
    split
    · rw [mem_setErase_iff]
      constructor
      · rintro (⟨hx, h2⟩ | hx)
        · exact hx
        · exact absurd hx hxn
      · intro hx
        exact Or.inl ⟨hx, hxo⟩
    · constructor
      · rintro (hx | hx)
        · exact hx
        · exact absurd hx hxn
      · exact Or.inl
  · split
    · rw [mem_setErase_iff]
      exact ⟨fun h => h.1, fun h => ⟨h, hxo⟩⟩
    · exact Iff.rfl

theorem uoi_mem_new (st : DBState) (oldO newO : String) (g : ℕ) (h : newO ≠ "") :
    (newO, g) ∈ (updateOwnerIndex oldO newO g st).ownerIdx := by
  unfold updateOwnerIndex
  dsimp only
  rw [if_pos h]
  exact (mem_setInsert_iff _ _ _).mpr (Or.inr rfl)

theorem uoi_nonempty (st : DBState) (oldO newO : String) (g : ℕ)
    (hok : ownerKeysNonempty st) :
    ∀ e ∈ (updateOwnerIndex oldO newO g st).ownerIdx, e.1 ≠ "" := by
  intro e he
  unfold updateOwnerIndex at he
  dsimp only at he
  by_cases hn : newO ≠ ""
  · rw [if_pos hn] at he
    rcases (mem_setInsert_iff _ _ _).mp he with he1 | he1
    · by_cases ho : oldO ≠ ""
      · rw [if_pos ho] at he1
        exact hok e ((mem_setErase_iff _ _ _).mp he1).1
      · rw [if_neg ho] at he1
        exact hok e he1
    · rw [he1]
      exact hn
  · rw [if_neg hn] at he
    by_cases ho : oldO ≠ ""
    · rw [if_pos ho] at he
      exact hok e ((mem_setErase_iff _ _ _).mp he).1
    · rw [if_neg ho] at he
      exact hok e he

theorem uoi_nodup (st : DBState) (oldO newO : String) (g : ℕ)
    (h : st.ownerIdx.Nodup) : (updateOwnerIndex oldO newO g st).ownerIdx.Nodup := by
  unfold updateOwnerIndex
  dsimp only
  split
  · split
    · exact setInsert_nodup _ _ (setErase_nodup _ _ h)
    · exact setInsert_nodup _ _ h
  · split
    · exact setErase_nodup _ _ h
    · exact h

/-- One owner rollback step keeps the store well-formed. -/
theorem applyOwnerUpdate_storeInv (st : DBState) (u : ℕ × String) (hs : storeInv st) :
    storeInv (applyOwnerUpdate st u) := by
  obtain ⟨hnd, hhs, hhc, hts, htc, hok, hoi⟩ := hs
  unfold applyOwnerUpdate
  cases hr : kvRead st.points u.1 with
  | none => exact ⟨hnd, hhs, hhc, hts, htc, hok, hoi⟩
  | some r =>
    show storeInv
      (updateOwnerIndex r.current_owner u.2 u.1
        (writeRecord u.1 { r with current_owner := u.2 } st))
    refine ⟨⟨?_, ?_, ?_, ?_, ?_⟩, ?_, ?_, ?_, ?_, ?_, ?_⟩
    · show ((kvWrite st.points u.1 { r with current_owner := u.2 }).map Prod.fst).Nodup
      exact kvWrite_keys_nodup _ _ _ hnd.1
    · exact hnd.2.1
    · exact hnd.2.2.1
    · exact uoi_nodup _ _ _ _ hnd.2.2.2.1
    · exact hnd.2.2.2.2
    · intro k hk
      show (kvRead (kvWrite st.points u.1 { r with current_owner := u.2 }) k.2).map
        Record.height = some k.1
      by_cases hk2 : k.2 = u.1
      · rw [hk2, kvRead_kvWrite_self]
        have hold := hhs k hk
        rw [hk2, hr] at hold
        simpa using hold
      · rw [kvRead_kvWrite_ne _ _ _ _ hk2]
        exact hhs k hk
    · intro e he
      have he' : e = (u.1, { r with current_owner := u.2 }) ∨ e ∈ kvErase st.points u.1 :=
        List.mem_cons.mp he
      show (e.2.height, e.1) ∈ st.heightIdx
      rcases he' with rfl | hmem
      · exact hhc (u.1, r) (mem_of_kvRead_eq_some hr)
      · exact hhc e ((mem_kvErase_iff _ _ _).mp hmem).1
    · exact hts
    · exact htc
    · exact uoi_nonempty _ _ _ _ hok
    · intro e he
      have he' : e = (u.1, { r with current_owner := u.2 }) ∨ e ∈ kvErase st.points u.1 :=
        List.mem_cons.mp he
      rcases he' with rfl | hmem
      · exact ⟨fun hmem2 => uoi_nonempty _ _ _ _ hok _ hmem2,
          fun hne => uoi_mem_new _ _ _ _ hne⟩
      · have hin := (mem_kvErase_iff _ _ _).mp hmem
        rw [uoi_mem_other _ _ _ _ _ (fun hc => hin.2 hc)]
        exact hoi e hin.1

theorem ownerFold_storeInv (us : List (ℕ × String)) (st : DBState) (hs : storeInv st) :
    storeInv (us.foldl applyOwnerUpdate st) := by
  induction us generalizing st with
  | nil => exact hs
  | cons u rest ih =>
    rw [List.foldl_cons]
    exact ih _ (applyOwnerUpdate_storeInv st u hs)

/-! ## Rewind: lemmas about the point-erasure pass -/

theorem epahFold_transfers (s : DBState) (keys : List (ℕ × ℕ)) (acc : List ℕ × DBState) :
    (keys.foldl (epahStep s) acc).2.transfers = acc.2.transfers ∧
    (keys.foldl (epahStep s) acc).2.transferHeightIdx = acc.2.transferHeightIdx := by
  induction keys generalizing acc with
  | nil => exact ⟨rfl, rfl⟩
  | cons k rest ih =>
    rw [List.foldl_cons]
    obtain ⟨h1, h2⟩ := ih (epahStep s acc k)
    refine ⟨h1.trans ?_, h2.trans ?_⟩
    · show (epahStep s acc k).2.transfers = acc.2.transfers
      unfold epahStep
      cases kvRead s.points k.2 <;> rfl
    · show (epahStep s acc k).2.transferHeightIdx = acc.2.transferHeightIdx
      unfold epahStep
      cases kvRead s.points k.2 <;> rfl

theorem epahFold_points_none (s : DBState) (keys : List (ℕ × ℕ)) (acc : List ℕ × DBState)
    (o : ℕ) (h : kvRead acc.2.points o = none) :
    kvRead (keys.foldl (epahStep s) acc).2.points o = none := by
  induction keys generalizing acc with
  | nil => exact h
  | cons k rest ih =>
    rw [List.foldl_cons]
    apply ih
    show kvRead (epahStep s acc k).2.points o = none
    unfold epahStep
    cases kvRead s.points k.2 with
    | none => exact h
    | some r =>
      dsimp only
      by_cases hk : o = k.2
      · rw [hk, kvRead_kvErase_self]
      · rw [kvRead_kvErase_ne _ _ _ hk]
        exact h

theorem epahFold_points_erased (s : DBState) (keys : List (ℕ × ℕ)) (acc : List ℕ × DBState)
    (k0 : ℕ × ℕ) (hk : k0 ∈ keys) (hs : (kvRead s.points k0.2).isSome = true) :
    kvRead (keys.foldl (epahStep s) acc).2.points k0.2 = none := by
  induction keys generalizing acc with
  | nil => exact absurd hk (List.not_mem_nil _)
  | cons k rest ih =>
    rw [List.foldl_cons]
    rcases List.mem_cons.mp hk with heq | hmem
    · apply epahFold_points_none
      show kvRead (epahStep s acc k).2.points k0.2 = none
      unfold epahStep
      rw [← heq]
      cases hr : kvRead s.points k0.2 with
      | none =>
        rw [hr] at hs
        exact absurd hs (by simp)
      | some r =>
        dsimp only
        exact kvRead_kvErase_self _ _
    · exact ih (epahStep s acc k) hmem

theorem epahFold_points_pres (s : DBState) (keys : List (ℕ × ℕ)) (acc : List ℕ × DBState)
    (o : ℕ) (h : ∀ k ∈ keys, k.2 ≠ o) :
    kvRead (keys.foldl (epahStep s) acc).2.points o = kvRead acc.2.points o := by
  induction keys generalizing acc with
  | nil => rfl
  | cons k rest ih =>
    rw [List.foldl_cons,
      ih (epahStep s acc k) (fun k' hk' => h k' (List.mem_cons_of_mem _ hk'))]
    show kvRead (epahStep s acc k).2.points o = kvRead acc.2.points o
    unfold epahStep
    cases kvRead s.points k.2 with
    | none => rfl
    | some r =>
      dsimp only
      exact kvRead_kvErase_ne _ _ _ (fun hc => h k (List.mem_cons_self _ _) hc.symm)

theorem epahFold_list_mono (s : DBState) (keys : List (ℕ × ℕ)) (acc : List ℕ × DBState)
    (x : ℕ) (h : x ∈ acc.1) : x ∈ (keys.foldl (epahStep s) acc).1 := by
  induction keys generalizing acc with
  | nil => exact h
  | cons k rest ih =>
    rw [List.foldl_cons]
    apply ih
    show x ∈ (epahStep s acc k).1
    unfold epahStep
    cases kvRead s.points k.2 with
    | none => exact h
    | some r => exact List.mem_append.mpr (Or.inl h)

theorem epahFold_list_mem (s : DBState) (keys : List (ℕ × ℕ)) (acc : List ℕ × DBState)
    (x : ℕ) (h : x ∈ (keys.foldl (epahStep s) acc).1) :
    x ∈ acc.1 ∨ ∃ k ∈ keys, k.2 = x := by
  induction keys generalizing acc with
  | nil => exact Or.inl h
  | cons k rest ih =>
    rw [List.foldl_cons] at h
    rcases ih (epahStep s acc k) h with h1 | ⟨k', hk', hk2⟩
    · revert h1
      show x ∈ (epahStep s acc k).1 → _
      unfold epahStep
      cases kvRead s.points k.2 with
      | none => exact fun h1 => Or.inl h1
      | some r =>
        intro h1
        rcases List.mem_append.mp h1 with h2 | h2
        · exact Or.inl h2
        · exact Or.inr ⟨k, List.mem_cons_self _ _, (List.mem_singleton.mp h2).symm⟩
    · exact Or.inr ⟨k', List.mem_cons_of_mem _ hk', hk2⟩

theorem epahFold_list_hit (s : DBState) (keys : List (ℕ × ℕ)) (acc : List ℕ × DBState)
    (o : ℕ) (hs : (kvRead s.points o).isSome = true) (hmem : ∃ k ∈ keys, k.2 = o) :
    o ∈ (keys.foldl (epahStep s) acc).1 := by
  induction keys generalizing acc with
  | nil =>
    obtain ⟨k, hk, _⟩ := hmem
    exact absurd hk (List.not_mem_nil _)
  | cons k rest ih =>
    rw [List.foldl_cons]
    obtain ⟨k0, hk0, hk02⟩ := hmem
    rcases List.mem_cons.mp hk0 with heq | hmem2
    · apply epahFold_list_mono
      show o ∈ (epahStep s acc k).1
      unfold epahStep
      have hko : k.2 = o := heq ▸ hk02
      rw [hko]
      cases hr : kvRead s.points o with
      | none =>
        rw [hr] at hs
        exact absurd hs (by simp)
      | some r => exact List.mem_append.mpr (Or.inr (List.mem_singleton.mpr rfl))
    · exact ih (epahStep s acc k) ⟨k0, hmem2, hk02⟩

/-- Erasing one point together with its height- and owner-index entries keeps
the store well-formed, provided the erased height-index entry is the only one
naming the point. -/
theorem eraseState_storeInv (st : DBState) (k : ℕ × ℕ) (w : String)
    (hinv : storeInv st)
    (huniq : ∀ k' ∈ st.heightIdx, k'.2 = k.2 → k' = k) :
    storeInv { st with
      points := kvErase st.points k.2
      ownerIdx := if w ≠ "" then setErase st.ownerIdx (w, k.2) else st.ownerIdx
      heightIdx := setErase st.heightIdx k } := by
  obtain ⟨hnd, hhs, hhc, hts, htc, hok, hoi⟩ := hinv
  refine ⟨⟨kvErase_keys_nodup _ _ hnd.1, hnd.2.1, setErase_nodup _ _ hnd.2.2.1, ?_,
    hnd.2.2.2.2⟩, ?_, ?_, hts, htc, ?_, ?_⟩
  · show (if w ≠ "" then setErase st.ownerIdx (w, k.2) else st.ownerIdx).Nodup
    split
    · exact setErase_nodup _ _ hnd.2.2.2.1
    · exact hnd.2.2.2.1
  · intro k' hk'
    have hk'2 := (mem_setErase_iff _ _ _).mp hk'
    have hne : k'.2 ≠ k.2 := fun hc => hk'2.2 (huniq k' hk'2.1 hc)
    show (kvRead (kvErase st.points k.2) k'.2).map Record.height = some k'.1
    rw [kvRead_kvErase_ne _ _ _ hne]
    exact hhs k' hk'2.1
  · intro e he
    have he2 := (mem_kvErase_iff _ _ _).mp he
    show (e.2.height, e.1) ∈ setErase st.heightIdx k
    rw [mem_setErase_iff]
    exact ⟨hhc e he2.1, fun hc => he2.2 (congrArg Prod.snd hc)⟩
  · intro e he
    have he' : e ∈ (if w ≠ "" then setErase st.ownerIdx (w, k.2) else st.ownerIdx) := he
    revert he'
    split
    · intro he'
      exact hok e ((mem_setErase_iff _ _ _).mp he').1
    · intro he'
      exact hok e he'
  · intro e he
    have he2 := (mem_kvErase_iff _ _ _).mp he
    show (e.2.current_owner, e.1) ∈
        (if w ≠ "" then setErase st.ownerIdx (w, k.2) else st.ownerIdx) ↔
      e.2.current_owner ≠ ""
    have hiff :
        (e.2.current_owner, e.1) ∈
            (if w ≠ "" then setErase st.ownerIdx (w, k.2) else st.ownerIdx) ↔
          (e.2.current_owner, e.1) ∈ st.ownerIdx := by
      split
      · rw [mem_setErase_iff]
        exact ⟨fun h => h.1, fun h => ⟨h, fun hc => he2.2 (congrArg Prod.snd hc)⟩⟩
      · exact Iff.rfl
    rw [hiff]
    exact hoi e he2.1

theorem epahStep_storeInv (s : DBState) (acc : List ℕ × DBState) (k : ℕ × ℕ)
    (hinv : storeInv acc.2)
    (hsub : ∀ key rec, kvRead acc.2.points key = some rec → kvRead s.points key = some rec)
    (hk : k ∈ acc.2.heightIdx) :
    storeInv (epahStep s acc k).2 := by
  unfold epahStep
  cases hr : kvRead s.points k.2 with
  | none =>
    obtain ⟨hnd, hhs, hhc, hts, htc, hok, hoi⟩ := hinv
    have hnone : kvRead acc.2.points k.2 = none := by
      cases hacc : kvRead acc.2.points k.2 with
      | none => rfl
      | some r =>
        have hcontra := hsub k.2 r hacc
        rw [hr] at hcontra
        exact Option.noConfusion hcontra
    refine ⟨⟨hnd.1, hnd.2.1, setErase_nodup _ _ hnd.2.2.1, hnd.2.2.2.1, hnd.2.2.2.2⟩,
      ?_, ?_, hts, htc, hok, hoi⟩
    · intro k' hk'
      exact hhs k' ((mem_setErase_iff _ _ _).mp hk').1
    · intro e he
      show (e.2.height, e.1) ∈ setErase acc.2.heightIdx k
      rw [mem_setErase_iff]
      refine ⟨hhc e he, fun hc => ?_⟩
      have he1 : e.1 = k.2 := congrArg Prod.snd hc
      have hsome : (kvRead acc.2.points e.1).isSome :=
        (kvRead_isSome_iff_mem_keys _ _).mpr (List.mem_map_of_mem Prod.fst he)
      rw [he1, hnone] at hsome
      exact absurd hsome (by simp)
  | some r =>
    have huniq : ∀ k' ∈ acc.2.heightIdx, k'.2 = k.2 → k' = k := by
      intro k' hk' hc
      cases hacc : kvRead acc.2.points k.2 with
      | none =>
        have hs1 := hinv.2.1 k' hk'
        rw [hc, hacc] at hs1
        exact absurd hs1 (by simp)
      | some racc =>
        have hs1 := hinv.2.1 k' hk'
        rw [hc, hacc] at hs1
        have hs2 := hinv.2.1 k hk
        rw [hacc] at hs2
        have e1 : racc.height = k'.1 := by simpa using hs1
        have e2 : racc.height = k.1 := by simpa using hs2
        have e3 : k'.1 = k.1 := by omega
        exact Prod.ext e3 hc
    exact eraseState_storeInv acc.2 k r.current_owner hinv huniq

theorem epahFold_storeInv (s : DBState) (keys : List (ℕ × ℕ)) (acc : List ℕ × DBState)
    (hinv : storeInv acc.2)
    (hsub : ∀ key rec, kvRead acc.2.points key = some rec → kvRead s.points key = some rec)
    (hnd : keys.Nodup) (hkeys : ∀ k ∈ keys, k ∈ acc.2.heightIdx) :
    storeInv (keys.foldl (epahStep s) acc).2 := by
  induction keys generalizing acc with
  | nil => exact hinv
  | cons k rest ih =>
    rw [List.foldl_cons]
    have hstep := epahStep_storeInv s acc k hinv hsub (hkeys k (List.mem_cons_self _ _))
    apply ih (epahStep s acc k) hstep
    · intro key rec hread
      apply hsub
      revert hread
      show kvRead (epahStep s acc k).2.points key = some rec → _
      unfold epahStep
      cases kvRead s.points k.2 with
      | none => exact id
      | some r =>
        dsimp only
        intro hread
        by_cases hkey : key = k.2
        · rw [hkey, kvRead_kvErase_self] at hread
          exact Option.noConfusion hread
        · rw [kvRead_kvErase_ne _ _ _ hkey] at hread
          exact hread
    · exact (List.nodup_cons.mp hnd).2
    · intro k' hk'
      have hne : k' ≠ k := fun hc => (List.nodup_cons.mp hnd).1 (hc ▸ hk')
      have hold := hkeys k' (List.mem_cons_of_mem _ hk')
      show k' ∈ (epahStep s acc k).2.heightIdx
      unfold epahStep
      cases kvRead s.points k.2 with
      | none =>
        dsimp only
        exact (mem_setErase_iff _ _ _).mpr ⟨hold, hne⟩
      | some r =>
        dsimp only
        exact (mem_setErase_iff _ _ _).mpr ⟨hold, hne⟩

theorem mem_removedPointKeys (s : DBState) (h : ℕ) (k : ℕ × ℕ) :
    k ∈ removedPointKeys s h ↔ k ∈ s.heightIdx ∧ h < k.1 := by
  unfold removedPointKeys
  rw [List.Perm.mem_iff (List.perm_insertionSort _ _)]
  simp [List.mem_filter]

theorem removedPointKeys_nodup (s : DBState) (h : ℕ) (hnd : s.heightIdx.Nodup) :
    (removedPointKeys s h).Nodup := by
  unfold removedPointKeys
  exact (List.Perm.nodup_iff (List.perm_insertionSort _ _)).mpr (hnd.filter _)

/-! ## Rewind: lemmas about the per-origin transfer sweep -/

theorem kvRead_filter_fst_ne {β : Type} (m : List ((ℕ × ℕ) × β)) (o t : ℕ) :
    kvRead (m.filter (fun e => decide (e.1.1 ≠ o))) (o, t) = none := by
  induction m with
  | nil => rfl
  | cons e rest ih =>
    by_cases hp : e.1.1 ≠ o
    · rw [List.filter_cons_of_pos (by simpa using hp)]
      simp only [kvRead]
      rw [if_neg (fun hc : e.1 = (o, t) => hp (by rw [hc]))]
      exact ih
    · rw [List.filter_cons_of_neg (by simpa using hp)]
      exact ih

theorem rato_fields (s : DBState) (o : ℕ) :
    (removeAllTransfersForOrigin s o).points = s.points ∧
    (removeAllTransfersForOrigin s o).heightIdx = s.heightIdx ∧
    (removeAllTransfersForOrigin s o).ownerIdx = s.ownerIdx :=
  ⟨rfl, rfl, rfl⟩

theorem rato_transfers_origin (s : DBState) (o t : ℕ) :
    kvRead (removeAllTransfersForOrigin s o).transfers (o, t) = none :=
  kvRead_filter_fst_ne s.transfers o t

theorem rato_transfers_other (s : DBState) (o : ℕ) (key : ℕ × ℕ) (h : key.1 ≠ o) :
    kvRead (removeAllTransfersForOrigin s o).transfers key = kvRead s.transfers key := by
  apply kvRead_filter_of_key_true
  intro v
  simpa using h

theorem rato_storeInv (s : DBState) (o : ℕ) (hs : storeInv s) :
    storeInv (removeAllTransfersForOrigin s o) := by
  obtain ⟨hnd, hhs, hhc, hts, htc, hok, hoi⟩ := hs
  refine ⟨⟨hnd.1, ?_, hnd.2.2.1, hnd.2.2.2.1, ?_⟩, hhs, hhc, ?_, ?_, hok, hoi⟩
  · exact filter_keys_nodup _ _ hnd.2.1
  · show ((s.transfers.filter (fun e => decide (e.1.1 = o))).foldl
      (fun th e => setErase th (e.2.height, e.1.1, e.1.2)) s.transferHeightIdx).Nodup
    exact setEraseFold_nodup _ _ _ hnd.2.2.2.2
  · intro k hk
    have hk2 := (mem_setEraseFold (fun (e : (ℕ × ℕ) × TransferRecord) =>
      (e.2.height, e.1.1, e.1.2)) (s.transfers.filter (fun e => decide (e.1.1 = o)))
      s.transferHeightIdx k).mp hk
    have hsnd := hts k hk2.1
    by_cases hko : k.2.1 = o
    · cases hread : kvRead s.transfers (k.2.1, k.2.2) with
      | none =>
        rw [hread] at hsnd
        exact absurd hsnd (by simp)
      | some rec =>
        rw [hread] at hsnd
        have hrh : rec.height = k.1 := by simpa using hsnd
        have hmem : ((k.2.1, k.2.2), rec) ∈ s.transfers := mem_of_kvRead_eq_some hread
        have hfil : ((k.2.1, k.2.2), rec) ∈
            s.transfers.filter (fun e => decide (e.1.1 = o)) :=
          List.mem_filter.mpr ⟨hmem, by simpa using hko⟩
        have hkeq : (rec.height, k.2.1, k.2.2) = k := by rw [hrh]
        exact absurd hkeq (hk2.2 _ hfil)
    · show (kvRead (removeAllTransfersForOrigin s o).transfers (k.2.1, k.2.2)).map
        TransferRecord.height = some k.1
      rw [rato_transfers_other s o (k.2.1, k.2.2) hko]
      exact hsnd
  · intro e he
    have he2 := List.mem_filter.mp he
    have hne : e.1.1 ≠ o := by simpa using he2.2
    have hent := htc e he2.1
    show (e.2.height, e.1.1, e.1.2) ∈
      (s.transfers.filter (fun e => decide (e.1.1 = o))).foldl
        (fun th e => setErase th (e.2.height, e.1.1, e.1.2)) s.transferHeightIdx
    rw [mem_setEraseFold]
    refine ⟨hent, ?_⟩
    intro e' he' hc
    have he'2 := List.mem_filter.mp he'
    have he'o : e'.1.1 = o := by simpa using he'2.2
    have he1 : e'.1.1 = e.1.1 := congrArg (fun x => x.2.1) hc
    exact hne (by rw [← he1, he'o])

theorem ratoFold_fields (l : List ℕ) (st : DBState) :
    (l.foldl removeAllTransfersForOrigin st).points = st.points ∧
    (l.foldl removeAllTransfersForOrigin st).heightIdx = st.heightIdx ∧
    (l.foldl removeAllTransfersForOrigin st).ownerIdx = st.ownerIdx := by
  induction l generalizing st with
  | nil => exact ⟨rfl, rfl, rfl⟩
  | cons o rest ih => exact ih (removeAllTransfersForOrigin st o)

theorem ratoFold_transfers_none (l : List ℕ) (st : DBState) (key : ℕ × ℕ)
    (h : kvRead st.transfers key = none) :
    kvRead (l.foldl removeAllTransfersForOrigin st).transfers key = none := by
  induction l generalizing st with
  | nil => exact h
  | cons o rest ih =>
    rw [List.foldl_cons]
    apply ih
    show kvRead (removeAllTransfersForOrigin st o).transfers key = none
    exact kvRead_filter_none _ _ _ h

theorem ratoFold_transfers_origin (l : List ℕ) (st : DBState) (o : ℕ) (ho : o ∈ l)
    (t : ℕ) :
    kvRead (l.foldl removeAllTransfersForOrigin st).transfers (o, t) = none := by
  induction l generalizing st with
  | nil => exact absurd ho (List.not_mem_nil _)
  | cons o0 rest ih =>
    rw [List.foldl_cons]
    rcases List.mem_cons.mp ho with heq | hmem
    · apply ratoFold_transfers_none
      rw [heq]
      exact rato_transfers_origin st o0 t
    · exact ih (removeAllTransfersForOrigin st o0) hmem

theorem ratoFold_transfers_pres (l : List ℕ) (st : DBState) (key : ℕ × ℕ)
    (h : ∀ x ∈ l, x ≠ key.1) :
    kvRead (l.foldl removeAllTransfersForOrigin st).transfers key =
      kvRead st.transfers key := by
  induction l generalizing st with
  | nil => rfl
  | cons o rest ih =>
    rw [List.foldl_cons, ih _ (fun x hx => h x (List.mem_cons_of_mem _ hx))]
    exact rato_transfers_other st o key (fun hc => h o (List.mem_cons_self _ _) hc.symm)

theorem ratoFold_storeInv (l : List ℕ) (st : DBState) (hs : storeInv st) :
    storeInv (l.foldl removeAllTransfersForOrigin st) := by
  induction l generalizing st with
  | nil => exact hs
  | cons o rest ih =>
    rw [List.foldl_cons]
    exact ih _ (rato_storeInv st o hs)

/-! ## Rewind: assembled facts -/

theorem rewind_eq (s : DBState) (h : ℕ) :
    rewind s h =
      (erasePointsAboveHeight (rewindMid s h) h).1.foldl removeAllTransfersForOrigin
        (erasePointsAboveHeight (rewindMid s h) h).2 := rfl

theorem rewindMid_fields (s : DBState) (h : ℕ) :
    (rewindMid s h).heightIdx = s.heightIdx ∧
    (rewindMid s h).transfers = (removeTransfersAboveHeight s h).2.transfers := by
  constructor
  · show ((removeTransfersAboveHeight s h).1.foldl applyOwnerUpdate
      (removeTransfersAboveHeight s h).2).heightIdx = s.heightIdx
    rw [(ownerFold_transfers _ _).2.2, (rtah_fields s h).2.1]
  · exact (ownerFold_transfers _ _).1

theorem rewindMid_points_some (s : DBState) (h : ℕ) (o : ℕ) (r : Record)
    (hr : kvRead s.points o = some r) :
    kvRead (rewindMid s h).points o =
      some { r with
        current_owner := firstOwner (collectedOwnerUpdates s h) o r.current_owner } := by
  unfold rewindMid
  have hp : kvRead (removeTransfersAboveHeight s h).2.points o = some r := by
    rw [(rtah_fields s h).1]
    exact hr
  rw [ownerFold_points_some _ _ _ _ hp,
    show (removeTransfersAboveHeight s h).1 = (collectedOwnerUpdates s h).reverse from rfl,
    lastOwner_reverse]

theorem rewindMid_points_none (s : DBState) (h : ℕ) (o : ℕ)
    (hr : kvRead s.points o = none) :
    kvRead (rewindMid s h).points o = none := by
  unfold rewindMid
  apply ownerFold_points_none
  rw [(rtah_fields s h).1]
  exact hr

theorem rewindMid_storeInv (s : DBState) (h : ℕ) (hs : storeInv s) :
    storeInv (rewindMid s h) :=
  ownerFold_storeInv _ _ (rtah_storeInv s h hs)

theorem rewind_transfers_high (s : DBState) (h : ℕ) (key : ℕ × ℕ) (rec : TransferRecord)
    (hs : storeInv s) (hr : kvRead s.transfers key = some rec) (hh : h < rec.height) :
    kvRead (rewind s h).transfers key = none := by
  have h1 : kvRead (removeTransfersAboveHeight s h).2.transfers key = none :=
    rtah_transfers_high s h key rec hs.2.2.2.2.1 hr hh
  have h2 : kvRead (rewindMid s h).transfers key = none := by
    rw [(rewindMid_fields s h).2]
    exact h1
  have h3 : kvRead (erasePointsAboveHeight (rewindMid s h) h).2.transfers key = none := by
    show kvRead ((removedPointKeys (rewindMid s h) h).foldl (epahStep (rewindMid s h))
      ([], rewindMid s h)).2.transfers key = none
    rw [(epahFold_transfers _ _ _).1]
    exact h2
  rw [rewind_eq]
  exact ratoFold_transfers_none _ _ _ h3

theorem rewind_points_low (s : DBState) (h : ℕ) (o : ℕ) (r : Record)
    (hs : storeInv s) (hr : kvRead s.points o = some r) (hh : r.height ≤ h) :
    kvRead (rewind s h).points o =
      some { r with
        current_owner := firstOwner (collectedOwnerUpdates s h) o r.current_owner } := by
  have hmid := rewindMid_points_some s h o r hr
  have hpres : ∀ k ∈ removedPointKeys (rewindMid s h) h, k.2 ≠ o := by
    intro k hk hc
    have hk2 := (mem_removedPointKeys _ h k).mp hk
    have hmidInv := rewindMid_storeInv s h hs
    have hsound := hmidInv.2.1 k hk2.1
    rw [hc, hmid] at hsound
    have hre : r.height = k.1 := by simpa using hsound
    omega
  have h3 : kvRead (erasePointsAboveHeight (rewindMid s h) h).2.points o =
      kvRead (rewindMid s h).points o := by
    show kvRead ((removedPointKeys (rewindMid s h) h).foldl (epahStep (rewindMid s h))
      ([], rewindMid s h)).2.points o = _
    exact epahFold_points_pres _ _ _ _ hpres
  rw [rewind_eq, (ratoFold_fields _ _).1, h3, hmid]

theorem rewind_points_high (s : DBState) (h : ℕ) (o : ℕ) (r : Record)
    (hs : storeInv s) (hr : kvRead s.points o = some r) (hh : h < r.height) :
    kvRead (rewind s h).points o = none ∧
    ∀ t, kvRead (rewind s h).transfers (o, t) = none := by
  have hmid := rewindMid_points_some s h o r hr
  have hkey : (r.height, o) ∈ s.heightIdx := hs.2.2.1 (o, r) (mem_of_kvRead_eq_some hr)
  have hkey2 : (r.height, o) ∈ removedPointKeys (rewindMid s h) h := by
    rw [mem_removedPointKeys]
    refine ⟨?_, hh⟩
    rw [(rewindMid_fields s h).1]
    exact hkey
  have hsomeMid : (kvRead (rewindMid s h).points o).isSome = true := by
    rw [hmid]
    rfl
  constructor
  · rw [rewind_eq, (ratoFold_fields _ _).1]
    exact epahFold_points_erased (rewindMid s h) _ ([], rewindMid s h) (r.height, o)
      hkey2 hsomeMid
  · intro t
    have hhit : o ∈ (erasePointsAboveHeight (rewindMid s h) h).1 :=
      epahFold_list_hit (rewindMid s h) _ ([], rewindMid s h) o hsomeMid
        ⟨(r.height, o), hkey2, rfl⟩
    rw [rewind_eq]
    exact ratoFold_transfers_origin _ _ o hhit t

theorem rewind_transfers_low (s : DBState) (h : ℕ) (key : ℕ × ℕ) (rec : TransferRecord)
    (hs : storeInv s) (hr : kvRead s.transfers key = some rec) (hh : rec.height ≤ h)
    (hor : ∀ r, kvRead s.points key.1 = some r → r.height ≤ h) :
    kvRead (rewind s h).transfers key = some rec := by
  have h1 : kvRead (removeTransfersAboveHeight s h).2.transfers key = some rec :=
    rtah_transfers_low s h key rec hs.2.2.2.1 hr hh
  have h2 : kvRead (rewindMid s h).transfers key = some rec := by
    rw [(rewindMid_fields s h).2]
    exact h1
  have h3 : kvRead (erasePointsAboveHeight (rewindMid s h) h).2.transfers key = some rec := by
    show kvRead ((removedPointKeys (rewindMid s h) h).foldl (epahStep (rewindMid s h))
      ([], rewindMid s h)).2.transfers key = some rec
    rw [(epahFold_transfers _ _ _).1]
    exact h2
  have h4 : key.1 ∉ (erasePointsAboveHeight (rewindMid s h) h).1 := by
    intro hx
    rcases epahFold_list_mem _ _ _ _ hx with h5 | ⟨k, hk, hk2⟩
    · exact absurd h5 (List.not_mem_nil _)
    · have hk3 := (mem_removedPointKeys _ h k).mp hk
      have hmidInv := rewindMid_storeInv s h hs
      have hsound := hmidInv.2.1 k hk3.1
      rw [hk2] at hsound
      cases hrs : kvRead s.points key.1 with
      | none =>
        rw [rewindMid_points_none s h key.1 hrs] at hsound
        exact absurd hsound (by simp)
      | some r0 =>
        rw [rewindMid_points_some s h key.1 r0 hrs] at hsound
        have hre : r0.height = k.1 := by simpa using hsound
        have := hor r0 hrs
        omega
  rw [rewind_eq, ratoFold_transfers_pres _ _ _ (fun x hx hc => h4 (hc ▸ hx))]
  exact h3

theorem rewind_storeInv (s : DBState) (h : ℕ) (hs : storeInv s) :
    storeInv (rewind s h) := by
  have hmidInv := rewindMid_storeInv s h hs
  have hepah : storeInv (erasePointsAboveHeight (rewindMid s h) h).2 := by
    apply epahFold_storeInv (rewindMid s h) _ ([], rewindMid s h) hmidInv
    · exact fun key rec hread => hread
    · apply removedPointKeys_nodup
      exact hmidInv.1.2.2.1
    · intro k hk
      exact ((mem_removedPointKeys _ h k).mp hk).1
  rw [rewind_eq]
  exact ratoFold_storeInv _ _ hepah

/-- **C3**.  For a well-formed store, `Rewind` to a tip of height `h`:
(1) removes every transfer recorded at a height above `h`;
(2) keeps every transfer recorded at or below `h` whose origin survives;
(3) removes every point created above `h` together with all transfers
referencing it;
(4) leaves every surviving point with its current owner rolled back through
the removed transfers in reverse block order — the final owner is the
`previous_owner` of the earliest removed transfer of that point (or the
stored owner when no transfer of the point was removed);
(5) consequently, when the earliest removed transfer of a fully rewound
surviving point records the origin owner as its previous owner (as every
store built by `WriteBlock` does), the point's current owner equals its
origin owner after the rewind. -/
theorem claimC3 (s : DBState) (h : ℕ) (hs : storeInv s) :
    (∀ key rec, kvRead s.transfers key = some rec → h < rec.height →
      kvRead (rewind s h).transfers key = none) ∧
    (∀ key rec, kvRead s.transfers key = some rec → rec.height ≤ h →
      (∀ r, kvRead s.points key.1 = some r → r.height ≤ h) →
      kvRead (rewind s h).transfers key = some rec) ∧
    (∀ o r, kvRead s.points o = some r → h < r.height →
      kvRead (rewind s h).points o = none ∧
      ∀ t, kvRead (rewind s h).transfers (o, t) = none) ∧
    (∀ o r, kvRead s.points o = some r → r.height ≤ h →
      kvRead (rewind s h).points o =
        some { r with current_owner :=
          ((ownerUpdatesFor s h o).head?.map Prod.snd).getD r.current_owner }) ∧
    (∀ o r, kvRead s.points o = some r → r.height ≤ h →
      (ownerUpdatesFor s h o).head?.map Prod.snd = some r.origin_owner →
      kvRead (rewind s h).points o = some { r with current_owner := r.origin_owner }) := by
  refine ⟨?_, ?_, ?_, ?_, ?_⟩
  · exact fun key rec hr hh => rewind_transfers_high s h key rec hs hr hh
  · exact fun key rec hr hh hor => rewind_transfers_low s h key rec hs hr hh hor
  · exact fun o r hr hh => rewind_points_high s h o r hs hr hh
  · intro o r hr hh
    rw [rewind_points_low s h o r hs hr hh, firstOwner_filter]
    rfl
  · intro o r hr hh hhead
    rw [rewind_points_low s h o r hs hr hh, firstOwner_filter]
    have hhead' :
        (((collectedOwnerUpdates s h).filter (fun u => decide (u.1 = o))).head?.map
          Prod.snd) = some r.origin_owner := hhead
    rw [hhead']
    rfl

/-- **C3** witness: the rewind facts instantiated on the concrete two-point
store `exRewDb`. -/
theorem claimC3_witness :
    kvRead (rewind exRewDb 1).transfers (5, 11) = none ∧
    kvRead (rewind exRewDb 2).transfers (5, 9) = some ⟨2, "B", "A"⟩ ∧
    (kvRead (rewind exRewDb 1).points 6 = none ∧
      kvRead (rewind exRewDb 1).transfers (6, 7) = none) ∧
    kvRead (rewind exRewDb 1).points 5 =
      some { height := 1, origin_owner := "A",
             current_owner := ((ownerUpdatesFor exRewDb 1 5).head?.map Prod.snd).getD "C",
             encoded_lat := 0, encoded_lon := 0 } ∧
    kvRead (rewind exRewDb 1).points 5 = some ⟨1, "A", "A", 0, 0⟩ := by
  have h1 := claimC3 exRewDb 1 (by decide)
  have h2 := claimC3 exRewDb 2 (by decide)
  refine ⟨?_, ?_, ?_, ?_, ?_⟩
  · exact h1.1 (5, 11) ⟨3, "C", "B"⟩ (by decide) (by decide)
  · exact h2.2.1 (5, 9) ⟨2, "B", "A"⟩ (by decide) (by decide)
      (by intro r hr; rw [← Option.some.inj hr]; decide)
  · have h3 := h1.2.2.1 6 ⟨2, "D", "E", 0, 0⟩ (by decide) (by decide)
    exact ⟨h3.1, h3.2 7⟩
  · exact h1.2.2.2.1 5 ⟨1, "A", "C", 0, 0⟩ (by decide) (by decide)
  · exact h1.2.2.2.2 5 ⟨1, "A", "C", 0, 0⟩ (by decide) (by decide) (by decide)

/-! ## WriteBlock: lemmas about the creation batch and the transfer loop -/

theorem wpStep_storeInv (s : DBState) (e : ℕ × Record) (hs : storeInv s)
    (hfresh : kvRead s.points e.1 = none) : storeInv (wpStep s e) := by
  obtain ⟨hnd, hhs, hhc, hts, htc, hok, hoi⟩ := hs
  have hhfresh : ∀ x ∈ s.heightIdx, x.2 ≠ e.1 := by
    intro x hx hc
    have hx2 := hhs x hx
    rw [hc, hfresh] at hx2
    exact absurd hx2 (by simp)
  unfold wpStep
  refine ⟨⟨?_, hnd.2.1, ?_, ?_, hnd.2.2.2.2⟩, ?_, ?_, hts, htc, ?_, ?_⟩
  · exact kvWrite_keys_nodup _ _ _ hnd.1
  · exact setInsert_nodup _ _ hnd.2.2.1
  · dsimp only
    split
    · exact setInsert_nodup _ _ hnd.2.2.2.1
    · exact hnd.2.2.2.1
  · intro k hk
    have hk' : k ∈ setInsert s.heightIdx (e.2.height, e.1) := hk
    rcases (mem_setInsert_iff _ _ _).mp hk' with hold | heq
    · have hne : k.2 ≠ e.1 := hhfresh k hold
      show (kvRead (kvWrite s.points e.1 e.2) k.2).map Record.height = some k.1
      rw [kvRead_kvWrite_ne _ _ _ _ hne]
      exact hhs k hold
    · subst heq
      show (kvRead (kvWrite s.points e.1 e.2) e.1).map Record.height = some e.2.height
      rw [kvRead_kvWrite_self]
      rfl
  · intro e' he'
    have he'' : e' = (e.1, e.2) ∨ e' ∈ kvErase s.points e.1 := List.mem_cons.mp he'
    show (e'.2.height, e'.1) ∈ setInsert s.heightIdx (e.2.height, e.1)
    rcases he'' with rfl | hmem
    · exact (mem_setInsert_iff _ _ _).mpr (Or.inr rfl)
    · exact (mem_setInsert_iff _ _ _).mpr
        (Or.inl (hhc e' ((mem_kvErase_iff _ _ _).mp hmem).1))
  · intro x hx
    have hx' : x ∈ (if e.2.current_owner ≠ "" then
        setInsert s.ownerIdx (e.2.current_owner, e.1) else s.ownerIdx) := hx
    revert hx'
    split
    · rename_i hcond
      intro hx'
      rcases (mem_setInsert_iff _ _ _).mp hx' with hold | heq
      · exact hok x hold
      · rw [heq]
        exact hcond
    · intro hx'
      exact hok x hx'
  · intro e' he'
    have he'' : e' = (e.1, e.2) ∨ e' ∈ kvErase s.points e.1 := List.mem_cons.mp he'
    rcases he'' with rfl | hmem
    · show ((e.2.current_owner, e.1) ∈ (if e.2.current_owner ≠ "" then
        setInsert s.ownerIdx (e.2.current_owner, e.1) else s.ownerIdx)) ↔
        e.2.current_owner ≠ ""
      constructor
      · intro hmem2
        by_cases hcur : e.2.current_owner ≠ ""
        · exact hcur
        · rw [if_neg hcur] at hmem2
          exact absurd (hok _ hmem2) hcur
      · intro hcur
        rw [if_pos hcur]
        exact (mem_setInsert_iff _ _ _).mpr (Or.inr rfl)
    · have hin := (mem_kvErase_iff _ _ _).mp hmem
      show ((e'.2.current_owner, e'.1) ∈ (if e.2.current_owner ≠ "" then
        setInsert s.ownerIdx (e.2.current_owner, e.1) else s.ownerIdx)) ↔
        e'.2.current_owner ≠ ""
      have hiff : ((e'.2.current_owner, e'.1) ∈ (if e.2.current_owner ≠ "" then
          setInsert s.ownerIdx (e.2.current_owner, e.1) else s.ownerIdx)) ↔
          (e'.2.current_owner, e'.1) ∈ s.ownerIdx := by
        split
        · rw [mem_setInsert_iff]
          constructor
          · rintro (hold | heq2)
            · exact hold
            · exact absurd (congrArg Prod.snd heq2) hin.2
          · exact Or.inl
        · exact Iff.rfl
      rw [hiff]
      exact hoi e' hin.1

theorem writePoints_fields (recs : List (ℕ × Record)) (s : DBState) :
    (writePoints recs s).transfers = s.transfers ∧
    (writePoints recs s).transferHeightIdx = s.transferHeightIdx := by
  induction recs generalizing s with
  | nil => exact ⟨rfl, rfl⟩
  | cons e rest ih => exact ih (wpStep s e)

theorem writePoints_storeInv (recs : List (ℕ × Record)) (s : DBState)
    (hs : storeInv s)
    (hfresh : ∀ e ∈ recs, kvRead s.points e.1 = none)
    (hnd : (recs.map Prod.fst).Nodup) :
    storeInv (writePoints recs s) := by
  induction recs generalizing s with
  | nil => exact hs
  | cons e rest ih =>
    show storeInv (rest.foldl wpStep (wpStep s e))
    have hnd' := List.nodup_cons.mp hnd
    apply ih (wpStep s e) (wpStep_storeInv s e hs (hfresh e (List.mem_cons_self _ _)))
    · intro e' he'
      have hne : e'.1 ≠ e.1 := by
        intro hc
        exact hnd'.1 (hc ▸ List.mem_map_of_mem Prod.fst he')
      show kvRead (kvWrite s.points e.1 e.2) e'.1 = none
      rw [kvRead_kvWrite_ne _ _ _ _ hne]
      exact hfresh e' (List.mem_cons_of_mem _ he')
    · exact hnd'.2

theorem writeTransfer_storeInv (st : DBState) (origin ttx : ℕ) (rec : TransferRecord)
    (hs : storeInv st)
    (hf2 : ∀ x ∈ st.transferHeightIdx, x.2.2 ≠ ttx) :
    storeInv (writeTransfer (origin, ttx) rec st) := by
  obtain ⟨hnd, hhs, hhc, hts, htc, hok, hoi⟩ := hs
  unfold writeTransfer
  refine ⟨⟨hnd.1, ?_, hnd.2.2.1, hnd.2.2.2.1, ?_⟩, hhs, hhc, ?_, ?_, hok, hoi⟩
  · exact kvWrite_keys_nodup _ _ _ hnd.2.1
  · exact setInsert_nodup _ _ hnd.2.2.2.2
  · intro k hk
    rcases (mem_setInsert_iff _ _ _).mp hk with hold | heq
    · have hne : (k.2.1, k.2.2) ≠ (origin, ttx) := by
        intro hc
        exact hf2 k hold (congrArg Prod.snd hc)
      show (kvRead (kvWrite st.transfers (origin, ttx) rec) (k.2.1, k.2.2)).map
        TransferRecord.height = some k.1
      rw [kvRead_kvWrite_ne _ _ _ _ hne]
      exact hts k hold
    · subst heq
      show (kvRead (kvWrite st.transfers (origin, ttx) rec) (origin, ttx)).map
        TransferRecord.height = some rec.height
      rw [kvRead_kvWrite_self]
      rfl
  · intro e he
    have he'' : e = ((origin, ttx), rec) ∨ e ∈ kvErase st.transfers (origin, ttx) :=
      List.mem_cons.mp he
    show (e.2.height, e.1.1, e.1.2) ∈
      setInsert st.transferHeightIdx (rec.height, origin, ttx)
    rcases he'' with rfl | hmem
    · exact (mem_setInsert_iff _ _ _).mpr (Or.inr rfl)
    · exact (mem_setInsert_iff _ _ _).mpr
        (Or.inl (htc e ((mem_kvErase_iff _ _ _).mp hmem).1))

theorem applyTransferOps_storeInv (sched : ℕ → Bool) (ts : List PendingTransfer)
    (i : ℕ) (st : DBState) (s' : DBState)
    (hs : storeInv st)
    (hgood : ∀ t ∈ ts, t.new_owner ≠ "" ∧
      ∀ x ∈ st.transferHeightIdx, x.2.2 ≠ t.transfer_txid)
    (hnd : (ts.map PendingTransfer.transfer_txid).Nodup)
    (hrun : applyTransferOps sched i st ts = (true, s')) :
    storeInv s' := by
  induction ts generalizing i st with
  | nil =>
    unfold applyTransferOps at hrun
    have heq : st = s' := ((Prod.mk.injEq _ _ _ _).mp hrun).2
    rw [← heq]
    exact hs
  | cons t rest ih =>
    unfold applyTransferOps at hrun
    cases hr : kvRead st.points t.origin with
    | none =>
      rw [hr] at hrun
      dsimp only at hrun
      exact ih i st hs (fun t' ht' => hgood t' (List.mem_cons_of_mem _ ht'))
        ((List.nodup_cons.mp hnd).2) hrun
    | some r =>
      rw [hr] at hrun
      dsimp only at hrun
      by_cases h0 : sched i = true
      · rw [if_neg (not_not_intro h0)] at hrun
        by_cases h1 : sched (i + 1) = true
        · rw [if_neg (not_not_intro h1)] at hrun
          by_cases h2 : sched (i + 2) = true
          · rw [if_neg (not_not_intro h2)] at hrun
            have hst2 : applyOwnerUpdate st (t.origin, t.new_owner) =
                updateOwnerIndex r.current_owner t.new_owner t.origin
                  (writeRecord t.origin { r with current_owner := t.new_owner } st) := by
              unfold applyOwnerUpdate
              dsimp only
              rw [hr]
            have hinv2 : storeInv (updateOwnerIndex r.current_owner t.new_owner t.origin
                (writeRecord t.origin { r with current_owner := t.new_owner } st)) := by
              rw [← hst2]
              exact applyOwnerUpdate_storeInv st _ hs
            have hinv3 : storeInv (writeTransfer (t.origin, t.transfer_txid)
                ⟨t.height, t.new_owner, t.prev_owner⟩
                (updateOwnerIndex r.current_owner t.new_owner t.origin
                  (writeRecord t.origin { r with current_owner := t.new_owner } st))) := by
              apply writeTransfer_storeInv _ _ _ _ hinv2
              intro x hx
              exact (hgood t (List.mem_cons_self _ _)).2 x hx
            have hne : ∀ t' ∈ rest, t.transfer_txid ≠ t'.transfer_txid := by
              intro t' ht' hc
              exact (List.nodup_cons.mp hnd).1
                (hc ▸ List.mem_map_of_mem PendingTransfer.transfer_txid ht')
            have hgood3 : ∀ t' ∈ rest, t'.new_owner ≠ "" ∧
                ∀ x ∈ (writeTransfer (t.origin, t.transfer_txid)
                  ⟨t.height, t.new_owner, t.prev_owner⟩
                  (updateOwnerIndex r.current_owner t.new_owner t.origin
                    (writeRecord t.origin { r with current_owner := t.new_owner }
                      st))).transferHeightIdx,
                  x.2.2 ≠ t'.transfer_txid := by
              intro t' ht'
              have hg := hgood t' (List.mem_cons_of_mem _ ht')
              refine ⟨hg.1, ?_⟩
              intro x hx
              rcases (mem_setInsert_iff _ _ _).mp hx with hold | heq
              · exact hg.2 x hold
              · rw [heq]
                exact hne t' ht'
            exact ih (i + 3) _ hinv3 hgood3 ((List.nodup_cons.mp hnd).2) hrun
          · rw [if_pos h2] at hrun
            exact absurd (congrArg Prod.fst hrun) (by simp)
        · rw [if_pos h1] at hrun
          exact absurd (congrArg Prod.fst hrun) (by simp)
      · rw [if_pos h0] at hrun
        exact absurd (congrArg Prod.fst hrun) (by simp)

theorem sublist_append_cons {α : Type} (l a r : List α) (x : α)
    (hs : List.Sublist l (a ++ r)) :
    List.Sublist l (a ++ (x :: r)) :=
  hs.trans (List.Sublist.append_left (List.sublist_cons_self x r) a)

theorem pendingSet_keys (m : List (ℕ × Record)) (k : ℕ) (f : Record → Record) :
    (pendingSet m k f).map Prod.fst = m.map Prod.fst := by
  unfold pendingSet
  rw [List.map_map]
  apply List.map_congr_left
  intro a ha
  dsimp only [Function.comp]
  split <;> rfl

theorem mem_pendingSet_height (m : List (ℕ × Record)) (k : ℕ) (w : String) (h : ℕ)
    (hm : ∀ e ∈ m, e.2.height = h) :
    ∀ e ∈ pendingSet m k (fun r => { r with current_owner := w }), e.2.height = h := by
  intro e he
  unfold pendingSet at he
  rcases List.mem_map.mp he with ⟨a, ha, hae⟩
  rw [← hae]
  have hah := hm a ha
  split <;> exact hah

/-- The four scan-phase facts: the creation map's keys and the pending
transfers' txids are drawn (in order, without duplication) from the block's
transaction ids, every creation record carries the block height, and every
pending transfer has a non-empty new owner. -/
theorem scanBlock_facts (db : DBState) (h : ℕ) (txs : List Tx)
    (pp : List (ℕ × Record)) (pt : List PendingTransfer) :
    List.Sublist ((scanBlock db h txs pp pt).1.map Prod.fst)
      (pp.map Prod.fst ++ txs.map Tx.txid) ∧
    List.Sublist ((scanBlock db h txs pp pt).2.map PendingTransfer.transfer_txid)
      (pt.map PendingTransfer.transfer_txid ++ txs.map Tx.txid) ∧
    ((∀ e ∈ pp, e.2.height = h) → ∀ e ∈ (scanBlock db h txs pp pt).1, e.2.height = h) ∧
    ((∀ t ∈ pt, t.new_owner ≠ "") →
      ∀ t ∈ (scanBlock db h txs pp pt).2, t.new_owner ≠ "") := by
  induction txs generalizing pp pt with
  | nil =>
    refine ⟨?_, ?_, fun hp => hp, fun hp => hp⟩
    · show List.Sublist (pp.map Prod.fst) (pp.map Prod.fst ++ [])
      rw [List.append_nil]
    · show List.Sublist (pt.map PendingTransfer.transfer_txid)
        (pt.map PendingTransfer.transfer_txid ++ [])
      rw [List.append_nil]
  | cons tx rest ih =>
    have hskip :
        List.Sublist ((scanBlock db h rest pp pt).1.map Prod.fst)
          (pp.map Prod.fst ++ (tx.txid :: rest.map Tx.txid)) ∧
        List.Sublist ((scanBlock db h rest pp pt).2.map PendingTransfer.transfer_txid)
          (pt.map PendingTransfer.transfer_txid ++ (tx.txid :: rest.map Tx.txid)) ∧
        ((∀ e ∈ pp, e.2.height = h) → ∀ e ∈ (scanBlock db h rest pp pt).1,
          e.2.height = h) ∧
        ((∀ t ∈ pt, t.new_owner ≠ "") → ∀ t ∈ (scanBlock db h rest pp pt).2,
          t.new_owner ≠ "") := by
      obtain ⟨i1, i2, i3, i4⟩ := ih pp pt
      exact ⟨sublist_append_cons _ _ _ _ i1, sublist_append_cons _ _ _ _ i2, i3, i4⟩
    show List.Sublist ((scanBlock db h (tx :: rest) pp pt).1.map Prod.fst)
        (pp.map Prod.fst ++ (tx.txid :: rest.map Tx.txid)) ∧ _
    unfold scanBlock
    cases hex : extractRecord tx with
    | some r =>
      dsimp only
      obtain ⟨i1, i2, i3, i4⟩ := ih (mapEmplace pp tx.txid { r with height := h }) pt
      refine ⟨i1.trans ?_, ?_, ?_, i4⟩
      · show List.Sublist ((mapEmplace pp tx.txid { r with height := h }).map Prod.fst ++
          rest.map Tx.txid) (pp.map Prod.fst ++ (tx.txid :: rest.map Tx.txid))
        unfold mapEmplace
        split
        · exact List.Sublist.append_left (List.sublist_cons_self _ _) _
        · have heq : (pp ++ [(tx.txid, { r with height := h })]).map Prod.fst ++
              rest.map Tx.txid =
              pp.map Prod.fst ++ (tx.txid :: rest.map Tx.txid) := by
            rw [List.map_append, List.append_assoc]
            rfl
          rw [heq]
      · exact sublist_append_cons _ _ _ _ i2
      · intro hp
        apply i3
        intro e he
        unfold mapEmplace at he
        revert he
        split
        · exact fun he => hp e he
        · intro he
          rcases List.mem_append.mp he with h1 | h1
          · exact hp e h1
          · rw [List.mem_singleton.mp h1]
    | none =>
      dsimp only
      cases hfp : (if tx.isCoinbase then none else firstOpReturnPayload tx.vout) with
      | none => exact hskip
      | some payload =>
        dsimp only
        cases hpt : parseTransferPayload payload with
        | none => exact hskip
        | some origin =>
          dsimp only
          cases hprev : (match kvRead pp origin with
            | some pr => some pr.current_owner
            | none => (kvRead db.points origin).map (fun r => r.current_owner) :
              Option String) with
          | none => exact hskip
          | some prev =>
            dsimp only
            split
            · exact hskip
            split
            · exact hskip
            cases hown : extractOwnerAddress tx with
            | none => exact hskip
            | some newOwner =>
              dsimp only
              split
              · exact hskip
              rename_i hguard
              obtain ⟨i1, i2, i3, i4⟩ := ih
                (pendingSet pp origin (fun r => { r with current_owner := newOwner }))
                (pt ++ [⟨origin, tx.txid, h, newOwner, prev⟩])
              refine ⟨i1.trans ?_, i2.trans ?_, ?_, ?_⟩
              · rw [pendingSet_keys]
                exact List.Sublist.append_left (List.sublist_cons_self _ _) _
              · have heq : (pt ++ [(⟨origin, tx.txid, h, newOwner, prev⟩ :
                    PendingTransfer)]).map PendingTransfer.transfer_txid ++
                    rest.map Tx.txid =
                    pt.map PendingTransfer.transfer_txid ++
                      (tx.txid :: rest.map Tx.txid) := by
                  rw [List.map_append, List.append_assoc]
                  rfl
                rw [heq]
                exact List.Sublist.refl _
              · intro hp
                exact i3 (mem_pendingSet_height pp origin newOwner h hp)
              · intro hp
                apply i4
                intro t ht
                rcases List.mem_append.mp ht with h1 | h1
                · exact hp t h1
                · rw [List.mem_singleton.mp h1]
                  intro hc
                  exact hguard (Or.inl hc)

theorem writeBlock_storeInv (sched : ℕ → Bool) (db : DBState) (h : ℕ) (txs : List Tx)
    (s' : DBState) (hdb : storeInv db) (hfb : freshBlock db txs)
    (hrun : writeBlock sched db h txs = (true, s')) :
    storeInv s' := by
  obtain ⟨hndtx, hfresh⟩ := hfb
  obtain ⟨sk, st, _, sown⟩ := scanBlock_facts db h txs [] []
  have hgoods : ∀ st0 : List (ℕ × ℕ × ℕ), (∀ x ∈ st0, ∀ tx ∈ txs, x.2.2 ≠ tx.txid) →
      ∀ t ∈ (scanBlock db h txs [] []).2, t.new_owner ≠ "" ∧
        ∀ x ∈ st0, x.2.2 ≠ t.transfer_txid := by
    intro st0 hst0 t ht
    refine ⟨sown (fun t' ht' => absurd ht' (List.not_mem_nil t')) t ht, ?_⟩
    intro x hx hc
    have hmem : t.transfer_txid ∈ txs.map Tx.txid := by
      have := st.subset (List.mem_map_of_mem PendingTransfer.transfer_txid ht)
      simpa using this
    rcases List.mem_map.mp hmem with ⟨tx, htx, heq⟩
    exact hst0 x hx tx htx (hc.trans heq.symm)
  have hndt : ((scanBlock db h txs [] []).2.map PendingTransfer.transfer_txid).Nodup := by
    apply st.nodup
    simpa using hndtx
  unfold writeBlock at hrun
  by_cases hemp : (pendingList (scanBlock db h txs [] []).1).isEmpty = true
  · rw [if_pos hemp] at hrun
    apply applyTransferOps_storeInv sched _ 0 db s' hdb _ hndt hrun
    apply hgoods
    intro x hx tx htx
    exact (hfresh tx htx).2.2.2 x hx
  · rw [if_neg hemp] at hrun
    by_cases h0 : sched 0 = true
    · rw [if_neg (not_not_intro h0)] at hrun
      have hkeys : ∀ e ∈ pendingList (scanBlock db h txs [] []).1,
          e.1 ∈ txs.map Tx.txid := by
        intro e he
        have he1 : e ∈ (scanBlock db h txs [] []).1 :=
          (List.Perm.mem_iff (List.perm_insertionSort _ _)).mp he
        have := sk.subset (List.mem_map_of_mem Prod.fst he1)
        simpa using this
      have hwp : storeInv (writePoints (pendingList (scanBlock db h txs [] []).1) db) := by
        apply writePoints_storeInv _ _ hdb
        · intro e he
          rcases List.mem_map.mp (hkeys e he) with ⟨tx, htx, heq⟩
          rw [← heq]
          exact (hfresh tx htx).1
        · have hp2 : ((pendingList (scanBlock db h txs [] []).1).map Prod.fst).Perm
              (((scanBlock db h txs [] []).1).map Prod.fst) :=
            (List.perm_insertionSort _ _).map Prod.fst
          apply hp2.nodup_iff.mpr
          apply sk.nodup
          simpa using hndtx
      apply applyTransferOps_storeInv sched _ 1 _ s' hwp _ hndt hrun
      apply hgoods
      intro x hx tx htx
      have hx' : x ∈ db.transferHeightIdx := by
        have hfld := (writePoints_fields (pendingList (scanBlock db h txs [] []).1) db).2
        rw [hfld] at hx
        exact hx
      exact (hfresh tx htx).2.2.2 x hx'
    · rw [if_pos h0] at hrun
      exact absurd (congrArg Prod.fst hrun) (by simp)

/-- **C9**.  The secondary-index invariant — every stored point has a height
index entry `(height, txid)`, and an owner-index entry
`(current_owner, txid)` exactly when its current owner is non-empty — holds
in the empty store, and is preserved (together with full store
well-formedness) by every successful `WriteBlock` of a block with fresh
transaction ids and by every `Rewind`. -/
theorem claimC9 :
    storeInv DBState.empty ∧
    (∀ (sched : ℕ → Bool) (db : DBState) (h : ℕ) (txs : List Tx) (s' : DBState),
      storeInv db → freshBlock db txs → writeBlock sched db h txs = (true, s') →
      pointSecondaryInv s' ∧ storeInv s') ∧
    (∀ (s : DBState) (h : ℕ), storeInv s →
      pointSecondaryInv (rewind s h) ∧ storeInv (rewind s h)) := by
  refine ⟨by decide, ?_, ?_⟩
  · intro sched db h txs s' hdb hfb hrun
    have hinv := writeBlock_storeInv sched db h txs s' hdb hfb hrun
    exact ⟨⟨hinv.2.2.1, hinv.2.2.2.2.2.2⟩, hinv⟩
  · intro s h hs
    have hinv := rewind_storeInv s h hs
    exact ⟨⟨hinv.2.2.1, hinv.2.2.2.2.2.2⟩, hinv⟩

/-- **C9** witness: the empty store, a successful one-creation `WriteBlock`
on it, and a rewind of the concrete store `exRewDb`. -/
theorem claimC9_witness :
    storeInv DBState.empty ∧
    (pointSecondaryInv (writeBlock (fun _ => true) DBState.empty 1 [exCreationTx]).2 ∧
      storeInv (writeBlock (fun _ => true) DBState.empty 1 [exCreationTx]).2) ∧
    (pointSecondaryInv (rewind exRewDb 1) ∧ storeInv (rewind exRewDb 1)) :=
  ⟨claimC9.1,
   claimC9.2.1 (fun _ => true) DBState.empty 1 [exCreationTx] _ (by decide) (by decide)
     (by decide),
   claimC9.2.2 exRewDb 1 (by decide)⟩

end OrinSpec
